import Mathlib

/-!
SieveListBuffered: a shallow embedding.

Sequential model of `cachelib/allocator/datastruct/SieveListBuffered-inl.h`
(the `USE_EVICTION_BUFFER` variant).  Nodes are identified by their address, a
natural number; `nullptr` is `none`.  The hook fields of every node are kept
in three maps (`prev`, `next`, `accessed`).  Each operation is run to
completion; every compare-and-swap succeeds at its first attempt.

`abort()`, a null dereference, a spin loop that can never leave and a lock
that can never be taken are results of type `Abort`.  `XDCHECK*` lines are
debug-only and compile to nothing.  `printf` lines are dropped.

`size_` counts linked nodes and `bufIdx_` counts calls; they are natural
numbers here: linked nodes are distinct objects in a 64-bit address space, so
their number stays below 2^64, and no run makes 2^64 calls.  `unlink`
documents (`XDCHECK_GT(size_, 0u)`) that it is not called on an empty list;
every `unlink` considered below is of a linked node, so `size_--` never
meets 0.
-/

namespace SieveListBuffered

/-- Ways in which an operation does not return. -/
inductive Abort where
  /-- `unlink` found the mutex free (`try_lock` succeeded): `abort()`. -/
  | mutexNotHeld
  /-- `unlink` of the tail with no `prev` (or no tail): `abort()`. -/
  | tailUnlink
  /-- The sweep turned around while `n_iters` was already above 2: `abort()`. -/
  | turnLimit
  /-- `isAccessed(*curr)` with `curr == nullptr`. -/
  | nullDeref
  /-- The sweep waits for a buffer slot that no consumer will empty. -/
  | spin
  /-- `LockHolder` on a mutex that is already held. -/
  | deadlock
  /-- The loop bound of the model was used up. -/
  | outOfFuel
  deriving DecidableEq, Repr

/-- The list, the hooks of all nodes, the mutex and the eviction buffer. -/
structure State where
  /-- Field `head_`. -/
  head : Option Nat
  /-- Field `tail_`. -/
  tail : Option Nat
  /-- Field `curr_`, the hand. -/
  curr : Option Nat
  /-- Field `size_`. -/
  size : Nat
  /-- Hook field `prev` of every node. -/
  prev : Nat → Option Nat
  /-- Hook field `next` of every node. -/
  next : Nat → Option Nat
  /-- Hook flag `accessed` of every node. -/
  accessed : Nat → Bool
  /-- Whether `*mtx_` is held. -/
  locked : Bool
  /-- Array `evictCandidateBuf_`. -/
  buf : Nat → Option Nat
  /-- Field `bufIdx_`. -/
  bufIdx : Nat
  /-- Field `nEvictionCandidates_`. -/
  nEvictionCandidates : Nat
  /-- Value returned by `nCandidateToPrepare()`, the target fill; its body is
  not part of the sources, so it is a parameter of the list. -/
  nCandidate : Nat
  /-- Ghost counter (not a field of the class): the number of stores
  `evictCandidateBuf_[idx++] = curr` executed so far. -/
  produced : Nat

/-- Modelled from the spec: the constructor (in the header, which is not
part of the sources).  A freshly constructed list with target fill `k`:
`size = 0`, no head, tail or hand, every buffer slot empty; the hooks of
nodes that were never linked are cleared. -/
def empty (k : Nat) : State :=
  { head := none, tail := none, curr := none, size := 0,
    prev := fun _ => none, next := fun _ => none, accessed := fun _ => false,
    locked := false, buf := fun _ => none, bufIdx := 0,
    nEvictionCandidates := 0, nCandidate := k, produced := 0 }

/-- Modelled from the spec: the hook accessor `getPrev` (declared in the
header, which is not part of the sources); reads `node.prev`. -/
def getPrev (s : State) (node : Nat) : Option Nat := s.prev node

/-- Modelled from the spec: the hook accessor `getNext` (header); reads
`node.next`. -/
def getNext (s : State) (node : Nat) : Option Nat := s.next node

/-- Modelled from the spec: the hook setter `setPrev` (header); writes
`node.prev`. -/
def setPrev (s : State) (node : Nat) (v : Option Nat) : State :=
  { s with prev := fun x => if x = node then v else s.prev x }

/-- Modelled from the spec: the hook setter `setNext` (header); writes
`node.next`. -/
def setNext (s : State) (node : Nat) (v : Option Nat) : State :=
  { s with next := fun x => if x = node then v else s.next x }

/-- Modelled from the spec: `setNextFrom(node, other)` (header), used by
`unlink` to fix the neighbour's link: `node.next ← other.next`. -/
def setNextFrom (s : State) (node other : Nat) : State :=
  setNext s node (getNext s other)

/-- Modelled from the spec: `setPrevFrom(node, other)` (header), used by
`unlink` to fix the neighbour's link: `node.prev ← other.prev`. -/
def setPrevFrom (s : State) (node other : Nat) : State :=
  setPrev s node (getPrev s other)

/-- Modelled from the spec: `is_accessed` (header) tests the flag. -/
def isAccessed (s : State) (node : Nat) : Bool := s.accessed node

/-- Modelled from the spec: `mark_accessed` (header) sets the flag. -/
def markAccessed (s : State) (node : Nat) : State :=
  { s with accessed := fun x => if x = node then true else s.accessed x }

/-- Modelled from the spec: `unmark_accessed` (header) clears the flag. -/
def unmarkAccessed (s : State) (node : Nat) : State :=
  { s with accessed := fun x => if x = node then false else s.accessed x }

/-- Constructor of `LockHolder l(*mtx_)`. -/
def lock (s : State) : Except Abort State :=
  if s.locked then .error .deadlock else .ok { s with locked := true }

/-- Destructor of `LockHolder`. -/
def unlock (s : State) : State := { s with locked := false }

/-- `SieveListBuffered::linkAtHead`. -/
def linkAtHead (s : State) (node : Nat) : State :=
  let s1 := setPrev s node none
  let oldHead := s1.head
  let s2 := setNext s1 node oldHead
  -- head_.compare_exchange_weak(oldHead, &node) succeeds
  let s3 := { s2 with head := some node }
  let s4 :=
    match oldHead with
    | none =>
      -- tail_.compare_exchange_strong(nullptr, &node)
      let t1 := if s3.tail = none then { s3 with tail := some node } else s3
      -- curr_.compare_exchange_strong(nullptr, &node)
      if t1.curr = none then { t1 with curr := some node } else t1
    | some h => setPrev s3 h (some node)
  { s4 with size := s4.size + 1 }

/-- `SieveListBuffered::unlink`. -/
def unlink (s : State) (node : Nat) : Except Abort State :=
  if s.locked = false then .error .mutexNotHeld
  else
    let prev := getPrev s node
    let next := getNext s node
    let s1 := if some node = s.head then { s with head := next } else s
    if some node = s1.tail ∧ (prev = none ∨ s1.tail = none) then
      .error .tailUnlink
    else
      let s2 := if some node = s1.tail then { s1 with tail := prev } else s1
      let s3 := if some node = s2.curr then { s2 with curr := prev } else s2
      let s4 := match prev with
        | some p => setNextFrom s3 p node
        | none => s3
      let s5 := match next with
        | some n => setPrevFrom s4 n node
        | none => s4
      .ok { s5 with size := s5.size - 1 }

/-- `SieveListBuffered::remove`. -/
def remove (s : State) (node : Nat) : Except Abort State :=
  let prev := getPrev s node
  let next := getNext s node
  if prev = none ∧ next = none then .ok s
  else do
    let s1 ← lock s
    let s2 ← unlink s1 node
    let s3 := setNext s2 node none
    let s4 := setPrev s3 node none
    pure (unlock s4)

/-- `SieveListBuffered::replace`. -/
def replace (s : State) (oldNode newNode : Nat) : Except Abort State := do
  let s0 ← lock s
  let s1 := if some oldNode = s0.head then { s0 with head := some newNode } else s0
  let s2 := if some oldNode = s1.tail then { s1 with tail := some newNode } else s1
  let s3 := if some oldNode = s2.curr then { s2 with curr := some newNode } else s2
  let prev := getPrev s3 oldNode
  let next := getNext s3 oldNode
  let s4 := match prev with
    | some p => setNext s3 p (some newNode)
    | none => s3
  let s5 := match next with
    | some n => setPrev s4 n (some newNode)
    | none => s4
  let s6 := setPrev s5 newNode prev
  let s7 := setNext s6 newNode next
  let s8 := setPrev s7 oldNode none
  let s9 := setNext s8 oldNode none
  pure (unlock s9)

/-- `SieveListBuffered::moveToHead`. -/
def moveToHead (s : State) (node : Nat) : Except Abort State :=
  if some node = s.head then .ok s
  else do
    let s1 ← unlink s node
    pure (linkAtHead s1 node)

/-- The loop `while (idx < nCandidate)` of `prepareEvictionCandidates`
(`USE_EVICTION_BUFFER`), with its local variables as arguments; returns the
state and the final local `curr`. -/
def sweepLoop : Nat → State → Option Nat → Nat → Nat → Nat → Option Nat →
    Except Abort (State × Option Nat)
  | 0, _, _, _, _, _, _ => .error .outOfFuel
  | fuel + 1, s, headWhenStart, nCand, idx, nIters, curr =>
    if idx < nCand then
      if (curr = headWhenStart ∨ curr = none) ∧ nIters > 2 then
        .error .turnLimit
      else
        let turn : Bool := decide (curr = headWhenStart ∨ curr = none)
        let curr1 := if turn then s.tail else curr
        let nIters1 := if turn then nIters + 1 else nIters
        match curr1 with
        | none => .error .nullDeref
        | some c =>
          if isAccessed s c then
            let s1 := unmarkAccessed s c
            let curr2 := getPrev s1 c
            let curr3 := if curr2 = none then s1.tail else curr2
            sweepLoop fuel s1 headWhenStart nCand idx nIters1 curr3
          else
            if s.buf idx ≠ none then .error .spin
            else
              let s1 := { s with
                buf := fun i => if i = idx then some c else s.buf i,
                produced := s.produced + 1 }
              let next := getPrev s1 c
              match unlink s1 c with
              | .error e => .error e
              | .ok s2 =>
                let s3 := setNext s2 c none
                let s4 := setPrev s3 c none
                let curr3 := if next = none then s4.tail else next
                sweepLoop fuel s4 headWhenStart nCand (idx + 1) nIters1 curr3
    else .ok (s, curr)

/-- `SieveListBuffered::prepareEvictionCandidates` (`USE_EVICTION_BUFFER`). -/
def prepareEvictionCandidates (fuel : Nat) (s : State) : Except Abort State :=
  match lock s with
  | .error e => .error e
  | .ok s0 =>
    if s0.bufIdx < s0.nEvictionCandidates then .ok (unlock s0)
    else
      match sweepLoop fuel s0 s0.head s0.nCandidate 0 0 s0.curr with
      | .error e => .error e
      | .ok (s1, curr) =>
        .ok (unlock { s1 with curr := curr,
                              nEvictionCandidates := s0.nCandidate,
                              bufIdx := 0 })

/-- The loop `while (idx >= nEvictionCandidates_.load())` of
`getEvictionCandidate` and the two lines after it. -/
def claimLoop : Nat → State → Nat → Except Abort (State × Option Nat)
  | 0, _, _ => .error .outOfFuel
  | fuel + 1, s, idx =>
    if idx ≥ s.nEvictionCandidates then
      if s.size = 0 then .ok (s, none)
      else
        match prepareEvictionCandidates (fuel + 1) s with
        | .error e => .error e
        | .ok s1 => claimLoop fuel { s1 with bufIdx := s1.bufIdx + 1 } s1.bufIdx
    else
      .ok ({ s with buf := fun i => if i = idx then none else s.buf i }, s.buf idx)

/-- `SieveListBuffered::getEvictionCandidate` (`USE_EVICTION_BUFFER`);
`fuel` bounds the iterations of each of the two loops. -/
def getEvictionCandidate (fuel : Nat) (s : State) :
    Except Abort (State × Option Nat) :=
  claimLoop fuel { s with bufIdx := s.bufIdx + 1 } s.bufIdx

/-- Nodes met from `start` along `next`, at most `fuel` of them. -/
def walk (next : Nat → Option Nat) : Nat → Option Nat → List Nat
  | 0, _ => []
  | _ + 1, none => []
  | fuel + 1, some a => a :: walk next fuel (next a)

/-- The forward traversal from `head_` along `next`; the bound `size_ + 1`
lets a traversal that is longer than `size_` show. -/
def forward (s : State) : List Nat := walk s.next (s.size + 1) s.head

/-! Specification vocabulary -/

/-- First node of `l`, or `q` when `l` is empty. -/
def headOr : List Nat → Option Nat → Option Nat
  | [], q => q
  | a :: _, _ => some a

/-- Last node of `l`, or `p` when `l` is empty. -/
def lastOr : List Nat → Option Nat → Option Nat
  | [], p => p
  | a :: l, _ => lastOr l (some a)

/-- The nodes of `l` are chained in this order by `prev` and `next`; the
node before the first one is `p`, the node after the last one is `q`. -/
def Seg (prev next : Nat → Option Nat) : Option Nat → List Nat → Option Nat → Prop
  | _, [], _ => True
  | p, a :: l, q => prev a = p ∧ next a = headOr l q ∧ Seg prev next (some a) l q

/-- The list of state `s` holds exactly the nodes `l`, head first. -/
structure Rep (s : State) (l : List Nat) : Prop where
  nodup : l.Nodup
  head : s.head = l.head?
  tail : s.tail = l.getLast?
  size : s.size = l.length
  seg : Seg s.prev s.next none l none

/-- Invariants I1, I2 and I3; a node is linked when the forward traversal
visits it. -/
def ListInv (s : State) : Prop :=
  (s.size = 0 → s.head = none ∧ s.tail = none) ∧
  (1 ≤ s.size → s.head ≠ none ∧ s.tail ≠ none ∧ (forward s).length = s.size ∧
    (forward s).Nodup ∧ (forward s).getLast? = s.tail) ∧
  (∀ n ∈ forward s,
    (∀ p, s.prev n = some p → s.next p = some n) ∧
    (∀ q, s.next n = some q → s.prev q = some n))

/-- A well-formed list: I1 to I3 hold, the head has no `prev`, and the hand
is absent or a linked node (I5 between operations). -/
structure WellFormed (s : State) : Prop where
  inv : ListInv s
  headPrev : ∀ h, s.head = some h → s.prev h = none
  hand : ∀ c, s.curr = some c → c ∈ forward s

/-- Nodes outside `l` have both links cleared. -/
def Detached (s : State) (l : List Nat) : Prop :=
  ∀ n, n ∉ l → s.prev n = none ∧ s.next n = none

/-- Closed form of the state after an `unlink` that does not abort. -/
def unlinked (s : State) (c : Nat) : State :=
  { s with
    head := if some c = s.head then s.next c else s.head,
    tail := if some c = s.tail then s.prev c else s.tail,
    curr := if some c = s.curr then s.prev c else s.curr,
    next := fun x => if some x = s.prev c then s.next c else s.next x,
    prev := fun x => if some x = s.next c then s.prev c else s.prev x,
    size := s.size - 1 }

/-- Closed form of the state after `linkAtHead`. -/
def linked (s : State) (n : Nat) : State :=
  { s with
    head := some n,
    tail := if s.head = none ∧ s.tail = none then some n else s.tail,
    curr := if s.head = none ∧ s.curr = none then some n else s.curr,
    next := fun x => if x = n then s.head else s.next x,
    prev := fun x => if some x = s.head then some n else if x = n then none else s.prev x,
    size := s.size + 1 }

/-- Closed form of the state after `replace` (mutex released). -/
def replaced (s : State) (o n : Nat) : State :=
  { s with
    head := if some o = s.head then some n else s.head,
    tail := if some o = s.tail then some n else s.tail,
    curr := if some o = s.curr then some n else s.curr,
    next := fun x => if x = o then none else if x = n then s.next o
      else if some x = s.prev o then some n else s.next x,
    prev := fun x => if x = o then none else if x = n then s.prev o
      else if some x = s.next o then some n else s.prev x,
    locked := false }

/-- The lines `setNext(node, nullptr); setPrev(node, nullptr);` that follow
an `unlink`. -/
def clearLinks (s : State) (c : Nat) : State := setPrev (setNext s c none) c none

/-- An operation of the list core. -/
inductive ListOp where
  | callLinkAtHead (n : Nat)
  | callRemove (n : Nat)
  | callReplace (o n : Nat)

/-- What the caller owes before an operation: a node is linked at head only
when it is not in the list; `replace` takes a linked node and a different
node that is not in the list. -/
def ListOp.pre (s : State) : ListOp → Prop
  | .callLinkAtHead n => n ∉ forward s
  | .callRemove _ => True
  | .callReplace o n => o ∈ forward s ∧ n ∉ forward s ∧ n ≠ o

instance (s : State) (op : ListOp) : Decidable (op.pre s) := by
  cases op <;> unfold ListOp.pre <;> infer_instance

/-- Runs one operation of the list core. -/
def ListOp.step (s : State) : ListOp → Except Abort State
  | .callLinkAtHead n => .ok (linkAtHead s n)
  | .callRemove n => remove s n
  | .callReplace o n => replace s o n

/-- Runs a sequence of operations, each to completion, first one first. -/
def runList : State → List ListOp → Except Abort State
  | s, [] => .ok s
  | s, op :: ops =>
    match op.step s with
    | .ok s1 => runList s1 ops
    | .error e => .error e

/-- Every operation of the sequence meets its precondition in the state in
which it is run. -/
def Admissible : State → List ListOp → Prop
  | _, [] => True
  | s, op :: ops =>
    op.pre s ∧
      match op.step s with
      | .ok s1 => Admissible s1 ops
      | .error _ => True

/-- An operation of a workload that inserts, touches and asks for eviction
candidates. -/
inductive CacheOp where
  | callLinkAtHead (n : Nat)
  | callMarkAccessed (n : Nat)
  | callGetEvictionCandidate

/-- Runs one operation of the workload; the second component is the value
returned by `getEvictionCandidate` (`none` for the other operations). -/
def CacheOp.step (fuel : Nat) (s : State) : CacheOp → Except Abort (State × Option Nat)
  | .callLinkAtHead n => .ok (linkAtHead s n, none)
  | .callMarkAccessed n => .ok (markAccessed s n, none)
  | .callGetEvictionCandidate => getEvictionCandidate fuel s

/-- Runs a workload, each operation to completion, first one first; returns
the last state and the nodes returned by `getEvictionCandidate` (the
non-absent results), in the order of the calls. -/
def runCache (fuel : Nat) : State → List CacheOp → Except Abort (State × List Nat)
  | s, [] => .ok (s, [])
  | s, op :: ops =>
    match op.step fuel s with
    | .error e => .error e
    | .ok (s1, r) =>
      match runCache fuel s1 ops with
      | .error e => .error e
      | .ok (s2, rs) => .ok (s2, r.toList ++ rs)

/-- The nodes a workload inserts, in the order of the calls. -/
def inserted : List CacheOp → List Nat
  | [] => []
  | .callLinkAtHead n :: ops => n :: inserted ops
  | .callMarkAccessed _ :: ops => inserted ops
  | .callGetEvictionCandidate :: ops => inserted ops

/-- What holds of a state between the steps of a workload: `l` is the list,
`ins` the nodes inserted so far, `ret` the nodes returned so far. -/
structure Inv (s : State) (l ins ret : List Nat) : Prop where
  rep : Rep s l
  detached : Detached s l
  hand : ∀ c, s.curr = some c → c ∈ l
  buf : ∀ i n, s.buf i = some n → n ∉ l ∧ n ∈ ins ∧ n ∉ ret
  bufInj : ∀ i j n, s.buf i = some n → s.buf j = some n → i = j
  list : ∀ n ∈ l, n ∈ ins ∧ n ∉ ret
  retNodup : ret.Nodup
  retIns : ∀ n ∈ ret, n ∈ ins
  count : s.produced + s.size = ins.length

/-- The body of the loop `while (idx < nCandidate)` of
`prepareEvictionCandidates` (`USE_EVICTION_BUFFER`): one iteration, from the
turn-around test to the final test `curr == nullptr`.  Returns the state and
the locals `idx`, `n_iters` and `curr` at the end of the iteration. -/
def sweepIter (s : State) (headWhenStart : Option Nat) (idx nIters : Nat)
    (curr : Option Nat) : Except Abort (State × Nat × Nat × Option Nat) :=
  if (curr = headWhenStart ∨ curr = none) ∧ nIters > 2 then
    .error .turnLimit
  else
    let turn : Bool := decide (curr = headWhenStart ∨ curr = none)
    let curr1 := if turn then s.tail else curr
    let nIters1 := if turn then nIters + 1 else nIters
    match curr1 with
    | none => .error .nullDeref
    | some c =>
      if isAccessed s c then
        let s1 := unmarkAccessed s c
        let curr2 := getPrev s1 c
        let curr3 := if curr2 = none then s1.tail else curr2
        .ok (s1, idx, nIters1, curr3)
      else
        if s.buf idx ≠ none then .error .spin
        else
          let s1 := { s with
            buf := fun i => if i = idx then some c else s.buf i,
            produced := s.produced + 1 }
          let next := getPrev s1 c
          match unlink s1 c with
          | .error e => .error e
          | .ok s2 =>
            let s3 := setNext s2 c none
            let s4 := setPrev s3 c none
            let curr3 := if next = none then s4.tail else next
            .ok (s4, idx + 1, nIters1, curr3)

/-- The node an iteration of the sweep examines with `isAccessed(*curr)`:
the tail when the iteration starts with a turn-around, else `curr`. -/
def examined (s : State) (headWhenStart curr : Option Nat) : Option Nat :=
  if curr = headWhenStart ∨ curr = none then s.tail else curr

/-- The sweep loop, iteration by iteration, with what it leaves behind: the
state, the final locals `curr` and `n_iters` (the number of turn-arounds),
and the nodes examined, in order. -/
def sweepTrace : Nat → State → Option Nat → Nat → Nat → Nat → Option Nat →
    Except Abort (State × Option Nat × Nat × List Nat)
  | 0, _, _, _, _, _, _ => .error .outOfFuel
  | fuel + 1, s, headWhenStart, nCand, idx, nIters, curr =>
    if idx < nCand then
      match sweepIter s headWhenStart idx nIters curr with
      | .error e => .error e
      | .ok (s1, idx1, nIters1, curr1) =>
        match sweepTrace fuel s1 headWhenStart nCand idx1 nIters1 curr1 with
        | .error e => .error e
        | .ok (t, cf, nf, tr) =>
          .ok (t, cf, nf, (examined s headWhenStart curr).toList ++ tr)
    else .ok (s, curr, nIters, [])

/-- Inserts the nodes `ns` one after the other, first one first. -/
def insertAll (s : State) (ns : List Nat) : State := ns.foldl linkAtHead s

/-- `Iterator::Direction`. -/
inductive Direction where
  | FROM_HEAD
  | FROM_TAIL
  deriving DecidableEq, Repr

/-- Modelled from the spec: the class `Iterator` (declared in the header,
which is not part of the sources): a position `curr_`, absent at the end,
and a direction `dir_`.  Two iterators of the list are equal when position
and direction agree. -/
structure Iterator where
  curr : Option Nat
  dir : Direction
  deriving DecidableEq, Repr

/-- `Iterator::goForward`; it is only called from `operator++`, on a
position that is not absent. -/
def Iterator.goForward (s : State) (it : Iterator) : Iterator :=
  match it.curr with
  | none => it
  | some c =>
    if it.dir = Direction.FROM_TAIL then { it with curr := getPrev s c }
    else { it with curr := getNext s c }

/-- `Iterator::goBackward`; it is only called from `operator--`, on a
position that is not absent. -/
def Iterator.goBackward (s : State) (it : Iterator) : Iterator :=
  match it.curr with
  | none => it
  | some c =>
    if it.dir = Direction.FROM_TAIL then { it with curr := getNext s c }
    else { it with curr := getPrev s c }

/-- `Iterator::operator++`. -/
def Iterator.inc (s : State) (it : Iterator) : Iterator :=
  if it.curr ≠ none then it.goForward s else it

/-- `Iterator::operator--`. -/
def Iterator.dec (s : State) (it : Iterator) : Iterator :=
  if it.curr ≠ none then it.goBackward s else it

/-- `SieveListBuffered::begin`. -/
def begin (s : State) : Iterator := { curr := s.head, dir := Direction.FROM_HEAD }

/-- `SieveListBuffered::rbegin`. -/
def rbegin (s : State) : Iterator := { curr := s.tail, dir := Direction.FROM_TAIL }

/-- `SieveListBuffered::end`. -/
def end_ (_s : State) : Iterator := { curr := none, dir := Direction.FROM_HEAD }

/-- `SieveListBuffered::rend`. -/
def rend (_s : State) : Iterator := { curr := none, dir := Direction.FROM_TAIL }

/-- What holds at the top of the sweep loop.  `s0` is the state in which the
sweep started and `s` the current state; `h` is the head; the list is
`h :: (Bf ++ Af)`, where `Bf` are the nodes the current pass still has to
examine (the cursor is on the last of them, or on the head when there is
none) and `Af` the nodes the current pass has left behind; `tr` lists the
nodes examined so far and `ev` the nodes detached so far, in order. -/
structure SweepInv (s0 s : State) (h : Nat) (Bf Af : List Nat) (k nIters : Nat)
    (curr : Option Nat) (tr ev : List Nat) : Prop where
  rep : Rep s (h :: (Bf ++ Af))
  locked : s.locked = true
  cur : curr = lastOr Bf (some h) ∨ (curr = none ∧ Bf = [])
  cnt : k ≤ Bf.length + Af.length + ev.length
  evk : ev.length ≤ k
  nle : nIters ≤ 2
  phase1 : 1 ≤ nIters → ∀ x ∈ Af, tr.count x = 1
  phase2 : 2 ≤ nIters → (∀ x ∈ Bf, tr.count x = 1) ∧ Af = []
  once : ∀ x ∈ Bf ++ Af, tr.count x ≤ 1 ∧ (tr.count x = 1 → s.accessed x = false)
  twice : ∀ x, tr.count x ≤ 2
  headNot : tr.count h = 0
  flags : ∀ x, tr.count x = 0 → s.accessed x = s0.accessed x
  bufEq : ∀ i, s.buf i = if i < ev.length then ev[i]? else s0.buf i
  list : h :: (Bf ++ Af) = (forward s0).filter (fun x => decide (x ∉ ev))
  evNodup : ev.Nodup
  evMem : ∀ x ∈ ev, x ∈ forward s0 ∧ s.prev x = none ∧ s.next x = none
  size : s.size + ev.length = s0.size
  produced : s.produced = s0.produced + ev.length
  bufIdx : s.bufIdx = s0.bufIdx
  nEvictionCandidates : s.nEvictionCandidates = s0.nEvictionCandidates
  nCandidate : s.nCandidate = s0.nCandidate

/-- A bound on the number of iterations the sweep still needs. -/
def sweepMeasure (Bf Af : List Nat) (nIters : Nat) : Nat :=
  Bf.length + (2 - nIters) * (Bf.length + Af.length)

/-- The state `t` after the buffer slots below `j` have been claimed:
`buf_idx = j` and the slots `0..j-1` emptied; head, tail, hand, size, the
links, the flags and the other slots are those of `t`. -/
def claimed (t : State) (j : Nat) : State :=
  { t with bufIdx := j, buf := fun i => if i < j then none else t.buf i }

/-! Lemmas -/

theorem headOr_none (l : List Nat) : headOr l none = l.head? := by
  cases l <;> rfl

theorem lastOr_cons_ne (l : List Nat) (a : Nat) (p : Option Nat) :
    lastOr (a :: l) p = (a :: l).getLast? := by
  induction l generalizing a p with
  | nil => rfl
  | cons b t ih =>
    have h1 : lastOr (a :: b :: t) p = lastOr (b :: t) (some a) := rfl
    rw [h1, ih b (some a), List.getLast?_cons_cons]

theorem lastOr_none (l : List Nat) : lastOr l none = l.getLast? := by
  cases l with
  | nil => rfl
  | cons a t => exact lastOr_cons_ne t a none

theorem headOr_append (l1 l2 : List Nat) (q : Option Nat) :
    headOr (l1 ++ l2) q = headOr l1 (headOr l2 q) := by
  cases l1 <;> rfl

theorem lastOr_append (l1 l2 : List Nat) (p : Option Nat) :
    lastOr (l1 ++ l2) p = lastOr l2 (lastOr l1 p) := by
  induction l1 generalizing p with
  | nil => rfl
  | cons a t ih => exact ih (some a)

theorem seg_append (prev next : Nat → Option Nat) (l1 l2 : List Nat)
    (p q : Option Nat) :
    Seg prev next p (l1 ++ l2) q ↔
      Seg prev next p l1 (headOr l2 q) ∧ Seg prev next (lastOr l1 p) l2 q := by
  induction l1 generalizing p with
  | nil => simp [Seg, lastOr]
  | cons a t ih =>
    have e1 : Seg prev next p (a :: t ++ l2) q ↔
        (prev a = p ∧ next a = headOr (t ++ l2) q ∧
          Seg prev next (some a) (t ++ l2) q) := Iff.rfl
    have e2 : Seg prev next p (a :: t) (headOr l2 q) ↔
        (prev a = p ∧ next a = headOr t (headOr l2 q) ∧
          Seg prev next (some a) t (headOr l2 q)) := Iff.rfl
    have e3 : lastOr (a :: t) p = lastOr t (some a) := rfl
    rw [e1, e2, e3, ih (some a), headOr_append]
    tauto

theorem seg_frame {prev next prev2 next2 : Nat → Option Nat} {l : List Nat}
    {p q : Option Nat} (h : Seg prev next p l q)
    (hp : ∀ a ∈ l, prev2 a = prev a) (hn : ∀ a ∈ l, next2 a = next a) :
    Seg prev2 next2 p l q := by
  induction l generalizing p with
  | nil => trivial
  | cons a t ih =>
    obtain ⟨h1, h2, h3⟩ := h
    refine ⟨?_, ?_, ih h3 (fun x hx => hp x (List.mem_cons_of_mem _ hx))
      (fun x hx => hn x (List.mem_cons_of_mem _ hx))⟩
    · rw [hp a (List.mem_cons_self _ _), h1]
    · rw [hn a (List.mem_cons_self _ _), h2]

/-- Changing the link that leaves the segment on the left. -/
theorem seg_left {prev next prev2 next2 : Nat → Option Nat} {l : List Nat}
    {p q p2 : Option Nat} (h : Seg prev next p l q) (hnd : l.Nodup)
    (hh : ∀ a, l.head? = some a → prev2 a = p2)
    (hp : ∀ a ∈ l, l.head? ≠ some a → prev2 a = prev a)
    (hn : ∀ a ∈ l, next2 a = next a) :
    Seg prev2 next2 p2 l q := by
  cases l with
  | nil => trivial
  | cons a t =>
    obtain ⟨_, h2, h3⟩ := h
    have hat : a ∉ t := (List.nodup_cons.mp hnd).1
    refine ⟨hh a rfl, ?_, seg_frame h3 ?_ ?_⟩
    · rw [hn a (List.mem_cons_self _ _), h2]
    · intro x hx
      apply hp x (List.mem_cons_of_mem _ hx)
      intro hc
      simp only [List.head?_cons, Option.some.injEq] at hc
      exact hat (hc ▸ hx)
    · exact fun x hx => hn x (List.mem_cons_of_mem _ hx)

/-- Changing the link that leaves the segment on the right. -/
theorem seg_right {prev next prev2 next2 : Nat → Option Nat} {l : List Nat}
    {p q q2 : Option Nat} (h : Seg prev next p l q) (hnd : l.Nodup)
    (hh : ∀ a, l.getLast? = some a → next2 a = q2)
    (hn : ∀ a ∈ l, l.getLast? ≠ some a → next2 a = next a)
    (hp : ∀ a ∈ l, prev2 a = prev a) :
    Seg prev2 next2 p l q2 := by
  induction l generalizing p with
  | nil => trivial
  | cons a t ih =>
    obtain ⟨h1, h2, h3⟩ := h
    have hat : a ∉ t := (List.nodup_cons.mp hnd).1
    have hndt : t.Nodup := (List.nodup_cons.mp hnd).2
    cases t with
    | nil =>
      refine ⟨?_, hh a rfl, trivial⟩
      rw [hp a (List.mem_cons_self _ _), h1]
    | cons b u =>
      refine ⟨?_, ?_, ih h3 hndt ?_ ?_ ?_⟩
      · rw [hp a (List.mem_cons_self _ _), h1]
      · have : next2 a = next a := by
          apply hn a (List.mem_cons_self _ _)
          rw [List.getLast?_cons_cons]
          intro hc
          exact hat (List.mem_of_getLast?_eq_some hc)
        rw [this, h2]; rfl
      · intro x hx
        apply hh x
        rw [List.getLast?_cons_cons]; exact hx
      · intro x hx hne
        apply hn x (List.mem_cons_of_mem _ hx)
        rw [List.getLast?_cons_cons]; exact hne
      · exact fun x hx => hp x (List.mem_cons_of_mem _ hx)

theorem seg_prev_next {prev next : Nat → Option Nat} {l : List Nat}
    {p q : Option Nat} (h : Seg prev next p l q)
    (hb : ∀ x, p = some x → next x = headOr l q) :
    ∀ n ∈ l, ∀ x, prev n = some x → next x = some n := by
  induction l generalizing p with
  | nil => intro n hn; cases hn
  | cons a t ih =>
    obtain ⟨h1, h2, h3⟩ := h
    intro n hn x hx
    rcases List.mem_cons.mp hn with rfl | hn
    · rw [h1] at hx
      exact hb x hx
    · exact ih h3 (fun y hy => by cases hy; exact h2) n hn x hx

theorem seg_next_prev {prev next : Nat → Option Nat} {l : List Nat}
    {p q : Option Nat} (h : Seg prev next p l q)
    (hb : ∀ y, q = some y → prev y = lastOr l p) :
    ∀ n ∈ l, ∀ y, next n = some y → prev y = some n := by
  induction l generalizing p with
  | nil => intro n hn; cases hn
  | cons a t ih =>
    obtain ⟨h1, h2, h3⟩ := h
    intro n hn y hy
    rcases List.mem_cons.mp hn with rfl | hn
    · cases t with
      | nil =>
        rw [h2] at hy
        exact hb y hy
      | cons b u =>
        rw [h2] at hy
        cases hy
        exact h3.1
    · exact ih h3 (fun y hy => hb y hy) n hn y hy

theorem walk_headOr (next : Nat → Option Nat) (fuel : Nat) (x : Option Nat)
    (h : 0 < fuel) : headOr (walk next fuel x) none = x := by
  cases fuel with
  | zero => omega
  | succ f => cases x <;> rfl

theorem walk_of_seg {prev next : Nat → Option Nat} {l : List Nat}
    {p : Option Nat} (h : Seg prev next p l none) (fuel : Nat)
    (hf : l.length ≤ fuel) : walk next fuel l.head? = l := by
  induction l generalizing p fuel with
  | nil => cases fuel <;> rfl
  | cons a t ih =>
    obtain ⟨_, h2, h3⟩ := h
    cases fuel with
    | zero => simp at hf
    | succ f =>
      simp only [List.head?_cons, walk, h2, headOr_none]
      rw [ih h3 f (by simpa using hf)]

theorem seg_of_walk {prev next : Nat → Option Nat} (fuel : Nat)
    (start p : Option Nat)
    (hlen : (walk next fuel start).length < fuel)
    (hs : ∀ a, start = some a → prev a = p)
    (hI : ∀ n ∈ walk next fuel start, ∀ y, next n = some y → prev y = some n) :
    Seg prev next p (walk next fuel start) none := by
  induction fuel generalizing start p with
  | zero => simp at hlen
  | succ f ih =>
    cases start with
    | none => trivial
    | some a =>
      simp only [walk, List.length_cons, Nat.add_lt_add_iff_right] at hlen
      simp only [walk] at hI ⊢
      refine ⟨hs a rfl, ?_, ih (next a) (some a) hlen ?_ ?_⟩
      · rw [walk_headOr next f (next a) (by omega)]
      · intro b hb
        exact hI a (List.mem_cons_self _ _) b hb
      · intro n hn
        exact hI n (List.mem_cons_of_mem _ hn)

theorem rep_forward {s : State} {l : List Nat} (h : Rep s l) : forward s = l := by
  unfold forward
  rw [h.head, h.size]
  exact walk_of_seg h.seg _ (Nat.le_succ _)

theorem rep_headPrev {s : State} {l : List Nat} (h : Rep s l) :
    ∀ a, s.head = some a → s.prev a = none := by
  intro a ha
  have hs := h.seg
  rw [h.head] at ha
  cases l with
  | nil => cases ha
  | cons b t =>
    cases ha
    exact hs.1

theorem rep_listInv {s : State} {l : List Nat} (h : Rep s l) : ListInv s := by
  have hf := rep_forward h
  refine ⟨?_, ?_, ?_⟩
  · intro h0
    have : l = [] := List.length_eq_zero.mp (by rw [← h.size]; exact h0)
    subst this
    exact ⟨h.head, h.tail⟩
  · intro h1
    have hne : l ≠ [] := by
      intro hc; subst hc
      have := h.size
      simp at this; omega
    rw [hf]
    refine ⟨?_, ?_, h.size.symm, h.nodup, h.tail.symm⟩
    · rw [h.head]
      cases l with
      | nil => exact absurd rfl hne
      | cons a t => simp
    · rw [h.tail]
      intro hc
      exact hne (List.getLast?_eq_none_iff.mp hc)
  · rw [hf]
    intro n hn
    exact ⟨seg_prev_next h.seg (fun x hx => by cases hx) n hn,
      seg_next_prev h.seg (fun y hy => by cases hy) n hn⟩

theorem wellFormed_of_rep {s : State} {l : List Nat} (h : Rep s l)
    (hc : ∀ c, s.curr = some c → c ∈ l) : WellFormed s :=
  ⟨rep_listInv h, rep_headPrev h, by rw [rep_forward h]; exact hc⟩

theorem rep_of_wellFormed {s : State} (h : WellFormed s) : Rep s (forward s) := by
  obtain ⟨⟨h0, h1, h3⟩, hp, _⟩ := h
  rcases Nat.eq_zero_or_pos s.size with hz | hpos
  · have hh := (h0 hz).1
    have ht := (h0 hz).2
    have hf : forward s = [] := by
      unfold forward; rw [hh, hz]; rfl
    rw [hf]
    exact ⟨List.nodup_nil, hh, ht, hz, trivial⟩
  · obtain ⟨_, _, hlen, hnd, hlast⟩ := h1 hpos
    refine ⟨hnd, ?_, hlast.symm, hlen.symm, ?_⟩
    · have := walk_headOr s.next (s.size + 1) s.head (Nat.succ_pos _)
      rw [headOr_none] at this
      exact this.symm
    · apply seg_of_walk (s.size + 1) s.head none
      · show (forward s).length < s.size + 1
        omega
      · exact hp
      · intro n hn
        exact (h3 n hn).2

theorem unlink_eq (s : State) (c : Nat) (hl : s.locked = true)
    (h : ¬ (some c = s.tail ∧ s.prev c = none)) :
    unlink s c = .ok (unlinked s c) := by
  obtain ⟨hd, tl, cu, sz, pv, nx, ac, lk, bf, bi, ne, nc, pr⟩ := s
  simp only at hl h
  subst hl
  by_cases hh : some c = hd <;> by_cases htl : some c = tl <;>
    by_cases hc : some c = cu <;>
    cases hp : pv c <;> cases hn : nx c <;>
    (try subst hh) <;> (try subst htl) <;> (try subst hc) <;>
    simp_all [unlink, unlinked, setNextFrom, setPrevFrom, setNext, setPrev, getNext, getPrev]

theorem unlink_abort (s : State) (c : Nat) (hl : s.locked = true)
    (h1 : some c = s.tail) (h2 : s.prev c = none) :
    unlink s c = .error .tailUnlink := by
  obtain ⟨hd, tl, cu, sz, pv, nx, ac, lk, bf, bi, ne, nc, pr⟩ := s
  simp only at hl h1 h2
  subst hl
  by_cases hh : some c = hd <;>
  simp [unlink, getPrev, getNext, ← h1, h2, hh]

theorem unlink_unlocked (s : State) (c : Nat) (hl : s.locked = false) :
    unlink s c = .error .mutexNotHeld := by
  unfold unlink
  simp [hl]

/-- The list around a linked node. -/
theorem rep_split {s : State} {l : List Nat} (h : Rep s l) {c : Nat} (hc : c ∈ l) :
    ∃ l1 l2, l = l1 ++ c :: l2 ∧ c ∉ l1 ∧ c ∉ l2 ∧ (∀ a ∈ l1, a ∉ l2) ∧
      l1.Nodup ∧ l2.Nodup ∧ s.prev c = l1.getLast? ∧ s.next c = l2.head? ∧
      Seg s.prev s.next none l1 (some c) ∧ Seg s.prev s.next (some c) l2 none := by
  obtain ⟨l1, l2, rfl⟩ := List.append_of_mem hc
  have hnd := h.nodup
  rw [List.nodup_append] at hnd
  obtain ⟨hnd1, hnd2, hdis⟩ := hnd
  have hc2 : c ∉ l2 := (List.nodup_cons.mp hnd2).1
  have hc1 : c ∉ l1 := fun hx => hdis hx (List.mem_cons_self _ _)
  have hseg := (seg_append s.prev s.next l1 (c :: l2) none none).mp h.seg
  obtain ⟨hs1, hs2, hs3, hs4⟩ := hseg
  refine ⟨l1, l2, rfl, hc1, hc2, ?_, hnd1, (List.nodup_cons.mp hnd2).2, ?_, ?_, hs1, hs4⟩
  · intro a ha1 ha2
    exact hdis ha1 (List.mem_cons_of_mem _ ha2)
  · rw [hs2, lastOr_none]
  · rw [hs3, headOr_none]

theorem head?_append_cons (l1 l2 : List Nat) (c : Nat) :
    (l1 ++ c :: l2).head? = headOr l1 (some c) := by
  cases l1 <;> rfl

theorem getLast?_append_cons (l1 l2 : List Nat) (c : Nat) :
    (l1 ++ c :: l2).getLast? = lastOr l2 (some c) := by
  rw [← lastOr_none, lastOr_append]
  rfl

theorem headOr_eq_some_mem {l : List Nat} {q : Option Nat} {a : Nat}
    (h : headOr l q = some a) : a ∈ l ∨ q = some a := by
  cases l with
  | nil => exact Or.inr h
  | cons b t =>
    left
    cases h
    exact List.mem_cons_self _ _

theorem lastOr_eq_some_mem {l : List Nat} {p : Option Nat} {a : Nat}
    (h : lastOr l p = some a) : a ∈ l ∨ p = some a := by
  induction l generalizing p with
  | nil => exact Or.inr h
  | cons b t ih =>
    rcases ih h with h1 | h1
    · exact Or.inl (List.mem_cons_of_mem _ h1)
    · cases h1
      exact Or.inl (List.mem_cons_self _ _)

theorem rep_unlinked {s : State} {l : List Nat} (h : Rep s l) {c : Nat} (hc : c ∈ l)
    : Rep (unlinked s c) (l.erase c) := by
  obtain ⟨l1, l2, rfl, hc1, hc2, hdis, hnd1, hnd2, hp, hn, hs1, hs2⟩ := rep_split h hc
  have he : (l1 ++ c :: l2).erase c = l1 ++ l2 := by
    rw [List.erase_append_right _ hc1, List.erase_cons_head]
  rw [he]
  have hhead := h.head
  have htail := h.tail
  rw [head?_append_cons] at hhead
  rw [getLast?_append_cons] at htail
  refine ⟨?_, ?_, ?_, ?_, ?_⟩
  · rw [List.nodup_append]
    exact ⟨hnd1, hnd2, fun a ha1 ha2 => hdis a ha1 ha2⟩
  · show (if some c = s.head then s.next c else s.head) = (l1 ++ l2).head?
    rw [hhead, hn]
    cases l1 with
    | nil => simp [headOr]
    | cons a t =>
      have : c ≠ a := fun e => hc1 (e ▸ List.mem_cons_self _ _)
      simp [headOr, this]
  · show (if some c = s.tail then s.prev c else s.tail) = (l1 ++ l2).getLast?
    rw [htail, hp, ← lastOr_none (l1 ++ l2), lastOr_append, lastOr_none]
    cases l2 with
    | nil => simp [lastOr]
    | cons b u =>
      have hne : some c ≠ lastOr (b :: u) (some c) := by
        intro e
        rw [lastOr_cons_ne] at e
        exact hc2 (List.mem_of_getLast?_eq_some e.symm)
      rw [if_neg hne, lastOr_cons_ne, lastOr_cons_ne]
  · show s.size - 1 = (l1 ++ l2).length
    rw [h.size]
    simp
  · rw [seg_append]
    constructor
    · apply seg_right hs1 hnd1
      · intro a ha
        show (if some a = s.prev c then s.next c else s.next a) = _
        rw [hp, ha, if_pos rfl, hn, headOr_none]
      · intro a _ hne
        show (if some a = s.prev c then s.next c else s.next a) = _
        rw [hp, if_neg (fun e => hne e.symm)]
      · intro a ha
        show (if some a = s.next c then s.prev c else s.prev a) = _
        rw [hn, if_neg]
        intro e
        exact hdis a ha (List.mem_of_mem_head? e.symm)
    · rw [lastOr_none]
      apply seg_left hs2 hnd2
      · intro a ha
        show (if some a = s.next c then s.prev c else s.prev a) = _
        rw [hn, ha, if_pos rfl, hp]
      · intro a _ hne
        show (if some a = s.next c then s.prev c else s.prev a) = _
        rw [hn, if_neg (fun e => hne e.symm)]
      · intro a ha
        show (if some a = s.prev c then s.next c else s.next a) = _
        rw [hp, if_neg]
        intro e
        exact hdis a (List.mem_of_getLast?_eq_some e.symm) ha

theorem linkAtHead_eq (s : State) (n : Nat) : linkAtHead s n = linked s n := by
  obtain ⟨hd, tl, cu, sz, pv, nx, ac, lk, bf, bi, ne, nc, pr⟩ := s
  cases hd <;> cases tl <;> cases cu <;>
    simp [linkAtHead, linked, setNext, setPrev]

set_option maxHeartbeats 4000000 in
theorem replace_eq (s : State) (o n : Nat) (hl : s.locked = false) :
    replace s o n = .ok (replaced s o n) := by
  obtain ⟨hd, tl, cu, sz, pv, nx, ac, lk, bf, bi, ne, nc, pr⟩ := s
  simp only at hl
  subst hl
  by_cases hh : some o = hd <;> by_cases htl : some o = tl <;>
    by_cases hc : some o = cu <;>
    cases hp : pv o <;> cases hn : nx o <;>
    (try subst hh) <;> (try subst htl) <;> (try subst hc) <;>
    simp_all [replace, replaced, lock, unlock, setNext, setPrev, getNext, getPrev, bind,
      Except.bind, pure, Except.pure]

theorem replace_locked (s : State) (o n : Nat) (hl : s.locked = true) :
    replace s o n = .error .deadlock := by
  simp [replace, lock, hl, bind, Except.bind]

theorem rep_congr {s t : State} {l : List Nat} (h : Rep s l)
    (hh : t.head = s.head) (ht : t.tail = s.tail) (hs : t.size = s.size)
    (hp : ∀ a ∈ l, t.prev a = s.prev a) (hn : ∀ a ∈ l, t.next a = s.next a) :
    Rep t l :=
  ⟨h.nodup, hh ▸ h.head, ht ▸ h.tail, hs ▸ h.size, seg_frame h.seg hp hn⟩

theorem rep_clearLinks {s : State} {l : List Nat} (h : Rep s l) {c : Nat} (hc : c ∉ l) :
    Rep (clearLinks s c) l := by
  refine @rep_congr s (clearLinks s c) l h rfl rfl rfl ?_ ?_
  · intro a ha
    show (if a = c then none else s.prev a) = _
    rw [if_neg (ne_of_mem_of_not_mem ha hc)]
  · intro a ha
    show (if a = c then none else s.next a) = _
    rw [if_neg (ne_of_mem_of_not_mem ha hc)]

theorem rep_linked {s : State} {l : List Nat} (h : Rep s l) {n : Nat} (hn : n ∉ l) :
    Rep (linked s n) (n :: l) := by
  refine ⟨List.nodup_cons.mpr ⟨hn, h.nodup⟩, rfl, ?_, ?_, ?_⟩
  · show (if s.head = none ∧ s.tail = none then some n else s.tail) = _
    rw [h.head, h.tail]
    cases l with
    | nil => simp
    | cons a t => simp [List.getLast?_cons_cons]
  · show s.size + 1 = _
    rw [h.size]; rfl
  · refine ⟨?_, ?_, ?_⟩
    · show (if some n = s.head then some n else if n = n then none else s.prev n) = none
      rw [h.head, if_neg, if_pos rfl]
      intro e
      exact hn (List.mem_of_mem_head? e.symm)
    · show (if n = n then s.head else s.next n) = _
      rw [if_pos rfl, h.head, headOr_none]
    · apply seg_left h.seg h.nodup
      · intro a ha
        show (if some a = s.head then some n else _) = _
        rw [h.head, ha, if_pos rfl]
      · intro a ha hne
        show (if some a = s.head then some n else if a = n then none else s.prev a) = _
        rw [h.head, if_neg (fun e => hne e.symm), if_neg (ne_of_mem_of_not_mem ha hn)]
      · intro a ha
        show (if a = n then s.head else s.next a) = _
        rw [if_neg (ne_of_mem_of_not_mem ha hn)]

theorem map_subst_split (l1 l2 : List Nat) (o n : Nat) (h1 : o ∉ l1) (h2 : o ∉ l2) :
    (l1 ++ o :: l2).map (fun x => if x = o then n else x) = l1 ++ n :: l2 := by
  have e : ∀ l : List Nat, o ∉ l → l.map (fun x => if x = o then n else x) = l := by
    intro l hl
    induction l with
    | nil => rfl
    | cons a t ih =>
      have ha : a ≠ o := fun e => hl (e ▸ List.mem_cons_self _ _)
      simp only [List.map_cons, if_neg ha]
      rw [ih (fun hx => hl (List.mem_cons_of_mem _ hx))]
  simp only [List.map_append, List.map_cons, if_pos, e l1 h1, e l2 h2]

theorem rep_replaced {s : State} {l : List Nat} (h : Rep s l) {o n : Nat} (ho : o ∈ l)
    (hn : n ∉ l) : Rep (replaced s o n) (l.map (fun x => if x = o then n else x)) := by
  obtain ⟨l1, l2, rfl, hc1, hc2, hdis, hnd1, hnd2, hp, hnx, hs1, hs2⟩ := rep_split h ho
  rw [map_subst_split l1 l2 o n hc1 hc2]
  have hn1 : n ∉ l1 := fun hx => hn (List.mem_append_left _ hx)
  have hn2 : n ∉ l2 := fun hx => hn (List.mem_append_right _ (List.mem_cons_of_mem _ hx))
  have hno : n ≠ o := fun e => hn (e ▸ ho)
  have hhead := h.head
  have htail := h.tail
  rw [head?_append_cons] at hhead
  rw [getLast?_append_cons] at htail
  refine ⟨?_, ?_, ?_, ?_, ?_⟩
  · rw [List.nodup_append]
    refine ⟨hnd1, List.nodup_cons.mpr ⟨hn2, hnd2⟩, ?_⟩
    intro a ha1 ha2
    rcases List.mem_cons.mp ha2 with e | ha2
    · exact hn1 (e ▸ ha1)
    · exact hdis a ha1 ha2
  · show (if some o = s.head then some n else s.head) = _
    rw [hhead, head?_append_cons]
    cases l1 with
    | nil => simp [headOr]
    | cons a t =>
      have : o ≠ a := fun e => hc1 (e ▸ List.mem_cons_self _ _)
      simp [headOr, this]
  · show (if some o = s.tail then some n else s.tail) = _
    rw [htail, getLast?_append_cons]
    cases l2 with
    | nil => simp [lastOr]
    | cons b u =>
      have hne : some o ≠ lastOr (b :: u) (some o) := by
        intro e
        rw [lastOr_cons_ne] at e
        exact hc2 (List.mem_of_getLast?_eq_some e.symm)
      rw [if_neg hne, lastOr_cons_ne, lastOr_cons_ne]
  · show s.size = _
    rw [h.size]
    simp
  · rw [seg_append]
    constructor
    · apply seg_right hs1 hnd1
      · intro a ha
        have hal := List.mem_of_getLast?_eq_some ha
        show (if a = o then none else if a = n then s.next o
          else if some a = s.prev o then some n else s.next a) = _
        rw [if_neg (ne_of_mem_of_not_mem hal hc1), if_neg (ne_of_mem_of_not_mem hal hn1), hp, ha,
          if_pos rfl]
        rfl
      · intro a hal hne
        show (if a = o then none else if a = n then s.next o
          else if some a = s.prev o then some n else s.next a) = _
        rw [if_neg (ne_of_mem_of_not_mem hal hc1), if_neg (ne_of_mem_of_not_mem hal hn1), hp,
          if_neg (fun e => hne e.symm)]
      · intro a hal
        show (if a = o then none else if a = n then s.prev o
          else if some a = s.next o then some n else s.prev a) = _
        rw [if_neg (ne_of_mem_of_not_mem hal hc1), if_neg (ne_of_mem_of_not_mem hal hn1), hnx, if_neg]
        intro e
        exact hdis a hal (List.mem_of_mem_head? e.symm)
    · rw [lastOr_none]
      refine ⟨?_, ?_, ?_⟩
      · show (if n = o then none else if n = n then s.prev o else _) = _
        rw [if_neg hno, if_pos rfl, hp]
      · show (if n = o then none else if n = n then s.next o else _) = _
        rw [if_neg hno, if_pos rfl, hnx, headOr_none]
      · apply seg_left hs2 hnd2
        · intro a ha
          have hal := List.mem_of_mem_head? ha
          show (if a = o then none else if a = n then s.prev o
            else if some a = s.next o then some n else s.prev a) = _
          rw [if_neg (ne_of_mem_of_not_mem hal hc2), if_neg (ne_of_mem_of_not_mem hal hn2), hnx, ha,
            if_pos rfl]
        · intro a hal hne
          show (if a = o then none else if a = n then s.prev o
            else if some a = s.next o then some n else s.prev a) = _
          rw [if_neg (ne_of_mem_of_not_mem hal hc2), if_neg (ne_of_mem_of_not_mem hal hn2), hnx,
            if_neg (fun e => hne e.symm)]
        · intro a hal
          show (if a = o then none else if a = n then s.next o
            else if some a = s.prev o then some n else s.next a) = _
          rw [if_neg (ne_of_mem_of_not_mem hal hc2), if_neg (ne_of_mem_of_not_mem hal hn2), hp, if_neg]
          intro e
          exact hdis a (List.mem_of_getLast?_eq_some e.symm) hal

theorem rep_next_mem {s : State} {l : List Nat} (h : Rep s l) {c x : Nat} (hc : c ∈ l)
    (hx : s.next c = some x) : x ∈ l := by
  obtain ⟨l1, l2, rfl, -, -, -, -, -, -, hn, -, -⟩ := rep_split h hc
  rw [hn] at hx
  exact List.mem_append_right _ (List.mem_cons_of_mem _ (List.mem_of_mem_head? hx))

theorem rep_prev_mem {s : State} {l : List Nat} (h : Rep s l) {c x : Nat} (hc : c ∈ l)
    (hx : s.prev c = some x) : x ∈ l := by
  obtain ⟨l1, l2, rfl, -, -, -, -, -, hp, -, -, -⟩ := rep_split h hc
  rw [hp] at hx
  exact List.mem_append_left _ (List.mem_of_getLast?_eq_some hx)

/-- A linked node with no link is the only node of the list. -/
theorem rep_sole {s : State} {l : List Nat} (h : Rep s l) {c : Nat} (hc : c ∈ l)
    (hp : s.prev c = none) (hn : s.next c = none) : l = [c] := by
  obtain ⟨l1, l2, rfl, -, -, -, -, -, hp2, hn2, -, -⟩ := rep_split h hc
  rw [hp] at hp2
  rw [hn] at hn2
  have e1 : l1 = [] := List.getLast?_eq_none_iff.mp hp2.symm
  have e2 : l2 = [] := List.head?_eq_none_iff.mp hn2.symm
  rw [e1, e2]; rfl

/-- The tail of a list of two or more nodes has a `prev`. -/
theorem rep_tail_prev {s : State} {l : List Nat} (h : Rep s l) {c : Nat} (hc : c ∈ l)
    (hlen : 2 ≤ l.length) : ¬ (some c = s.tail ∧ s.prev c = none) := by
  rintro ⟨ht, hp⟩
  obtain ⟨l1, l2, rfl, -, hc2, -, -, -, hp2, hn2, -, -⟩ := rep_split h hc
  have htail := h.tail
  rw [getLast?_append_cons] at htail
  rw [hp] at hp2
  have e1 : l1 = [] := List.getLast?_eq_none_iff.mp hp2.symm
  cases l2 with
  | nil => subst e1; simp at hlen
  | cons b u =>
    rw [htail, lastOr_cons_ne] at ht
    exact hc2 (List.mem_of_getLast?_eq_some ht.symm)

theorem rep_lock {s : State} {l : List Nat} (h : Rep s l) (b : Bool) :
    Rep { s with locked := b } l :=
  ⟨h.nodup, h.head, h.tail, h.size, h.seg⟩

theorem rep_detach {s : State} {l : List Nat} (h : Rep s l) {c : Nat} (hc : c ∈ l) :
    Rep (clearLinks (unlinked s c) c) (l.erase c) :=
  rep_clearLinks (rep_unlinked h hc) (fun hx => (List.Nodup.mem_erase_iff h.nodup).mp hx |>.1 rfl)

theorem detached_detach {s : State} {l : List Nat} (h : Rep s l) (hd : Detached s l)
    {c : Nat} (hc : c ∈ l) : Detached (clearLinks (unlinked s c) c) (l.erase c) := by
  intro x hx
  by_cases hxc : x = c
  · subst hxc
    exact ⟨by show (if x = x then none else _) = none; rw [if_pos rfl],
      by show (if x = x then none else _) = none; rw [if_pos rfl]⟩
  · have hxl : x ∉ l := fun hm => hx ((List.mem_erase_of_ne hxc).mpr hm)
    constructor
    · show (if x = c then none else if some x = s.next c then s.prev c else s.prev x) = none
      rw [if_neg hxc, if_neg (fun e => hxl (rep_next_mem h hc e.symm))]
      exact (hd x hxl).1
    · show (if x = c then none else if some x = s.prev c then s.next c else s.next x) = none
      rw [if_neg hxc, if_neg (fun e => hxl (rep_prev_mem h hc e.symm))]
      exact (hd x hxl).2

theorem detached_linked {s : State} {l : List Nat} (h : Rep s l) (hd : Detached s l)
    (n : Nat) : Detached (linked s n) (n :: l) := by
  intro x hx
  have hxn : x ≠ n := fun e => hx (e ▸ List.mem_cons_self _ _)
  have hxl : x ∉ l := fun hm => hx (List.mem_cons_of_mem _ hm)
  constructor
  · show (if some x = s.head then some n else if x = n then none else s.prev x) = none
    rw [h.head, if_neg (fun e => hxl (List.mem_of_mem_head? e.symm)), if_neg hxn]
    exact (hd x hxl).1
  · show (if x = n then s.head else s.next x) = none
    rw [if_neg hxn]
    exact (hd x hxl).2

theorem mem_map_subst {l : List Nat} {o n x : Nat} (hx : x ∈ l) (hxo : x ≠ o) :
    x ∈ l.map (fun y => if y = o then n else y) :=
  List.mem_map.mpr ⟨x, hx, if_neg hxo⟩

theorem detached_replaced {s : State} {l : List Nat} (h : Rep s l) (hd : Detached s l)
    {o n : Nat} (ho : o ∈ l) :
    Detached (replaced s o n) (l.map (fun x => if x = o then n else x)) := by
  intro x hx
  by_cases hxo : x = o
  · subst hxo
    exact ⟨by show (if x = x then none else _) = none; rw [if_pos rfl],
      by show (if x = x then none else _) = none; rw [if_pos rfl]⟩
  · have hxl : x ∉ l := fun hm => hx (mem_map_subst hm hxo)
    have hxn : x ≠ n := by
      intro e
      apply hx
      exact List.mem_map.mpr ⟨o, ho, by rw [if_pos rfl, e]⟩
    constructor
    · show (if x = o then none else if x = n then s.prev o
        else if some x = s.next o then some n else s.prev x) = none
      rw [if_neg hxo, if_neg hxn, if_neg (fun e => hxl (rep_next_mem h ho e.symm))]
      exact (hd x hxl).1
    · show (if x = o then none else if x = n then s.next o
        else if some x = s.prev o then some n else s.next x) = none
      rw [if_neg hxo, if_neg hxn, if_neg (fun e => hxl (rep_prev_mem h ho e.symm))]
      exact (hd x hxl).2

theorem remove_noop (s : State) (c : Nat) (hp : s.prev c = none) (hn : s.next c = none) :
    remove s c = .ok s := by
  simp [remove, getPrev, getNext, hp, hn]

theorem remove_eq (s : State) (c : Nat) (hq : s.locked = false)
    (hlink : ¬ (s.prev c = none ∧ s.next c = none))
    (ht : ¬ (some c = s.tail ∧ s.prev c = none)) :
    remove s c = .ok (unlock (clearLinks (unlinked { s with locked := true } c) c)) := by
  have hu := unlink_eq { s with locked := true } c rfl ht
  simp only [remove, getPrev, getNext, hlink, if_false, lock, hq, Bool.false_eq_true,
    bind, Except.bind, hu, pure, Except.pure, clearLinks]

/-- A linked node with a link can be removed: the list loses it. -/
theorem rep_remove {s : State} {l : List Nat} (h : Rep s l) (hq : s.locked = false)
    {c : Nat} (hc : c ∈ l) (hlink : ¬ (s.prev c = none ∧ s.next c = none)) :
    remove s c = .ok (unlock (clearLinks (unlinked { s with locked := true } c) c)) ∧
      Rep (unlock (clearLinks (unlinked { s with locked := true } c) c)) (l.erase c) := by
  have hlen : 2 ≤ l.length := by
    rcases Nat.lt_or_ge l.length 2 with hlt | hge
    · exfalso
      obtain ⟨l1, l2, rfl, -, -, -, -, -, hp2, hn2, -, -⟩ := rep_split h hc
      have e1 : l1 = [] := by
        cases l1 with
        | nil => rfl
        | cons a t => simp at hlt; omega
      have e2 : l2 = [] := by
        cases l2 with
        | nil => rfl
        | cons a t => simp at hlt; omega
      subst e1 e2
      exact hlink ⟨hp2, hn2⟩
    · exact hge
  refine ⟨remove_eq s c hq hlink (rep_tail_prev h hc hlen), ?_⟩
  exact rep_lock (rep_detach (rep_lock h true) hc) false

theorem rep_tail_mem {s : State} {l : List Nat} (h : Rep s l) {c : Nat}
    (hc : s.tail = some c) : c ∈ l := by
  rw [h.tail] at hc
  exact List.mem_of_getLast?_eq_some hc

theorem rep_head_mem {s : State} {l : List Nat} (h : Rep s l) {c : Nat}
    (hc : s.head = some c) : c ∈ l := by
  rw [h.head] at hc
  exact List.mem_of_mem_head? hc

theorem rep_empty (k : Nat) : Rep (empty k) [] :=
  ⟨List.nodup_nil, rfl, rfl, rfl, trivial⟩

theorem detached_empty (k : Nat) : Detached (empty k) [] :=
  fun _ _ => ⟨rfl, rfl⟩

theorem wellFormed_empty (k : Nat) : WellFormed (empty k) :=
  wellFormed_of_rep (rep_empty k) (fun c hc => by cases hc)

theorem wellFormed_linkAtHead {s : State} (h : WellFormed s) {n : Nat}
    (hn : n ∉ forward s) : WellFormed (linkAtHead s n) := by
  have hr := rep_of_wellFormed h
  rw [linkAtHead_eq]
  refine wellFormed_of_rep (rep_linked hr hn) ?_
  intro c hc
  have hc2 : (if s.head = none ∧ s.curr = none then some n else s.curr) = some c := hc
  split at hc2
  · cases hc2
    exact List.mem_cons_self _ _
  · exact List.mem_cons_of_mem _ (h.hand c hc2)

/-- One admissible operation keeps the list represented, the other nodes
detached and the mutex free. -/
theorem listOp_step {s : State} {l : List Nat} (hr : Rep s l) (hd : Detached s l)
    (hq : s.locked = false) (op : ListOp) (hpre : op.pre s) :
    ∃ t m, op.step s = .ok t ∧ Rep t m ∧ Detached t m ∧ t.locked = false := by
  have hf := rep_forward hr
  cases op with
  | callLinkAtHead n =>
    have hn : n ∉ l := by rw [← hf]; exact hpre
    refine ⟨linkAtHead s n, n :: l, rfl, ?_, ?_, ?_⟩
    · rw [linkAtHead_eq]; exact rep_linked hr hn
    · rw [linkAtHead_eq]; exact detached_linked hr hd n
    · rw [linkAtHead_eq]; exact hq
  | callRemove n =>
    by_cases hlink : s.prev n = none ∧ s.next n = none
    · exact ⟨s, l, remove_noop s n hlink.1 hlink.2, hr, hd, hq⟩
    · have hn : n ∈ l := by
        by_contra hc
        exact hlink (hd n hc)
      obtain ⟨he, hr2⟩ := rep_remove hr hq hn hlink
      refine ⟨_, l.erase n, he, hr2, ?_, rfl⟩
      exact detached_detach (rep_lock hr true) hd hn
  | callReplace o n =>
    obtain ⟨ho, hn, _⟩ := hpre
    rw [hf] at ho hn
    refine ⟨replaced s o n, _, replace_eq s o n hq, rep_replaced hr ho hn,
      detached_replaced hr hd ho, rfl⟩

theorem listOp_run (ops : List ListOp) {s : State} {l : List Nat} (hr : Rep s l)
    (hd : Detached s l) (hq : s.locked = false) (ha : Admissible s ops) :
    ∃ t m, runList s ops = .ok t ∧ Rep t m ∧ Detached t m ∧ t.locked = false := by
  induction ops generalizing s l with
  | nil => exact ⟨s, l, rfl, hr, hd, hq⟩
  | cons op ops ih =>
    obtain ⟨hpre, hrest⟩ := ha
    obtain ⟨t, m, he, hr2, hd2, hq2⟩ := listOp_step hr hd hq op hpre
    rw [he] at hrest
    obtain ⟨u, m2, he2, h2⟩ := ih hr2 hd2 hq2 hrest
    refine ⟨u, m2, ?_, h2⟩
    show (match op.step s with
      | .ok s1 => runList s1 ops
      | .error e => .error e) = _
    rw [he]
    exact he2

/-- With the other nodes detached, the nodes of the list are exactly the
nodes that have a link or are head or tail. -/
theorem rep_mem_iff {s : State} {l : List Nat} (hr : Rep s l) (hd : Detached s l)
    (n : Nat) :
    n ∈ l ↔ (s.prev n ≠ none ∨ s.next n ≠ none ∨ s.head = some n ∨ s.tail = some n) := by
  constructor
  · intro hn
    obtain ⟨l1, l2, rfl, -, -, -, -, -, hp, -, -, -⟩ := rep_split hr hn
    cases l1 with
    | nil => exact Or.inr (Or.inr (Or.inl hr.head))
    | cons a t =>
      left
      rw [hp]
      intro hc
      exact List.cons_ne_nil a t (List.getLast?_eq_none_iff.mp hc)
  · intro h
    by_contra hn
    obtain ⟨h1, h2⟩ := hd n hn
    rcases h with h | h | h | h
    · exact h h1
    · exact h h2
    · exact hn (rep_head_mem hr h)
    · exact hn (rep_tail_mem hr h)

/-- C1: starting from the empty list, every finite sequence of `link_at_head`
(of a node not in the list), `remove` and `replace` (of a linked node by a
different node not in the list) runs to completion, and the state it reaches
satisfies I1, I2 and I3: size 0 means head and tail are absent; size at
least 1 means head and tail are present and the forward traversal visits
exactly `size` distinct nodes and ends at the tail; `prev` and `next` of
linked nodes mirror each other.  The linked nodes, those the forward
traversal visits, are exactly the nodes that have a link or are head or
tail. -/
theorem wellFormed_invariant (k : Nat) (ops : List ListOp)
    (h : Admissible (empty k) ops) :
    ∃ s, runList (empty k) ops = .ok s ∧ ListInv s ∧
      ∀ n, n ∈ forward s ↔
        (s.prev n ≠ none ∨ s.next n ≠ none ∨ s.head = some n ∨ s.tail = some n) := by
  obtain ⟨t, m, he, hr, hd, _⟩ := listOp_run ops (rep_empty k) (detached_empty k) rfl h
  refine ⟨t, he, rep_listInv hr, ?_⟩
  rw [rep_forward hr]
  exact rep_mem_iff hr hd

theorem wellFormed_invariant_witness :
    ∃ s, runList (empty 1)
      [.callLinkAtHead 1, .callLinkAtHead 2, .callLinkAtHead 3, .callRemove 2,
        .callReplace 3 7, .callRemove 5, .callRemove 1, .callRemove 7] = .ok s ∧ ListInv s ∧
      ∀ n, n ∈ forward s ↔
        (s.prev n ≠ none ∨ s.next n ≠ none ∨ s.head = some n ∨ s.tail = some n) :=
  wellFormed_invariant 1 _
    ⟨by decide, by decide, by decide, trivial, by decide, trivial, trivial, trivial, trivial⟩

/-- C2: on a well-formed list, `link_at_head` of a node `n` that is not in
the list makes `n` the head with no `prev` and the old head as `next`; the
forward traversal is `n` followed by the old one and `size` grows by exactly
1.  If the list was empty, tail and hand both become `n`; otherwise the old
head's `prev` becomes `n` and tail and hand are unchanged. -/
theorem linkAtHead_post (s : State) (n : Nat) (hwf : WellFormed s)
    (hn : n ∉ forward s) :
    (linkAtHead s n).head = some n ∧
    (linkAtHead s n).prev n = none ∧
    (linkAtHead s n).next n = s.head ∧
    forward (linkAtHead s n) = n :: forward s ∧
    (linkAtHead s n).size = s.size + 1 ∧
    (s.size = 0 → (linkAtHead s n).tail = some n ∧ (linkAtHead s n).curr = some n) ∧
    (s.size ≠ 0 →
      (∃ h, s.head = some h ∧ (linkAtHead s n).prev h = some n) ∧
      (linkAtHead s n).tail = s.tail ∧ (linkAtHead s n).curr = s.curr) := by
  have hr := rep_of_wellFormed hwf
  have hr2 := rep_linked hr hn
  have hmem : ∀ h, s.head = some h → h ∈ forward s := by
    intro h hh
    rw [hr.head] at hh
    exact List.mem_of_mem_head? hh
  rw [linkAtHead_eq]
  refine ⟨rfl, ?_, ?_, rep_forward hr2, rfl, ?_, ?_⟩
  · show (if some n = s.head then some n else if n = n then none else s.prev n) = none
    rw [if_neg (fun e => hn (hmem n e.symm)), if_pos rfl]
  · show (if n = n then s.head else s.next n) = s.head
    rw [if_pos rfl]
  · intro h0
    obtain ⟨hh, ht⟩ := hwf.inv.1 h0
    have hc : s.curr = none := by
      cases hcu : s.curr with
      | none => rfl
      | some c =>
        have hm := hwf.hand c hcu
        have hf : forward s = [] := by unfold forward; rw [hh, h0]; rfl
        rw [hf] at hm
        cases hm
    constructor
    · show (if s.head = none ∧ s.tail = none then some n else s.tail) = some n
      rw [if_pos ⟨hh, ht⟩]
    · show (if s.head = none ∧ s.curr = none then some n else s.curr) = some n
      rw [if_pos ⟨hh, hc⟩]
  · intro h0
    have hh := (hwf.inv.2.1 (Nat.one_le_iff_ne_zero.mpr h0)).1
    obtain ⟨h, hhd⟩ := Option.ne_none_iff_exists'.mp hh
    refine ⟨⟨h, hhd, ?_⟩, ?_, ?_⟩
    · show (if some h = s.head then some n else _) = some n
      rw [if_pos hhd.symm]
    · show (if s.head = none ∧ s.tail = none then some n else s.tail) = s.tail
      rw [if_neg (fun e => hh e.1)]
    · show (if s.head = none ∧ s.curr = none then some n else s.curr) = s.curr
      rw [if_neg (fun e => hh e.1)]

theorem linkAtHead_post_witness :
    WellFormed (linkAtHead (empty 1) 1) ∧ 2 ∉ forward (linkAtHead (empty 1) 1) ∧
    forward (linkAtHead (linkAtHead (empty 1) 1) 2) = 2 :: forward (linkAtHead (empty 1) 1) :=
  ⟨wellFormed_linkAtHead (wellFormed_empty 1) (by decide), by decide,
    (linkAtHead_post (linkAtHead (empty 1) 1) 2
      (wellFormed_linkAtHead (wellFormed_empty 1) (by decide)) (by decide)).2.2.2.1⟩

/-- C3: on a well-formed list, `remove` of a linked node `n` that has at
least one link completes without reaching an abort branch of `unlink`; the
forward traversal is the old one with `n` deleted, `size` drops by exactly
1, both links of `n` are absent, head is the old `n.next` if `n` was head,
tail is the old `n.prev` if `n` was tail, the hand is the old `n.prev` if it
was `n`, and head, tail and hand are otherwise unchanged. -/
theorem remove_post (s : State) (n : Nat) (hwf : WellFormed s) (hq : s.locked = false)
    (hn : n ∈ forward s) (hlink : s.prev n ≠ none ∨ s.next n ≠ none) :
    ∃ t, remove s n = .ok t ∧
      forward t = (forward s).filter (fun x => x != n) ∧
      t.size + 1 = s.size ∧
      t.prev n = none ∧ t.next n = none ∧
      t.head = (if s.head = some n then s.next n else s.head) ∧
      t.tail = (if s.tail = some n then s.prev n else s.tail) ∧
      t.curr = (if s.curr = some n then s.prev n else s.curr) := by
  have hr := rep_of_wellFormed hwf
  have hl : ¬ (s.prev n = none ∧ s.next n = none) := by
    rintro ⟨h1, h2⟩
    rcases hlink with h | h
    · exact h h1
    · exact h h2
  obtain ⟨he, hr2⟩ := rep_remove hr hq hn hl
  refine ⟨_, he, ?_, ?_, ?_, ?_, ?_, ?_, ?_⟩
  · rw [rep_forward hr2, List.Nodup.erase_eq_filter hr.nodup]
  · show s.size - 1 + 1 = s.size
    have := hr.size
    have : 0 < (forward s).length := List.length_pos_of_mem hn
    omega
  · show (if n = n then none else _) = none
    rw [if_pos rfl]
  · show (if n = n then none else _) = none
    rw [if_pos rfl]
  · show (if some n = s.head then s.next n else s.head) = _
    simp only [eq_comm]
  · show (if some n = s.tail then s.prev n else s.tail) = _
    simp only [eq_comm]
  · show (if some n = s.curr then s.prev n else s.curr) = _
    simp only [eq_comm]

theorem remove_post_witness :
    ∃ t, remove (linkAtHead (linkAtHead (empty 1) 1) 2) 1 = .ok t ∧ forward t = [2] ∧
      t.tail = some 2 ∧ t.curr = some 2 :=
  (remove_post (linkAtHead (linkAtHead (empty 1) 1) 2) 1
    (wellFormed_linkAtHead (wellFormed_linkAtHead (wellFormed_empty 1) (by decide))
      (by decide)) rfl (by decide) (by decide)).imp
    (fun _ h => ⟨h.1, h.2.1, h.2.2.2.2.2.2.1, h.2.2.2.2.2.2.2⟩)

/-- C4: on a well-formed list, `replace` of a linked node `o` by a different
node `n` that is not in the list completes; the forward traversal is the old
one with `o` substituted by `n` at the same position, `size` is unchanged,
each of head, tail and hand that was `o` is now `n` and is otherwise
unchanged, the links of `n` are the former links of `o`, and both links of
`o` are absent. -/
theorem replace_post (s : State) (o n : Nat) (hwf : WellFormed s) (hq : s.locked = false)
    (ho : o ∈ forward s) (hn : n ∉ forward s) (hne : n ≠ o) :
    ∃ t, replace s o n = .ok t ∧
      forward t = (forward s).map (fun x => if x = o then n else x) ∧
      t.size = s.size ∧
      t.head = (if s.head = some o then some n else s.head) ∧
      t.tail = (if s.tail = some o then some n else s.tail) ∧
      t.curr = (if s.curr = some o then some n else s.curr) ∧
      t.prev n = s.prev o ∧ t.next n = s.next o ∧
      t.prev o = none ∧ t.next o = none := by
  have hr := rep_of_wellFormed hwf
  have hr2 := rep_replaced hr ho hn
  refine ⟨replaced s o n, replace_eq s o n hq, rep_forward hr2, rfl, ?_, ?_, ?_, ?_, ?_, ?_, ?_⟩
  · show (if some o = s.head then some n else s.head) = _
    simp only [eq_comm]
  · show (if some o = s.tail then some n else s.tail) = _
    simp only [eq_comm]
  · show (if some o = s.curr then some n else s.curr) = _
    simp only [eq_comm]
  · show (if n = o then none else if n = n then s.prev o else _) = _
    rw [if_neg hne, if_pos rfl]
  · show (if n = o then none else if n = n then s.next o else _) = _
    rw [if_neg hne, if_pos rfl]
  · show (if o = o then none else _) = none
    rw [if_pos rfl]
  · show (if o = o then none else _) = none
    rw [if_pos rfl]

theorem replace_post_witness :
    ∃ t, replace (linkAtHead (linkAtHead (empty 1) 1) 2) 1 7 = .ok t ∧ forward t = [2, 7] ∧
      t.tail = some 7 ∧ t.curr = some 7 :=
  (replace_post (linkAtHead (linkAtHead (empty 1) 1) 2) 1 7
    (wellFormed_linkAtHead (wellFormed_linkAtHead (wellFormed_empty 1) (by decide))
      (by decide)) rfl (by decide) (by decide) (by decide)).imp
    (fun _ h => ⟨h.1, h.2.1, h.2.2.2.2.1, h.2.2.2.2.2.1⟩)

theorem wellFormed_locked {s : State} (h : WellFormed s) (b : Bool) :
    WellFormed { s with locked := b } :=
  ⟨h.inv, h.headPrev, h.hand⟩

theorem moveToHead_head (s : State) (n : Nat) (h : s.head = some n) :
    moveToHead s n = .ok s := by
  simp [moveToHead, h]

theorem moveToHead_unlocked (s : State) (n : Nat) (h : s.head ≠ some n)
    (hq : s.locked = false) : moveToHead s n = .error .mutexNotHeld := by
  have h2 : ¬ (some n = s.head) := fun e => h e.symm
  simp [moveToHead, h2, unlink_unlocked s n hq, bind, Except.bind]

theorem moveToHead_locked {s : State} {l : List Nat} (hr : Rep s l) {n : Nat} (hn : n ∈ l)
    (h : s.head ≠ some n) (hq : s.locked = true) :
    moveToHead s n = .ok (linked (unlinked s n) n) ∧
      Rep (linked (unlinked s n) n) (n :: l.erase n) := by
  have h2 : ¬ (some n = s.head) := fun e => h e.symm
  have hlen : 2 ≤ l.length := by
    have hh := hr.head
    cases l with
    | nil => cases hn
    | cons a t =>
      cases t with
      | nil =>
        exfalso
        apply h
        rw [hh]
        simp at hn
        rw [hn]; rfl
      | cons b u => simp
  have hu := unlink_eq s n hq (rep_tail_prev hr hn hlen)
  constructor
  · simp [moveToHead, h2, hu, bind, Except.bind, pure, Except.pure, linkAtHead_eq]
  · exact rep_linked (rep_unlinked hr hn) (fun hx => (List.Nodup.mem_erase_iff hr.nodup).mp hx |>.1 rfl)

/-- C5 (as the code has it): on a well-formed list and for a linked node `n`,
`move_to_head` leaves the state unchanged when `n` is already head.
Otherwise it takes no lock itself and goes through `unlink`, which aborts
unless the mutex is held: called while the caller holds the mutex it
completes, `n` is head afterwards, the forward traversal is `n` followed by
the old one with `n` deleted and `size` is unchanged; called on its own, with
the mutex free, it aborts at the mutex check of `unlink`. -/
theorem moveToHead_post (s : State) (n : Nat) (hwf : WellFormed s) (hn : n ∈ forward s) :
    (s.head = some n → moveToHead s n = .ok s) ∧
    (s.head ≠ some n → s.locked = true →
      ∃ t, moveToHead s n = .ok t ∧ t.head = some n ∧
        forward t = n :: (forward s).filter (fun x => x != n) ∧ t.size = s.size) ∧
    (s.head ≠ some n → s.locked = false → moveToHead s n = .error .mutexNotHeld) := by
  have hr := rep_of_wellFormed hwf
  refine ⟨moveToHead_head s n, ?_, fun h hq => moveToHead_unlocked s n h hq⟩
  intro h hq
  obtain ⟨he, hr2⟩ := moveToHead_locked hr hn h hq
  refine ⟨_, he, rfl, ?_, ?_⟩
  · rw [rep_forward hr2, List.Nodup.erase_eq_filter hr.nodup]
  · show s.size - 1 + 1 = s.size
    have := hr.size
    have : 0 < (forward s).length := List.length_pos_of_mem hn
    omega

theorem moveToHead_post_witness :
    ∃ t, moveToHead { linkAtHead (linkAtHead (empty 1) 1) 2 with locked := true } 1 = .ok t ∧
      t.head = some 1 ∧ forward t = [1, 2] ∧ t.size = 2 :=
  (moveToHead_post { linkAtHead (linkAtHead (empty 1) 1) 2 with locked := true } 1
    (wellFormed_locked (wellFormed_linkAtHead (wellFormed_linkAtHead (wellFormed_empty 1)
      (by decide)) (by decide)) true) (by decide)).2.1 (by decide) rfl

/-- C5, as stated, fails: on the well-formed two-node list `[2, 1]` with the
mutex free, `move_to_head` of the linked node `1`, which is not the head,
does not complete: it aborts at the mutex check of `unlink`. -/
theorem moveToHead_public_aborts :
    WellFormed (linkAtHead (linkAtHead (empty 1) 1) 2) ∧
    (linkAtHead (linkAtHead (empty 1) 1) 2).locked = false ∧
    1 ∈ forward (linkAtHead (linkAtHead (empty 1) 1) 2) ∧
    (linkAtHead (linkAtHead (empty 1) 1) 2).head = some 2 ∧
    moveToHead (linkAtHead (linkAtHead (empty 1) 1) 2) 1 = .error .mutexNotHeld :=
  ⟨wellFormed_linkAtHead (wellFormed_linkAtHead (wellFormed_empty 1) (by decide)) (by decide),
    rfl, by decide, rfl, rfl⟩

theorem inv_congr {s t : State} {l ins ret : List Nat} (h : Inv s l ins ret)
    (hh : t.head = s.head) (ht : t.tail = s.tail) (hs : t.size = s.size)
    (hp : t.prev = s.prev) (hn : t.next = s.next) (hc : t.curr = s.curr)
    (hb : t.buf = s.buf) (hpr : t.produced = s.produced) : Inv t l ins ret where
  rep := rep_congr h.rep hh ht hs (fun a _ => by rw [hp]) (fun a _ => by rw [hn])
  detached := fun n hn2 => by rw [hp, hn]; exact h.detached n hn2
  hand := fun c hc2 => h.hand c (hc ▸ hc2)
  buf := fun i n hi => h.buf i n (hb ▸ hi)
  bufInj := fun i j n hi hj => h.bufInj i j n (hb ▸ hi) (hb ▸ hj)
  list := h.list
  retNodup := h.retNodup
  retIns := h.retIns
  count := by rw [hpr, hs]; exact h.count

theorem rep_prev_mem_erase {s : State} {l : List Nat} (h : Rep s l) {c x : Nat}
    (hc : c ∈ l) (hx : s.prev c = some x) : x ∈ l.erase c := by
  obtain ⟨l1, l2, rfl, hc1, -, -, -, -, hp, -, -, -⟩ := rep_split h hc
  rw [hp] at hx
  have hx1 : x ∈ l1 := List.mem_of_getLast?_eq_some hx
  have hne : x ≠ c := ne_of_mem_of_not_mem hx1 hc1
  exact (List.mem_erase_of_ne hne).mpr (List.mem_append_left _ hx1)

theorem unlink_cases (s : State) (c : Nat) (hl : s.locked = true) :
    unlink s c = .error .tailUnlink ∨ unlink s c = .ok (unlinked s c) := by
  by_cases hab : some c = s.tail ∧ s.prev c = none
  · exact Or.inl (unlink_abort s c hl hab.1 hab.2)
  · exact Or.inr (unlink_eq s c hl hab)

/-- The sweep moves an unaccessed linked node into an empty buffer slot. -/
theorem inv_evict {s : State} {l ins ret : List Nat} (h : Inv s l ins ret) {c : Nat}
    (hc : c ∈ l) (idx : Nat) :
    Inv (clearLinks (unlinked { s with
        buf := fun i => if i = idx then some c else s.buf i,
        produced := s.produced + 1 } c) c) (l.erase c) ins ret where
  rep := @rep_detach { s with
      buf := fun i => if i = idx then some c else s.buf i,
      produced := s.produced + 1 } l
    ⟨h.rep.nodup, h.rep.head, h.rep.tail, h.rep.size, h.rep.seg⟩ c hc
  detached := @detached_detach { s with
      buf := fun i => if i = idx then some c else s.buf i,
      produced := s.produced + 1 } l
    ⟨h.rep.nodup, h.rep.head, h.rep.tail, h.rep.size, h.rep.seg⟩ h.detached c hc
  hand := by
    intro x hx
    have hx2 : (if some c = s.curr then s.prev c else s.curr) = some x := hx
    split at hx2
    · exact rep_prev_mem_erase h.rep hc hx2
    · rename_i hne
      have hxc : x ≠ c := by
        intro e
        apply hne
        rw [hx2, e]
      exact (List.mem_erase_of_ne hxc).mpr (h.hand x hx2)
  buf := by
    intro i n hi
    have hi2 : (if i = idx then some c else s.buf i) = some n := hi
    split at hi2
    · cases hi2
      exact ⟨fun hm => (List.Nodup.mem_erase_iff h.rep.nodup).mp hm |>.1 rfl, h.list c hc⟩
    · obtain ⟨h1, h2⟩ := h.buf i n hi2
      exact ⟨fun hm => h1 (List.mem_of_mem_erase hm), h2⟩
  bufInj := by
    intro i j n hi hj
    have hi2 : (if i = idx then some c else s.buf i) = some n := hi
    have hj2 : (if j = idx then some c else s.buf j) = some n := hj
    split at hi2 <;> split at hj2
    · rename_i e1 e2; rw [e1, e2]
    · cases hi2
      exact absurd hc (h.buf j c hj2).1
    · cases hj2
      exact absurd hc (h.buf i c hi2).1
    · exact h.bufInj i j n hi2 hj2
  list := fun n hn => h.list n (List.mem_of_mem_erase hn)
  retNodup := h.retNodup
  retIns := h.retIns
  count := by
    show s.produced + 1 + (s.size - 1) = ins.length
    have h1 := h.count
    have h2 := h.rep.size
    have h3 : 0 < l.length := List.length_pos_of_mem hc
    omega

/-- The sweep loop keeps the invariant, the mutex held and its cursor on a
linked node. -/
theorem sweepLoop_inv (ins ret : List Nat) (fuel : Nat) :
    ∀ (s : State) (hws : Option Nat) (nCand idx nIters : Nat) (curr : Option Nat)
      (l : List Nat) (t : State) (cf : Option Nat),
      Inv s l ins ret → s.locked = true → (∀ c, curr = some c → c ∈ l) →
      sweepLoop fuel s hws nCand idx nIters curr = .ok (t, cf) →
      ∃ m, Inv t m ins ret ∧ t.locked = true ∧ (∀ c, cf = some c → c ∈ m) := by
  induction fuel with
  | zero =>
    intro s hws nCand idx nIters curr l t cf _ _ _ h
    simp [sweepLoop] at h
  | succ f ih =>
    intro s hws nCand idx nIters curr l t cf hinv hlk hcur h
    rw [sweepLoop] at h
    split at h
    · split at h
      · cases h
      · simp only at h
        split at h
        · cases h
        · rename_i c hc1
          have hcl : c ∈ l := by
            split at hc1
            · exact rep_tail_mem hinv.rep hc1
            · exact hcur c hc1
          split at h
          · -- second chance
            refine ih (unmarkAccessed s c) _ _ _ _ _ l t cf ?_ hlk ?_ h
            · exact inv_congr hinv rfl rfl rfl rfl rfl rfl rfl rfl
            · intro x hx
              split at hx
              · exact rep_tail_mem hinv.rep hx
              · exact rep_prev_mem hinv.rep hcl hx
          · split at h
            · cases h
            · rename_i hbuf
              split at h
              · cases h
              · rename_i s2 hu
                have hs2 : s2 = unlinked { s with
                    buf := fun i => if i = idx then some c else s.buf i,
                    produced := s.produced + 1 } c := by
                  rcases unlink_cases { s with
                    buf := fun i => if i = idx then some c else s.buf i,
                    produced := s.produced + 1 } c hlk with e | e
                  · rw [e] at hu
                    cases hu
                  · rw [e] at hu
                    cases hu
                    rfl
                subst hs2
                have hinv2 := inv_evict hinv hcl idx
                refine ih _ _ _ _ _ _ (l.erase c) t cf hinv2 hlk ?_ h
                intro x hx
                split at hx
                · exact rep_tail_mem hinv2.rep hx
                · exact rep_prev_mem_erase hinv.rep hcl hx
    · cases h
      exact ⟨l, hinv, hlk, hcur⟩

theorem prepare_inv {ins ret : List Nat} {fuel : Nat} {s t : State} {l : List Nat}
    (hinv : Inv s l ins ret) (hq : s.locked = false)
    (h : prepareEvictionCandidates fuel s = .ok t) :
    ∃ m, Inv t m ins ret ∧ t.locked = false := by
  unfold prepareEvictionCandidates at h
  simp only [lock, hq, Bool.false_eq_true, if_false] at h
  split at h
  · cases h
    exact ⟨l, inv_congr hinv rfl rfl rfl rfl rfl rfl rfl rfl, rfl⟩
  · split at h
    · cases h
    · rename_i s1 cf hsw
      cases h
      obtain ⟨m, hm, _, hcf⟩ := sweepLoop_inv ins ret fuel { s with locked := true }
        _ _ _ _ _ l s1 cf
        (inv_congr hinv rfl rfl rfl rfl rfl rfl rfl rfl) rfl hinv.hand hsw
      refine ⟨m, ?_, rfl⟩
      exact
        { rep := ⟨hm.rep.nodup, hm.rep.head, hm.rep.tail, hm.rep.size, hm.rep.seg⟩
          detached := hm.detached
          hand := hcf
          buf := hm.buf
          bufInj := hm.bufInj
          list := hm.list
          retNodup := hm.retNodup
          retIns := hm.retIns
          count := hm.count }

/-- Taking the content of a slot out of the buffer. -/
theorem inv_claim {s : State} {l ins ret : List Nat} (h : Inv s l ins ret) (idx : Nat) :
    Inv { s with buf := fun i => if i = idx then none else s.buf i } l ins
      (ret ++ (s.buf idx).toList) := by
  have hsub : ∀ i n, (if i = idx then none else s.buf i) = some n →
      s.buf i = some n ∧ i ≠ idx := by
    intro i n hi
    split at hi
    · cases hi
    · rename_i hne
      exact ⟨hi, hne⟩
  cases hb : s.buf idx with
  | none =>
    simp only [Option.toList, List.append_nil]
    exact
      { rep := ⟨h.rep.nodup, h.rep.head, h.rep.tail, h.rep.size, h.rep.seg⟩
        detached := h.detached
        hand := h.hand
        buf := fun i n hi => h.buf i n (hsub i n hi).1
        bufInj := fun i j n hi hj => h.bufInj i j n (hsub i n hi).1 (hsub j n hj).1
        list := h.list
        retNodup := h.retNodup
        retIns := h.retIns
        count := h.count }
  | some x =>
    simp only [Option.toList]
    obtain ⟨hx1, hx2, hx3⟩ := h.buf idx x hb
    exact
      { rep := ⟨h.rep.nodup, h.rep.head, h.rep.tail, h.rep.size, h.rep.seg⟩
        detached := h.detached
        hand := h.hand
        buf := by
          intro i n hi
          obtain ⟨h1, h2⟩ := hsub i n hi
          obtain ⟨g1, g2, g3⟩ := h.buf i n h1
          refine ⟨g1, g2, ?_⟩
          intro hm
          rcases List.mem_append.mp hm with hm | hm
          · exact g3 hm
          · simp only [List.mem_singleton] at hm
            subst hm
            exact h2 (h.bufInj i idx n h1 hb)
        bufInj := fun i j n hi hj => h.bufInj i j n (hsub i n hi).1 (hsub j n hj).1
        list := by
          intro n hn
          obtain ⟨g1, g2⟩ := h.list n hn
          refine ⟨g1, ?_⟩
          intro hm
          rcases List.mem_append.mp hm with hm | hm
          · exact g2 hm
          · simp only [List.mem_singleton] at hm
            subst hm
            exact hx1 hn
        retNodup := by
          rw [List.nodup_append]
          refine ⟨h.retNodup, List.nodup_singleton x, ?_⟩
          intro a ha1 ha2
          simp only [List.mem_singleton] at ha2
          subst ha2
          exact hx3 ha1
        retIns := by
          intro n hm
          rcases List.mem_append.mp hm with hm | hm
          · exact h.retIns n hm
          · simp only [List.mem_singleton] at hm
            subst hm
            exact hx2
        count := h.count }

theorem claimLoop_inv (ins ret : List Nat) (fuel : Nat) :
    ∀ (s : State) (idx : Nat) (l : List Nat) (t : State) (r : Option Nat),
      Inv s l ins ret → s.locked = false → claimLoop fuel s idx = .ok (t, r) →
      ∃ m, Inv t m ins (ret ++ r.toList) ∧ t.locked = false := by
  induction fuel with
  | zero =>
    intro s idx l t r _ _ h
    simp [claimLoop] at h
  | succ f ih =>
    intro s idx l t r hinv hq h
    rw [claimLoop] at h
    split at h
    · split at h
      · cases h
        exact ⟨l, by simpa using hinv, hq⟩
      · split at h
        · cases h
        · rename_i s1 hp
          obtain ⟨m, hm, hq1⟩ := prepare_inv hinv hq hp
          exact ih { s1 with bufIdx := s1.bufIdx + 1 } _ m t r
            (inv_congr hm rfl rfl rfl rfl rfl rfl rfl rfl) hq1 h
    · cases h
      exact ⟨l, inv_claim hinv idx, hq⟩

theorem getEvictionCandidate_inv {ins ret : List Nat} {fuel : Nat} {s t : State}
    {l : List Nat} {r : Option Nat} (hinv : Inv s l ins ret) (hq : s.locked = false)
    (h : getEvictionCandidate fuel s = .ok (t, r)) :
    ∃ m, Inv t m ins (ret ++ r.toList) ∧ t.locked = false :=
  claimLoop_inv ins ret fuel { s with bufIdx := s.bufIdx + 1 } _ l t r
    (inv_congr hinv rfl rfl rfl rfl rfl rfl rfl rfl) hq h

theorem inv_linked {s : State} {l ins ret : List Nat} (h : Inv s l ins ret) {n : Nat}
    (hn : n ∉ ins) : Inv (linked s n) (n :: l) (ins ++ [n]) ret where
  rep := rep_linked h.rep (fun hm => hn (h.list n hm).1)
  detached := detached_linked h.rep h.detached n
  hand := by
    intro c hc
    have hc2 : (if s.head = none ∧ s.curr = none then some n else s.curr) = some c := hc
    split at hc2
    · cases hc2
      exact List.mem_cons_self _ _
    · exact List.mem_cons_of_mem _ (h.hand c hc2)
  buf := by
    intro i x hi
    obtain ⟨g1, g2, g3⟩ := h.buf i x hi
    refine ⟨?_, List.mem_append_left _ g2, g3⟩
    intro hm
    rcases List.mem_cons.mp hm with e | hm
    · exact hn (e ▸ g2)
    · exact g1 hm
  bufInj := h.bufInj
  list := by
    intro x hx
    rcases List.mem_cons.mp hx with e | hx
    · subst e
      exact ⟨List.mem_append_right _ (List.mem_singleton_self _), fun hm => hn (h.retIns x hm)⟩
    · exact ⟨List.mem_append_left _ (h.list x hx).1, (h.list x hx).2⟩
  retNodup := h.retNodup
  retIns := fun x hx => List.mem_append_left _ (h.retIns x hx)
  count := by
    show s.produced + (s.size + 1) = (ins ++ [n]).length
    have := h.count
    simp only [List.length_append, List.length_singleton]
    omega

theorem inv_empty (k : Nat) : Inv (empty k) [] [] [] where
  rep := rep_empty k
  detached := detached_empty k
  hand := fun c hc => by cases hc
  buf := fun i n hi => by cases hi
  bufInj := fun i j n hi _ => by cases hi
  list := fun n hn => by cases hn
  retNodup := List.nodup_nil
  retIns := fun n hn => by cases hn
  count := rfl

theorem runCache_inv (fuel : Nat) (ops : List CacheOp) :
    ∀ (s : State) (l ins ret : List Nat) (t : State) (rs : List Nat),
      Inv s l ins ret → s.locked = false → (ins ++ inserted ops).Nodup →
      runCache fuel s ops = .ok (t, rs) →
      ∃ m, Inv t m (ins ++ inserted ops) (ret ++ rs) ∧ t.locked = false := by
  induction ops with
  | nil =>
    intro s l ins ret t rs hinv hq _ h
    simp only [runCache, Except.ok.injEq, Prod.mk.injEq] at h
    obtain ⟨rfl, rfl⟩ := h
    exact ⟨l, by simpa [inserted] using hinv, hq⟩
  | cons op ops ih =>
    intro s l ins ret t rs hinv hq hnd h
    rw [runCache] at h
    split at h
    · cases h
    · rename_i s1 r hstep
      split at h
      · cases h
      · rename_i s2 rs2 hrun
        cases h
        cases op with
        | callLinkAtHead n =>
          simp only [CacheOp.step, Except.ok.injEq, Prod.mk.injEq] at hstep
          obtain ⟨rfl, rfl⟩ := hstep
          have hn : n ∉ ins := by
            intro hm
            have := List.nodup_append.mp hnd
            exact this.2.2 hm (List.mem_cons_self _ _)
          have hinv1 := inv_linked hinv hn
          rw [← linkAtHead_eq] at hinv1
          have hq1 : (linkAtHead s n).locked = false := by rw [linkAtHead_eq]; exact hq
          have hnd1 : ((ins ++ [n]) ++ inserted ops).Nodup := by
            simpa [inserted] using hnd
          obtain ⟨m, hm, hq2⟩ := ih _ _ _ _ _ _ hinv1 hq1 hnd1 hrun
          refine ⟨m, ?_, hq2⟩
          simpa [inserted] using hm
        | callMarkAccessed n =>
          simp only [CacheOp.step, Except.ok.injEq, Prod.mk.injEq] at hstep
          obtain ⟨rfl, rfl⟩ := hstep
          have hinv1 : Inv (markAccessed s n) l ins ret :=
            inv_congr hinv rfl rfl rfl rfl rfl rfl rfl rfl
          obtain ⟨m, hm, hq2⟩ := ih _ _ _ _ _ _ hinv1 hq (by simpa [inserted] using hnd) hrun
          refine ⟨m, ?_, hq2⟩
          simpa [inserted] using hm
        | callGetEvictionCandidate =>
          simp only [CacheOp.step] at hstep
          obtain ⟨m1, hinv1, hq1⟩ := getEvictionCandidate_inv hinv hq hstep
          obtain ⟨m, hm, hq2⟩ := ih _ _ _ _ _ _ hinv1 hq1 (by simpa [inserted] using hnd) hrun
          refine ⟨m, ?_, hq2⟩
          simpa [inserted, List.append_assoc] using hm

theorem runCache_append (fuel : Nat) (pre suf : List CacheOp) :
    ∀ (s t : State) (rs : List Nat), runCache fuel s (pre ++ suf) = .ok (t, rs) →
      ∃ t1 rs1 rs2, runCache fuel s pre = .ok (t1, rs1) ∧
        runCache fuel t1 suf = .ok (t, rs2) ∧ rs = rs1 ++ rs2 := by
  induction pre with
  | nil =>
    intro s t rs h
    exact ⟨s, [], rs, rfl, h, rfl⟩
  | cons op pre ih =>
    intro s t rs h
    rw [List.cons_append, runCache] at h
    split at h
    · cases h
    · rename_i s1 r hstep
      split at h
      · cases h
      · rename_i s2 rs2 hrun
        simp only [Except.ok.injEq, Prod.mk.injEq] at h
        obtain ⟨e1, e2⟩ := h
        obtain ⟨t1, rs1, rs3, h1, h2, h3⟩ := ih s1 s2 rs2 hrun
        refine ⟨t1, r.toList ++ rs1, rs3, ?_, e1 ▸ h2, ?_⟩
        · rw [runCache, hstep]
          simp only [h1]
        · rw [← e2, h3, List.append_assoc]

theorem inserted_append (pre suf : List CacheOp) :
    inserted (pre ++ suf) = inserted pre ++ inserted suf := by
  induction pre with
  | nil => rfl
  | cons op pre ih =>
    cases op <;> simp [inserted, ih]

theorem runCache_empty_inv {fuel k : Nat} {ops : List CacheOp} {t : State} {rs : List Nat}
    (hfresh : (inserted ops).Nodup) (hrun : runCache fuel (empty k) ops = .ok (t, rs)) :
    ∃ m, Inv t m (inserted ops) rs ∧ t.locked = false := by
  have := runCache_inv fuel ops (empty k) [] [] [] t rs (inv_empty k) rfl
    (by simpa using hfresh) hrun
  simpa using this

/-- C6: in every state reached from the empty list by a workload of
`link_at_head` of fresh nodes, `mark_accessed` and `get_eviction_candidate`,
every node stored in a slot of the eviction buffer has both links absent and
is not in the forward traversal; the same holds of every node the workload
has returned so far, and of the node returned by a further
`get_eviction_candidate`, in the state that call leaves. -/
theorem buffered_detached (fuel k : Nat) (ops : List CacheOp) (t : State) (rs : List Nat)
    (hfresh : (inserted ops).Nodup)
    (hrun : runCache fuel (empty k) ops = .ok (t, rs)) :
    (∀ i n, t.buf i = some n → t.prev n = none ∧ t.next n = none ∧ n ∉ forward t) ∧
    (∀ n ∈ rs, t.prev n = none ∧ t.next n = none ∧ n ∉ forward t) ∧
    (∀ t2 n, getEvictionCandidate fuel t = .ok (t2, some n) →
      t2.prev n = none ∧ t2.next n = none ∧ n ∉ forward t2) := by
  obtain ⟨m, hinv, hq⟩ := runCache_empty_inv hfresh hrun
  have hf := rep_forward hinv.rep
  refine ⟨?_, ?_, ?_⟩
  · intro i n hi
    have hn := (hinv.buf i n hi).1
    exact ⟨(hinv.detached n hn).1, (hinv.detached n hn).2, by rw [hf]; exact hn⟩
  · intro n hn
    have hnm : n ∉ m := fun hm => (hinv.list n hm).2 hn
    exact ⟨(hinv.detached n hnm).1, (hinv.detached n hnm).2, by rw [hf]; exact hnm⟩
  · intro t2 n hg
    obtain ⟨m2, hinv2, _⟩ := getEvictionCandidate_inv hinv hq hg
    have hnm : n ∉ m2 := fun hm =>
      (hinv2.list n hm).2 (List.mem_append_right _ (List.mem_singleton_self n))
    exact ⟨(hinv2.detached n hnm).1, (hinv2.detached n hnm).2,
      by rw [rep_forward hinv2.rep]; exact hnm⟩

theorem buffered_detached_witness :
    ∃ t rs, runCache 5 (empty 2)
        [.callLinkAtHead 1, .callLinkAtHead 2, .callLinkAtHead 3, .callLinkAtHead 4,
          .callMarkAccessed 1, .callGetEvictionCandidate] = .ok (t, rs) ∧
      rs = [2] ∧ t.buf 1 = some 3 ∧ forward t = [4, 1] ∧
      (t.prev 3 = none ∧ t.next 3 = none ∧ 3 ∉ forward t) := by
  refine ⟨_, _, rfl, rfl, rfl, rfl, ?_⟩
  exact (buffered_detached 5 2
    [.callLinkAtHead 1, .callLinkAtHead 2, .callLinkAtHead 3, .callLinkAtHead 4,
      .callMarkAccessed 1, .callGetEvictionCandidate] _ _ (by decide) rfl).1 1 3 rfl

/-- C7: over a workload of `link_at_head` calls that insert each node at most
once, `mark_accessed` calls and `get_eviction_candidate` calls, started on
the empty list, the non-absent results of `get_eviction_candidate` are
pairwise distinct. -/
theorem no_double_eviction (fuel k : Nat) (ops : List CacheOp) (t : State) (rs : List Nat)
    (hfresh : (inserted ops).Nodup)
    (hrun : runCache fuel (empty k) ops = .ok (t, rs)) : rs.Nodup := by
  obtain ⟨m, hinv, _⟩ := runCache_empty_inv hfresh hrun
  exact hinv.retNodup

theorem no_double_eviction_witness :
    ∃ t rs, runCache 5 (empty 2)
        [.callLinkAtHead 1, .callLinkAtHead 2, .callLinkAtHead 3, .callLinkAtHead 4,
          .callLinkAtHead 5, .callLinkAtHead 6, .callMarkAccessed 1,
          .callGetEvictionCandidate, .callGetEvictionCandidate,
          .callGetEvictionCandidate] = .ok (t, rs) ∧
      rs = [2, 3, 4] ∧ rs.Nodup := by
  refine ⟨_, _, rfl, rfl, ?_⟩
  exact no_double_eviction 5 2
    [.callLinkAtHead 1, .callLinkAtHead 2, .callLinkAtHead 3, .callLinkAtHead 4,
      .callLinkAtHead 5, .callLinkAtHead 6, .callMarkAccessed 1,
      .callGetEvictionCandidate, .callGetEvictionCandidate,
      .callGetEvictionCandidate] _ _ (by decide) rfl

/-- C8: for a workload that only inserts fresh nodes, touches and asks for
candidates, started on the empty list, after every initial part of the run
the number of candidates the sweeps have stored in the buffer so far equals
the number of nodes inserted so far minus the current size. -/
theorem conservation (fuel k : Nat) (pre suf : List CacheOp) (t : State) (rs : List Nat)
    (hfresh : (inserted (pre ++ suf)).Nodup)
    (hrun : runCache fuel (empty k) (pre ++ suf) = .ok (t, rs)) :
    ∃ t1 rs1, runCache fuel (empty k) pre = .ok (t1, rs1) ∧
      t1.size ≤ (inserted pre).length ∧
      t1.produced = (inserted pre).length - t1.size := by
  obtain ⟨t1, rs1, rs2, h1, _, _⟩ := runCache_append fuel pre suf (empty k) t rs hrun
  have hfresh1 : (inserted pre).Nodup := by
    rw [inserted_append] at hfresh
    exact (List.nodup_append.mp hfresh).1
  obtain ⟨m, hinv, _⟩ := runCache_empty_inv hfresh1 h1
  have := hinv.count
  exact ⟨t1, rs1, h1, by omega, by omega⟩

theorem conservation_witness :
    ∃ t1 rs1, runCache 5 (empty 2)
        [.callLinkAtHead 1, .callLinkAtHead 2, .callLinkAtHead 3, .callLinkAtHead 4,
          .callMarkAccessed 1, .callGetEvictionCandidate] = .ok (t1, rs1) ∧
      t1.size ≤ 4 ∧ t1.produced = 4 - t1.size ∧ t1.produced = 2 := by
  obtain ⟨t1, rs1, h1, h2, h3⟩ := conservation 5 2
    [.callLinkAtHead 1, .callLinkAtHead 2, .callLinkAtHead 3, .callLinkAtHead 4,
      .callMarkAccessed 1, .callGetEvictionCandidate]
    [.callLinkAtHead 5, .callGetEvictionCandidate]
    _ _ (by decide) rfl
  have e : runCache 5 (empty 2)
        [.callLinkAtHead 1, .callLinkAtHead 2, .callLinkAtHead 3, .callLinkAtHead 4,
          .callMarkAccessed 1, .callGetEvictionCandidate] = .ok (_, _) := rfl
  rw [e] at h1
  simp only [Except.ok.injEq, Prod.mk.injEq] at h1
  obtain ⟨rfl, rfl⟩ := h1
  exact ⟨_, _, rfl, h2, h3, rfl⟩

/-- C9 (as the code has it): on a well-formed list that holds exactly one
node `a` whose accessed flag is clear, with an empty eviction buffer and a
target fill of at least 1, `get_eviction_candidate` runs a sweep that selects
`a` and aborts in `unlink`, at the guard for a tail that has no `prev`: the
call returns no candidate and the list is not emptied. -/
theorem single_node_sweep_aborts (s : State) (a fuel : Nat) (hwf : WellFormed s)
    (hq : s.locked = false) (hl : forward s = [a]) (hacc : s.accessed a = false)
    (hbuf : ∀ i, s.buf i = none) (hidx : s.nEvictionCandidates ≤ s.bufIdx)
    (hk : 1 ≤ s.nCandidate) :
    getEvictionCandidate (fuel + 1) s = .error .tailUnlink := by
  have hr := rep_of_wellFormed hwf
  rw [hl] at hr
  have hhead : s.head = some a := hr.head
  have htail : s.tail = some a := hr.tail
  have hsize : s.size = 1 := hr.size
  have hprev : s.prev a = none := hr.seg.1
  have hcurr : s.curr = some a ∨ s.curr = none := by
    cases hc : s.curr with
    | none => exact Or.inr rfl
    | some c =>
      have := hwf.hand c hc
      rw [hl] at this
      simp only [List.mem_singleton] at this
      exact Or.inl (by rw [this])
  have hu : ∀ t : State, t.locked = true → t.tail = some a → t.prev a = none →
      unlink t a = .error .tailUnlink :=
    fun t h1 h2 h3 => unlink_abort t a h1 h2.symm h3
  have hidx2 : ¬ (s.bufIdx + 1 < s.nEvictionCandidates) := by omega
  have hk2 : 0 < s.nCandidate := hk
  unfold getEvictionCandidate
  rw [claimLoop]
  simp only [ge_iff_le, hidx, if_true, hsize, Nat.one_ne_zero, if_false]
  unfold prepareEvictionCandidates
  simp only [lock, hq, Bool.false_eq_true, if_false, hidx2]
  rw [sweepLoop]
  simp only [hk2, if_true, hhead]
  rcases hcurr with hc | hc
  · simp [hc, hhead, htail, isAccessed, hacc, hbuf, hu, hprev, getPrev]
  · simp [hc, hhead, htail, isAccessed, hacc, hbuf, hu, hprev, getPrev]

theorem single_node_sweep_aborts_witness :
    getEvictionCandidate 1 (linkAtHead (empty 3) 7) = .error .tailUnlink :=
  single_node_sweep_aborts (linkAtHead (empty 3) 7) 7 0
    (wellFormed_linkAtHead (wellFormed_empty 3) (by decide)) rfl rfl rfl (fun _ => rfl)
    (by decide) (by decide)

/-- C9, as stated, fails: after inserting the single node `1` into the empty
list with target fill 1, `get_eviction_candidate` does not return `1`: the
sweep aborts in `unlink`. -/
theorem single_insert_sweep_aborts :
    forward (linkAtHead (empty 1) 1) = [1] ∧
    (linkAtHead (empty 1) 1).accessed 1 = false ∧
    (linkAtHead (empty 1) 1).nCandidate = 1 ∧
    getEvictionCandidate 10 (linkAtHead (empty 1) 1) = .error .tailUnlink :=
  ⟨rfl, rfl, rfl, rfl⟩

/-- C10: second chance.  After inserting `a`, `b`, `c` in that order into
the empty list with target fill 1 (head `c`, tail `a`, hand `a`) and marking
only `a` accessed, `get_eviction_candidate` returns `b`; afterwards the
forward traversal is `[c, a]`, `size` is 2, the flag of `a` is clear and both
links of `b` are absent. -/
theorem second_chance (a b c fuel : Nat) (hab : a ≠ b) (hac : a ≠ c) (hbc : b ≠ c) :
    (markAccessed (linkAtHead (linkAtHead (linkAtHead (empty 1) a) b) c) a).head = some c ∧
    (markAccessed (linkAtHead (linkAtHead (linkAtHead (empty 1) a) b) c) a).tail = some a ∧
    (markAccessed (linkAtHead (linkAtHead (linkAtHead (empty 1) a) b) c) a).curr = some a ∧
    ∃ t, getEvictionCandidate (fuel + 3)
        (markAccessed (linkAtHead (linkAtHead (linkAtHead (empty 1) a) b) c) a) =
          .ok (t, some b) ∧
      forward t = [c, a] ∧ t.size = 2 ∧ t.accessed a = false ∧
      t.prev b = none ∧ t.next b = none := by
  have hba := hab.symm
  have hca := hac.symm
  have hcb := hbc.symm
  refine ⟨?_, ?_, ?_, ?_⟩
  · simp [markAccessed, linkAtHead, empty, setPrev, setNext]
  · simp [markAccessed, linkAtHead, empty, setPrev, setNext]
  · simp [markAccessed, linkAtHead, empty, setPrev, setNext]
  · simp [getEvictionCandidate, claimLoop, prepareEvictionCandidates, sweepLoop, lock, unlock,
      unlink, markAccessed, unmarkAccessed, isAccessed, linkAtHead, empty, setPrev, setNext,
      setNextFrom, setPrevFrom, getPrev, getNext, forward, walk, hab, hac, hbc, hba, hca, hcb]

theorem second_chance_witness :
    ∃ t, getEvictionCandidate 3 (markAccessed
        (linkAtHead (linkAtHead (linkAtHead (empty 1) 1) 2) 3) 1) = .ok (t, some 2) ∧
      forward t = [3, 1] ∧ t.size = 2 ∧ t.accessed 1 = false ∧
      t.prev 2 = none ∧ t.next 2 = none :=
  (second_chance 1 2 3 0 (by decide) (by decide) (by decide)).2.2.2

/-- `sweepIter` is the body of `sweepLoop`. -/
theorem sweepLoop_succ (fuel : Nat) (s : State) (hws : Option Nat) (nCand idx nIters : Nat)
    (curr : Option Nat) :
    sweepLoop (fuel + 1) s hws nCand idx nIters curr =
      if idx < nCand then
        match sweepIter s hws idx nIters curr with
        | .error e => .error e
        | .ok (s1, idx1, nIters1, curr1) => sweepLoop fuel s1 hws nCand idx1 nIters1 curr1
      else .ok (s, curr) := by
  rw [sweepLoop]
  unfold sweepIter
  split
  · split
    · rfl
    · simp only
      split
      · rfl
      · split
        · rfl
        · split
          · rfl
          · split <;> rfl
  · rfl

/-- `sweepTrace` computes what `sweepLoop` computes. -/
theorem sweepLoop_eq_trace (fuel : Nat) :
    ∀ (s : State) (hws : Option Nat) (nCand idx nIters : Nat) (curr : Option Nat),
      sweepLoop fuel s hws nCand idx nIters curr =
        match sweepTrace fuel s hws nCand idx nIters curr with
        | .error e => .error e
        | .ok (t, cf, _, _) => .ok (t, cf) := by
  induction fuel with
  | zero => intro s hws nCand idx nIters curr; rfl
  | succ f ih =>
    intro s hws nCand idx nIters curr
    rw [sweepLoop_succ, sweepTrace]
    split
    · cases hit : sweepIter s hws idx nIters curr with
      | error e => rfl
      | ok r =>
        obtain ⟨s1, idx1, n1, c1⟩ := r
        simp only
        rw [ih]
        cases sweepTrace f s1 hws nCand idx1 n1 c1 with
        | error e => rfl
        | ok r2 => rfl
    · rfl

/-- C12: in every state with `size = 0` in which the buffer claim fails
(`buf_idx >= n_candidates`), `get_eviction_candidate` returns absent without
aborting and without a sweep: the only change is the increment of `buf_idx`
by the claim itself, so head, tail, hand, size, the links, the flags and
every buffer slot are unchanged.  This covers the freshly constructed list,
on which `begin() == end()`. -/
theorem empty_list_request (s : State) (fuel : Nat) (hsize : s.size = 0)
    (hidx : s.nEvictionCandidates ≤ s.bufIdx) :
    ∃ t, getEvictionCandidate (fuel + 1) s = .ok (t, none) ∧
      t = { s with bufIdx := s.bufIdx + 1 } ∧
      t.head = s.head ∧ t.tail = s.tail ∧ t.curr = s.curr ∧ t.size = s.size ∧
      (∀ i, t.buf i = s.buf i) ∧ t.produced = s.produced ∧
      t.nEvictionCandidates = s.nEvictionCandidates ∧
      (∀ k f, getEvictionCandidate (f + 1) (empty k) =
        .ok ({ empty k with bufIdx := 1 }, none)) ∧
      (∀ k, begin (empty k) = end_ (empty k)) := by
  refine ⟨{ s with bufIdx := s.bufIdx + 1 }, ?_, rfl, rfl, rfl, rfl, rfl, fun _ => rfl, rfl, rfl,
    ?_, fun _ => rfl⟩
  · unfold getEvictionCandidate
    rw [claimLoop]
    simp only [ge_iff_le, hidx, if_true, hsize]
  · intro k f
    rfl

theorem empty_list_request_witness :
    ∃ t, getEvictionCandidate 1 (empty 3) = .ok (t, none) ∧ t.size = 0 ∧ t.head = none :=
  (empty_list_request (empty 3) 0 rfl (Nat.le_refl 0)).imp
    (fun _ h => ⟨h.1, h.2.2.2.2.2.1, h.2.2.1⟩)

theorem rep_tail_next {s : State} {l : List Nat} (h : Rep s l) {c : Nat}
    (hc : s.tail = some c) : s.next c = none := by
  obtain ⟨l1, l2, rfl, -, hc2, -, -, -, -, hn, -, -⟩ := rep_split h (rep_tail_mem h hc)
  have htail := h.tail
  rw [getLast?_append_cons, hc] at htail
  cases l2 with
  | nil => exact hn
  | cons b u =>
    rw [lastOr_cons_ne] at htail
    exact absurd (List.mem_of_getLast?_eq_some htail.symm) hc2

/-- A node outside the list is neither head nor tail, so `remove` does not
abort on it. -/
theorem remove_total {s : State} (hwf : WellFormed s) (hq : s.locked = false) (n : Nat) :
    ∃ t, remove s n = .ok t ∧ t.prev n = none ∧ t.next n = none := by
  have hr := rep_of_wellFormed hwf
  by_cases hlink : s.prev n = none ∧ s.next n = none
  · exact ⟨s, remove_noop s n hlink.1 hlink.2, hlink.1, hlink.2⟩
  · have ht : ¬ (some n = s.tail ∧ s.prev n = none) := by
      by_cases hn : n ∈ forward s
      · exact fun h => hlink ⟨h.2, rep_tail_next hr h.1.symm⟩
      · exact fun h => hn (rep_tail_mem hr h.1.symm)
    refine ⟨_, remove_eq s n hq hlink ht, ?_, ?_⟩
    · show (if n = n then none else _) = none
      rw [if_pos rfl]
    · show (if n = n then none else _) = none
      rw [if_pos rfl]

/-- C13: `remove` is idempotent.  On a well-formed list, `remove` of a node
with both links absent (a node that is not linked; also the only node of
the list) leaves the whole state unchanged; and for every node `n`,
`remove(n)` completes, and a second `remove(n)` leaves the state the first
one produced unchanged. -/
theorem remove_idempotent (s : State) (n : Nat) (hwf : WellFormed s)
    (hq : s.locked = false) :
    (s.prev n = none → s.next n = none → remove s n = .ok s) ∧
    ∃ t, remove s n = .ok t ∧ remove t n = .ok t := by
  refine ⟨remove_noop s n, ?_⟩
  obtain ⟨t, h1, h2, h3⟩ := remove_total hwf hq n
  exact ⟨t, h1, remove_noop t n h2 h3⟩

theorem remove_idempotent_witness :
    ∃ t, remove (linkAtHead (linkAtHead (empty 1) 1) 2) 1 = .ok t ∧ remove t 1 = .ok t :=
  (remove_idempotent (linkAtHead (linkAtHead (empty 1) 1) 2) 1
    (wellFormed_linkAtHead (wellFormed_linkAtHead (wellFormed_empty 1) (by decide))
      (by decide)) rfl).2

/-- C20: on a well-formed list with `size = 1` and `head = tail = n`, both
links of `n` are absent, so `remove(n)` returns through the fast path,
before the lock and `unlink`: the state is unchanged, `n` is still head and
tail and `size` is still 1. -/
theorem remove_sole_noop (s : State) (n : Nat) (hwf : WellFormed s) (_hsize : s.size = 1)
    (hh : s.head = some n) (ht : s.tail = some n) :
    s.prev n = none ∧ s.next n = none ∧ remove s n = .ok s := by
  have hr := rep_of_wellFormed hwf
  have hp : s.prev n = none := hwf.headPrev n hh
  have hn : s.next n = none := rep_tail_next hr ht
  exact ⟨hp, hn, remove_noop s n hp hn⟩

theorem remove_sole_noop_witness :
    remove (linkAtHead (empty 1) 7) 7 = .ok (linkAtHead (empty 1) 7) :=
  (remove_sole_noop (linkAtHead (empty 1) 7) 7
    (wellFormed_linkAtHead (wellFormed_empty 1) (by decide)) rfl rfl rfl).2.2

/-- C15 (as the code has it): on a well-formed list, `operator++` moves an
iterator positioned on a linked node to the node's `next` (`FROM_HEAD`) or
to the node's `prev` (`FROM_TAIL`), and `operator--` does the opposite.
When the first step lands on a node, the opposite step returns the iterator
to the node it started from.  When the first step leaves the list (the
iterator reaches the end, an absent position), the opposite step is a no-op
and the iterator stays at the end. -/
theorem iterator_inc_dec (s : State) (n : Nat) (d : Direction) (hwf : WellFormed s)
    (hn : n ∈ forward s) :
    (Iterator.inc s ⟨some n, .FROM_HEAD⟩ = ⟨s.next n, .FROM_HEAD⟩) ∧
    (Iterator.inc s ⟨some n, .FROM_TAIL⟩ = ⟨s.prev n, .FROM_TAIL⟩) ∧
    (Iterator.dec s ⟨some n, .FROM_HEAD⟩ = ⟨s.prev n, .FROM_HEAD⟩) ∧
    (Iterator.dec s ⟨some n, .FROM_TAIL⟩ = ⟨s.next n, .FROM_TAIL⟩) ∧
    ((Iterator.inc s ⟨some n, d⟩).curr ≠ none →
      Iterator.dec s (Iterator.inc s ⟨some n, d⟩) = ⟨some n, d⟩) ∧
    ((Iterator.dec s ⟨some n, d⟩).curr ≠ none →
      Iterator.inc s (Iterator.dec s ⟨some n, d⟩) = ⟨some n, d⟩) ∧
    ((Iterator.inc s ⟨some n, d⟩).curr = none →
      Iterator.dec s (Iterator.inc s ⟨some n, d⟩) = ⟨none, d⟩) ∧
    ((Iterator.dec s ⟨some n, d⟩).curr = none →
      Iterator.inc s (Iterator.dec s ⟨some n, d⟩) = ⟨none, d⟩) := by
  have h3 := hwf.inv.2.2 n hn
  have hnp : ∀ q, s.next n = some q → s.prev q = some n := h3.2
  have hpn : ∀ p, s.prev n = some p → s.next p = some n := h3.1
  refine ⟨rfl, rfl, rfl, rfl, ?_, ?_, ?_, ?_⟩
  · cases d
    · cases hx : s.next n with
      | none => simp [Iterator.inc, Iterator.goForward, getNext, hx]
      | some q =>
        simp [Iterator.inc, Iterator.dec, Iterator.goForward, Iterator.goBackward, getNext,
          getPrev, hx, hnp q hx]
    · cases hx : s.prev n with
      | none => simp [Iterator.inc, Iterator.goForward, getPrev, hx]
      | some p =>
        simp [Iterator.inc, Iterator.dec, Iterator.goForward, Iterator.goBackward, getNext,
          getPrev, hx, hpn p hx]
  · cases d
    · cases hx : s.prev n with
      | none => simp [Iterator.dec, Iterator.goBackward, getPrev, hx]
      | some p =>
        simp [Iterator.inc, Iterator.dec, Iterator.goForward, Iterator.goBackward, getNext,
          getPrev, hx, hpn p hx]
    · cases hx : s.next n with
      | none => simp [Iterator.dec, Iterator.goBackward, getNext, hx]
      | some q =>
        simp [Iterator.inc, Iterator.dec, Iterator.goForward, Iterator.goBackward, getNext,
          getPrev, hx, hnp q hx]
  · cases d
    · cases hx : s.next n with
      | none => simp [Iterator.inc, Iterator.dec, Iterator.goForward, getNext, hx]
      | some q => simp [Iterator.inc, Iterator.goForward, getNext, hx]
    · cases hx : s.prev n with
      | none => simp [Iterator.inc, Iterator.dec, Iterator.goForward, getPrev, hx]
      | some q => simp [Iterator.inc, Iterator.goForward, getPrev, hx]
  · cases d
    · cases hx : s.prev n with
      | none => simp [Iterator.inc, Iterator.dec, Iterator.goBackward, getPrev, hx]
      | some q => simp [Iterator.dec, Iterator.goBackward, getPrev, hx]
    · cases hx : s.next n with
      | none => simp [Iterator.inc, Iterator.dec, Iterator.goBackward, getNext, hx]
      | some q => simp [Iterator.dec, Iterator.goBackward, getNext, hx]

theorem iterator_inc_dec_witness :
    Iterator.dec (linkAtHead (linkAtHead (empty 1) 1) 2)
      (Iterator.inc (linkAtHead (linkAtHead (empty 1) 1) 2) ⟨some 2, .FROM_HEAD⟩) =
        ⟨some 2, .FROM_HEAD⟩ :=
  (iterator_inc_dec (linkAtHead (linkAtHead (empty 1) 1) 2) 2 .FROM_HEAD
    (wellFormed_linkAtHead (wellFormed_linkAtHead (wellFormed_empty 1) (by decide))
      (by decide)) (by decide)).2.2.2.2.1 (by decide)

/-- C15, as stated, fails: on the well-formed list `[2, 1]`, a `FROM_HEAD`
iterator on the linked node `1` (the tail) is moved to the end by
`operator++`, and `operator--` leaves it there: it does not return to `1`.
Likewise `operator--` then `operator++` from the head `2`. -/
theorem iterator_end_not_inverted :
    WellFormed (linkAtHead (linkAtHead (empty 1) 1) 2) ∧
    1 ∈ forward (linkAtHead (linkAtHead (empty 1) 1) 2) ∧
    Iterator.dec (linkAtHead (linkAtHead (empty 1) 1) 2)
      (Iterator.inc (linkAtHead (linkAtHead (empty 1) 1) 2) ⟨some 1, .FROM_HEAD⟩) =
        ⟨none, .FROM_HEAD⟩ ∧
    Iterator.inc (linkAtHead (linkAtHead (empty 1) 1) 2)
      (Iterator.dec (linkAtHead (linkAtHead (empty 1) 1) 2) ⟨some 2, .FROM_HEAD⟩) =
        ⟨none, .FROM_HEAD⟩ :=
  ⟨wellFormed_linkAtHead (wellFormed_linkAtHead (wellFormed_empty 1) (by decide)) (by decide),
    by decide, by decide, by decide⟩

/-- C17 (as the code has it): an iteration of the sweep loop that examines a
node `c` whose accessed flag is set does not detach it.  The only change to
the state is that the flag of `c` is cleared: head, tail, hand, size, every
link, every other flag and every buffer slot are unchanged, and so is
`idx`.  The cursor moves to `c.prev`, or to the tail when `c.prev` is absent
(the last lines of the loop body). -/
theorem second_chance_step (s : State) (hws : Option Nat) (idx nIters : Nat)
    (curr : Option Nat) (c : Nat)
    (hturn : ¬ ((curr = hws ∨ curr = none) ∧ nIters > 2))
    (hex : examined s hws curr = some c) (hacc : s.accessed c = true) :
    ∃ t nIters1 curr1, sweepIter s hws idx nIters curr = .ok (t, idx, nIters1, curr1) ∧
      curr1 = (if s.prev c = none then s.tail else s.prev c) ∧
      nIters1 = (if curr = hws ∨ curr = none then nIters + 1 else nIters) ∧
      t.accessed c = false ∧ (∀ x, x ≠ c → t.accessed x = s.accessed x) ∧
      t.head = s.head ∧ t.tail = s.tail ∧ t.curr = s.curr ∧ t.size = s.size ∧
      (∀ x, t.prev x = s.prev x) ∧ (∀ x, t.next x = s.next x) ∧
      (∀ i, t.buf i = s.buf i) := by
  refine ⟨unmarkAccessed s c, _, _, ?_, rfl, rfl, ?_, ?_, rfl, rfl, rfl, rfl, fun _ => rfl,
    fun _ => rfl, fun _ => rfl⟩
  · unfold examined at hex
    unfold sweepIter
    rw [if_neg hturn]
    by_cases ht : curr = hws ∨ curr = none
    · rw [if_pos ht] at hex
      simp only [ht, decide_True, if_true, hex, isAccessed, hacc, getPrev, unmarkAccessed]
    · rw [if_neg ht] at hex
      subst hex
      simp only [ht, decide_False, Bool.false_eq_true, if_false, if_true, isAccessed, hacc,
        getPrev, unmarkAccessed]
  · show (if c = c then false else s.accessed c) = false
    rw [if_pos rfl]
  · intro x hx
    show (if x = c then false else s.accessed x) = s.accessed x
    rw [if_neg hx]

theorem second_chance_step_witness :
    ∃ t nIters1 curr1,
      sweepIter (markAccessed (linkAtHead (linkAtHead (linkAtHead (empty 1) 1) 2) 3) 1)
        (some 3) 0 0 (some 1) = .ok (t, 0, nIters1, curr1) ∧ curr1 = some 2 ∧ nIters1 = 0 ∧
      t.accessed 1 = false :=
  (second_chance_step (markAccessed (linkAtHead (linkAtHead (linkAtHead (empty 1) 1) 2) 3) 1)
    (some 3) 0 0 (some 1) 1 (by decide) rfl rfl).imp
    (fun _ h => h.imp (fun _ h => h.imp (fun _ h => ⟨h.1, h.2.1, h.2.2.1, h.2.2.2.1⟩)))

/-- C17, as stated, fails: on the one-node list `[1]` with the flag of `1`
set, the first iteration of the sweep (hand and head both `1`) examines `1`
and clears its flag, but the cursor does not move to `1.prev`, which is
absent: it is reset to the tail, the node `1` itself. -/
theorem second_chance_cursor_to_tail :
    (markAccessed (linkAtHead (empty 1) 1) 1).accessed 1 = true ∧
    (markAccessed (linkAtHead (empty 1) 1) 1).head = some 1 ∧
    (markAccessed (linkAtHead (empty 1) 1) 1).curr = some 1 ∧
    examined (markAccessed (linkAtHead (empty 1) 1) 1) (some 1) (some 1) = some 1 ∧
    (markAccessed (linkAtHead (empty 1) 1) 1).prev 1 = none ∧
    ∃ t, sweepIter (markAccessed (linkAtHead (empty 1) 1) 1) (some 1) 0 0 (some 1) =
      .ok (t, 0, 1, some 1) :=
  ⟨rfl, rfl, rfl, rfl, rfl, _, rfl⟩

theorem sweepIter_accessed (s : State) (hws : Option Nat) (idx nIters : Nat)
    (curr : Option Nat) (c : Nat)
    (hturn : ¬ ((curr = hws ∨ curr = none) ∧ nIters > 2))
    (hex : examined s hws curr = some c) (hacc : s.accessed c = true) :
    sweepIter s hws idx nIters curr =
      .ok (unmarkAccessed s c, idx, (if curr = hws ∨ curr = none then nIters + 1 else nIters),
        (if s.prev c = none then s.tail else s.prev c)) := by
  unfold examined at hex
  unfold sweepIter
  rw [if_neg hturn]
  by_cases ht : curr = hws ∨ curr = none
  · rw [if_pos ht] at hex
    simp only [ht, decide_True, if_true, hex, isAccessed, hacc, getPrev, unmarkAccessed]
  · rw [if_neg ht] at hex
    subst hex
    simp only [ht, decide_False, Bool.false_eq_true, if_false, if_true, isAccessed, hacc,
      getPrev, unmarkAccessed]

theorem sweepIter_spin (s : State) (hws : Option Nat) (idx nIters : Nat)
    (curr : Option Nat) (c : Nat)
    (hturn : ¬ ((curr = hws ∨ curr = none) ∧ nIters > 2))
    (hex : examined s hws curr = some c) (hacc : s.accessed c = false)
    (hbuf : s.buf idx ≠ none) :
    sweepIter s hws idx nIters curr = .error .spin := by
  unfold examined at hex
  unfold sweepIter
  rw [if_neg hturn]
  by_cases ht : curr = hws ∨ curr = none
  · rw [if_pos ht] at hex
    simp only [ht, decide_True, if_true, hex, isAccessed, hacc, Bool.false_eq_true, if_false,
      hbuf, ne_eq, not_false_eq_true]
  · rw [if_neg ht] at hex
    subst hex
    simp only [ht, decide_False, Bool.false_eq_true, if_false, if_true, isAccessed, hacc,
      hbuf, ne_eq, not_false_eq_true]

theorem sweepIter_evict (s : State) (hws : Option Nat) (idx nIters : Nat)
    (curr : Option Nat) (c : Nat)
    (hturn : ¬ ((curr = hws ∨ curr = none) ∧ nIters > 2))
    (hex : examined s hws curr = some c) (hacc : s.accessed c = false)
    (hbuf : s.buf idx = none) (hl : s.locked = true)
    (ht : ¬ (some c = s.tail ∧ s.prev c = none)) :
    sweepIter s hws idx nIters curr =
      .ok (clearLinks (unlinked { s with
          buf := fun i => if i = idx then some c else s.buf i,
          produced := s.produced + 1 } c) c, idx + 1,
        (if curr = hws ∨ curr = none then nIters + 1 else nIters),
        (if s.prev c = none then (if some c = s.tail then s.prev c else s.tail)
          else s.prev c)) := by
  obtain ⟨hd, tl, cu, sz, pv, nx, ac, lk, bf, bi, ne, nc, pr⟩ := s
  simp only at hacc hbuf hl ht
  subst hl
  unfold examined at hex
  simp only at hex
  by_cases htn : curr = hws ∨ curr = none
  · rw [if_pos htn] at hex
    subst hex
    have hu := unlink_eq ⟨hd, some c, cu, sz, pv, nx, ac, true,
      fun i => if i = idx then some c else bf i, bi, ne, nc, pr + 1⟩ c rfl ht
    have hn2 : ¬ (nIters > 2) := fun h => hturn ⟨htn, h⟩
    simp only [sweepIter, htn, true_and, hn2, if_false, decide_True, if_true, isAccessed, hacc,
      Bool.false_eq_true, hbuf, ne_eq, not_true_eq_false, hu, getPrev]
    simp [clearLinks, unlinked, setPrev, setNext]
  · rw [if_neg htn] at hex
    subst hex
    have hu := unlink_eq ⟨hd, tl, cu, sz, pv, nx, ac, true,
      fun i => if i = idx then some c else bf i, bi, ne, nc, pr + 1⟩ c rfl ht
    simp only [sweepIter, htn, false_and, if_false, decide_False, if_true, isAccessed, hacc,
      Bool.false_eq_true, hbuf, ne_eq, not_true_eq_false, hu, getPrev]
    simp [clearLinks, unlinked, setPrev, setNext]

theorem lastOr_snoc (B : List Nat) (c : Nat) (p : Option Nat) :
    lastOr (B ++ [c]) p = some c := by
  rw [lastOr_append]; rfl

theorem lastOr_ne_none (B : List Nat) (h : Nat) : lastOr B (some h) ≠ none := by
  induction B generalizing h with
  | nil => simp [lastOr]
  | cons a t ih => exact ih a

theorem lastOr_mem (B : List Nat) (h x : Nat) (hx : lastOr B (some h) = some x) :
    x ∈ h :: B := by
  rcases lastOr_eq_some_mem hx with h1 | h1
  · exact List.mem_cons_of_mem _ h1
  · cases h1; exact List.mem_cons_self _ _

theorem exists_snoc_of_ne_nil {l : List Nat} (hl : l ≠ []) : ∃ B c, l = B ++ [c] :=
  ⟨l.dropLast, l.getLast hl, (List.dropLast_append_getLast hl).symm⟩

theorem sweepInv_list_nodup {s0 s : State} {h : Nat} {Bf Af : List Nat} {k n : Nat}
    {curr : Option Nat} {tr ev : List Nat} (hinv : SweepInv s0 s h Bf Af k n curr tr ev) :
    (h :: (Bf ++ Af)).Nodup := hinv.rep.nodup

/-- The start of an iteration: the turn-around, if any, and the node the
iteration examines. -/
theorem sweep_turn {s0 s : State} {h : Nat} {Bf Af : List Nat} {k n : Nat}
    {curr : Option Nat} {tr ev : List Nat} (hinv : SweepInv s0 s h Bf Af k n curr tr ev)
    (hlt : ev.length < k) :
    ∃ B c Af1 n1, examined s (some h) curr = some c ∧
      ¬ ((curr = some h ∨ curr = none) ∧ n > 2) ∧
      n1 = (if curr = some h ∨ curr = none then n + 1 else n) ∧
      SweepInv s0 s h (B ++ [c]) Af1 k n1 (some c) tr ev ∧
      sweepMeasure (B ++ [c]) Af1 n1 ≤ sweepMeasure Bf Af n := by
  have hnle := hinv.nle
  have hturn : ¬ ((curr = some h ∨ curr = none) ∧ n > 2) := fun hc => by omega
  rcases List.eq_nil_or_concat Bf with hB | ⟨B, c, hB⟩
  · subst hB
    have hcur : curr = some h ∨ curr = none := by
      rcases hinv.cur with hc | hc
      · exact Or.inl hc
      · exact Or.inr hc.1
    have hn1 : n ≤ 1 := by
      by_contra hc
      have h2 : 2 ≤ n := by omega
      have := (hinv.phase2 h2).2
      have hcnt := hinv.cnt
      rw [this] at hcnt
      simp at hcnt
      omega
    have hAf : Af ≠ [] := by
      intro hc
      have hcnt := hinv.cnt
      rw [hc] at hcnt
      simp at hcnt
      omega
    obtain ⟨B, c, hA⟩ := exists_snoc_of_ne_nil hAf
    subst hA
    refine ⟨B, c, [], n + 1, ?_, hturn, by rw [if_pos hcur], ?_, ?_⟩
    · unfold examined
      rw [if_pos hcur, hinv.rep.tail, ← lastOr_none]
      show lastOr ([] ++ (B ++ [c])) (some h) = some c
      rw [List.nil_append, lastOr_snoc]
    · exact
        { rep := by simpa using hinv.rep
          locked := hinv.locked
          cur := Or.inl (lastOr_snoc B c (some h)).symm
          cnt := by have := hinv.cnt; simpa using this
          evk := hinv.evk
          nle := by omega
          phase1 := fun _ x hx => by cases hx
          phase2 := fun h2 => ⟨hinv.phase1 (by omega), rfl⟩
          once := by simpa using hinv.once
          twice := hinv.twice
          headNot := hinv.headNot
          flags := hinv.flags
          bufEq := hinv.bufEq
          list := by simpa using hinv.list
          evNodup := hinv.evNodup
          evMem := hinv.evMem
          size := hinv.size
          produced := hinv.produced
          bufIdx := hinv.bufIdx
          nEvictionCandidates := hinv.nEvictionCandidates
          nCandidate := hinv.nCandidate }
    · unfold sweepMeasure
      simp only [List.length_nil, Nat.add_zero, Nat.zero_add]
      interval_cases n <;> omega
  · subst hB
    have hcur : curr = some c := by
      rcases hinv.cur with hc | hc
      · rw [hc]
        simp only [List.concat_eq_append]
        exact lastOr_snoc B c (some h)
      · exact absurd hc.2 (by simp)
    have hch : c ≠ h := by
      have hnd := hinv.rep.nodup
      intro e
      subst e
      simp at hnd
    have hno : ¬ (curr = some h ∨ curr = none) := by
      rw [hcur]
      rintro (e | e)
      · cases e; exact hch rfl
      · cases e
    refine ⟨B, c, Af, n, ?_, hturn, by rw [if_neg hno], ?_, ?_⟩
    · unfold examined
      rw [if_neg hno, hcur]
    · rw [hcur] at hinv
      simpa using hinv
    · simp

/-- Facts about the node under the cursor. -/
theorem sweep_cursor_facts {s0 s : State} {h : Nat} {B Af : List Nat} {c k n : Nat}
    {curr : Option Nat} {tr ev : List Nat}
    (hinv : SweepInv s0 s h (B ++ [c]) Af k n curr tr ev) :
    c ≠ h ∧ c ∉ B ∧ c ∉ Af ∧ c ∈ h :: ((B ++ [c]) ++ Af) ∧
      s.prev c = lastOr B (some h) ∧ c ∉ ev ∧
      (h :: ((B ++ [c]) ++ Af)).erase c = h :: (B ++ Af) := by
  have hnd := hinv.rep.nodup
  have hl : h :: ((B ++ [c]) ++ Af) = (h :: B) ++ c :: Af := by simp
  rw [hl] at hnd
  have hnd2 := List.nodup_append.mp hnd
  have hc1 : c ∉ h :: B := fun hx => hnd2.2.2 hx (List.mem_cons_self _ _)
  have hch : c ≠ h := fun e => hc1 (e ▸ List.mem_cons_self _ _)
  have hcB : c ∉ B := fun hx => hc1 (List.mem_cons_of_mem _ hx)
  have hcA : c ∉ Af := (List.nodup_cons.mp hnd2.2.1).1
  have hmem : c ∈ h :: ((B ++ [c]) ++ Af) := by simp
  have hseg := hinv.rep.seg
  rw [hl] at hseg
  have hp := ((seg_append s.prev s.next (h :: B) (c :: Af) none none).mp hseg).2.1
  have hev : c ∉ ev := by
    have := hinv.list ▸ hmem
    simpa using (List.mem_filter.mp this).2
  refine ⟨hch, hcB, hcA, hmem, hp, hev, ?_⟩
  rw [hl, List.erase_append_right _ hc1, List.erase_cons_head]
  rfl

theorem count_snoc_self (tr : List Nat) (c : Nat) :
    (tr ++ [c]).count c = tr.count c + 1 := by
  simp

theorem count_snoc_ne (tr : List Nat) {c x : Nat} (hx : x ≠ c) :
    (tr ++ [c]).count x = tr.count x := by
  rw [List.count_append, List.count_singleton]
  simp [Ne.symm hx]

/-- The iteration clears the flag of an accessed node and leaves it. -/
theorem sweep_accessed_inv {s0 s : State} {h : Nat} {B Af : List Nat} {c k n : Nat}
    {tr ev : List Nat} (hinv : SweepInv s0 s h (B ++ [c]) Af k n (some c) tr ev)
    (hacc : s.accessed c = true) :
    SweepInv s0 (unmarkAccessed s c) h B (c :: Af) k n (lastOr B (some h)) (tr ++ [c]) ev := by
  obtain ⟨hch, hcB, hcA, hmem, hp, hev, -⟩ := sweep_cursor_facts hinv
  have hl : h :: ((B ++ [c]) ++ Af) = h :: (B ++ c :: Af) := by simp
  have hc0 : tr.count c = 0 := by
    have := hinv.once c (by simp)
    rcases Nat.eq_zero_or_pos (tr.count c) with h0 | h1
    · exact h0
    · have h1 : tr.count c = 1 := by omega
      have := this.2 h1
      rw [hacc] at this
      cases this
  exact
    { rep := by
        have hr := hinv.rep
        rw [hl] at hr
        exact ⟨hr.nodup, hr.head, hr.tail, hr.size, hr.seg⟩
      locked := hinv.locked
      cur := Or.inl rfl
      cnt := by have := hinv.cnt; simp at this ⊢; omega
      evk := hinv.evk
      nle := hinv.nle
      phase1 := by
        intro h1 x hx
        rcases List.mem_cons.mp hx with e | hx
        · subst e
          rw [count_snoc_self, hc0]
        · have hxc : x ≠ c := ne_of_mem_of_not_mem hx hcA
          rw [count_snoc_ne tr hxc]
          exact hinv.phase1 h1 x hx
      phase2 := by
        intro h2
        have := (hinv.phase2 h2).1 c (by simp)
        omega
      once := by
        intro x hx
        by_cases hxc : x = c
        · subst hxc
          rw [count_snoc_self, hc0]
          refine ⟨Nat.le_refl _, fun _ => ?_⟩
          show (if x = x then false else s.accessed x) = false
          rw [if_pos rfl]
        · rw [count_snoc_ne tr hxc]
          have hx2 : x ∈ (B ++ [c]) ++ Af := by
            simp at hx ⊢
            tauto
          have := hinv.once x hx2
          refine ⟨this.1, fun h1 => ?_⟩
          show (if x = c then false else s.accessed x) = false
          rw [if_neg hxc]
          exact this.2 h1
      twice := by
        intro x
        by_cases hxc : x = c
        · subst hxc
          rw [count_snoc_self, hc0]
          omega
        · rw [count_snoc_ne tr hxc]
          exact hinv.twice x
      headNot := by
        rw [count_snoc_ne tr (Ne.symm hch)]
        exact hinv.headNot
      flags := by
        intro x hx
        by_cases hxc : x = c
        · subst hxc
          rw [count_snoc_self] at hx
          omega
        · rw [count_snoc_ne tr hxc] at hx
          show (if x = c then false else s.accessed x) = _
          rw [if_neg hxc]
          exact hinv.flags x hx
      bufEq := hinv.bufEq
      list := by rw [← hinv.list]; simp
      evNodup := hinv.evNodup
      evMem := hinv.evMem
      size := hinv.size
      produced := hinv.produced
      bufIdx := hinv.bufIdx
      nEvictionCandidates := hinv.nEvictionCandidates
      nCandidate := hinv.nCandidate }

theorem filter_notMem_snoc (l ev : List Nat) (c : Nat)
    (hnd : (l.filter (fun x => decide (x ∉ ev))).Nodup) :
    l.filter (fun x => decide (x ∉ ev ++ [c])) =
      (l.filter (fun x => decide (x ∉ ev))).erase c := by
  rw [List.Nodup.erase_eq_filter hnd, List.filter_filter]
  congr 1
  funext x
  by_cases h1 : x ∈ ev <;> by_cases h2 : x = c <;> simp [h1, h2]

theorem buf_snoc (b b0 : Nat → Option Nat) (ev : List Nat) (c : Nat)
    (hb : ∀ i, b i = if i < ev.length then ev[i]? else b0 i) (i : Nat) :
    (if i = ev.length then some c else b i) =
      if i < (ev ++ [c]).length then (ev ++ [c])[i]? else b0 i := by
  rw [hb i]
  simp only [List.length_append, List.length_singleton]
  by_cases h1 : i = ev.length
  · subst h1
    simp
  · by_cases h2 : i < ev.length
    · rw [if_neg h1, if_pos h2, if_pos (by omega), List.getElem?_append_left h2]
    · rw [if_neg h1, if_neg h2, if_neg (by omega)]

/-- The iteration detaches an unaccessed node into the next buffer slot. -/
theorem sweep_evict_inv {s0 s : State} {h : Nat} {B Af : List Nat} {c k n : Nat}
    {tr ev : List Nat} (hinv : SweepInv s0 s h (B ++ [c]) Af k n (some c) tr ev)
    (hlt : ev.length < k) :
    SweepInv s0 (clearLinks (unlinked { s with
        buf := fun i => if i = ev.length then some c else s.buf i,
        produced := s.produced + 1 } c) c) h B Af k n (lastOr B (some h)) (tr ++ [c])
      (ev ++ [c]) ∧
    ¬ (some c = s.tail ∧ s.prev c = none) := by
  obtain ⟨hch, hcB, hcA, hmem, hp, hev, herase⟩ := sweep_cursor_facts hinv
  have hr1 : Rep ({ s with
      buf := fun i => if i = ev.length then some c else s.buf i,
      produced := s.produced + 1 } : State) (h :: ((B ++ [c]) ++ Af)) :=
    ⟨hinv.rep.nodup, hinv.rep.head, hinv.rep.tail, hinv.rep.size, hinv.rep.seg⟩
  have hrep := rep_detach hr1 hmem
  rw [herase] at hrep
  have hpn : s.prev c ≠ none := by rw [hp]; exact lastOr_ne_none B h
  have hsz : 1 ≤ s.size := by
    rw [hinv.rep.size]; simp
  have hnd0 : ((forward s0).filter (fun x => decide (x ∉ ev))).Nodup := by
    rw [← hinv.list]; exact hinv.rep.nodup
  refine ⟨?_, fun hc => hpn hc.2⟩
  exact
    { rep := hrep
      locked := hinv.locked
      cur := Or.inl rfl
      cnt := by have := hinv.cnt; simp at this ⊢; omega
      evk := by simp; omega
      nle := hinv.nle
      phase1 := by
        intro h1 x hx
        rw [count_snoc_ne tr (ne_of_mem_of_not_mem hx hcA)]
        exact hinv.phase1 h1 x hx
      phase2 := by
        intro h2
        refine ⟨fun x hx => ?_, (hinv.phase2 h2).2⟩
        rw [count_snoc_ne tr (ne_of_mem_of_not_mem hx hcB)]
        exact (hinv.phase2 h2).1 x (by simp [hx])
      once := by
        intro x hx
        have hxc : x ≠ c := by
          rcases List.mem_append.mp hx with hx | hx
          · exact ne_of_mem_of_not_mem hx hcB
          · exact ne_of_mem_of_not_mem hx hcA
        rw [count_snoc_ne tr hxc]
        exact hinv.once x (by simp at hx ⊢; tauto)
      twice := by
        intro x
        by_cases hxc : x = c
        · subst hxc
          rw [count_snoc_self]
          have := (hinv.once x (by simp)).1
          omega
        · rw [count_snoc_ne tr hxc]
          exact hinv.twice x
      headNot := by
        rw [count_snoc_ne tr (Ne.symm hch)]
        exact hinv.headNot
      flags := by
        intro x hx
        by_cases hxc : x = c
        · subst hxc
          rw [count_snoc_self] at hx
          omega
        · rw [count_snoc_ne tr hxc] at hx
          exact hinv.flags x hx
      bufEq := buf_snoc s.buf s0.buf ev c hinv.bufEq
      list := by
        rw [filter_notMem_snoc _ ev c hnd0, ← hinv.list, herase]
      evNodup := by
        rw [List.nodup_append]
        refine ⟨hinv.evNodup, List.nodup_singleton c, ?_⟩
        intro a ha1 ha2
        simp only [List.mem_singleton] at ha2
        subst ha2
        exact hev ha1
      evMem := by
        intro x hx
        rcases List.mem_append.mp hx with hx | hx
        · obtain ⟨g1, g2, g3⟩ := hinv.evMem x hx
          have hxl : x ∉ h :: ((B ++ [c]) ++ Af) := by
            rw [hinv.list]
            intro hm
            have := (List.mem_filter.mp hm).2
            simp only [decide_eq_true_eq] at this
            exact this hx
          have hxc : x ≠ c := fun e => hev (e ▸ hx)
          refine ⟨g1, ?_, ?_⟩
          · show (if x = c then none else if some x = s.next c then s.prev c else s.prev x)
              = none
            rw [if_neg hxc, if_neg (fun e => hxl (rep_next_mem hinv.rep hmem e.symm))]
            exact g2
          · show (if x = c then none else if some x = s.prev c then s.next c else s.next x)
              = none
            rw [if_neg hxc, if_neg (fun e => hxl (rep_prev_mem hinv.rep hmem e.symm))]
            exact g3
        · simp only [List.mem_singleton] at hx
          subst hx
          refine ⟨?_, ?_, ?_⟩
          · have := hinv.list ▸ hmem
            exact (List.mem_filter.mp this).1
          · show (if x = x then none else _) = none
            rw [if_pos rfl]
          · show (if x = x then none else _) = none
            rw [if_pos rfl]
      size := by
        show s.size - 1 + (ev ++ [c]).length = s0.size
        have := hinv.size
        simp only [List.length_append, List.length_singleton]
        omega
      produced := by
        show s.produced + 1 = s0.produced + (ev ++ [c]).length
        have := hinv.produced
        simp only [List.length_append, List.length_singleton]
        omega
      bufIdx := hinv.bufIdx
      nEvictionCandidates := hinv.nEvictionCandidates
      nCandidate := hinv.nCandidate }

theorem sweepMeasure_drop (B Af : List Nat) (c n : Nat) :
    sweepMeasure B (c :: Af) n < sweepMeasure (B ++ [c]) Af n ∧
    sweepMeasure B Af n < sweepMeasure (B ++ [c]) Af n := by
  unfold sweepMeasure
  simp only [List.length_append, List.length_cons, List.length_nil, Nat.zero_add]
  have h1 : (2 - n) * (B.length + (Af.length + 1)) = (2 - n) * (B.length + 1 + Af.length) := by
    congr 1; omega
  have h2 : (2 - n) * (B.length + Af.length) ≤ (2 - n) * (B.length + 1 + Af.length) :=
    Nat.mul_le_mul_left _ (by omega)
  constructor
  · rw [h1]; omega
  · omega

/-- One iteration of the sweep under the invariant: it either waits for a
slot that is not empty, or it completes, keeps the invariant and makes the
measure smaller. -/
theorem sweep_step {s0 s : State} {h : Nat} {Bf Af : List Nat} {k n : Nat}
    {curr : Option Nat} {tr ev : List Nat} (hinv : SweepInv s0 s h Bf Af k n curr tr ev)
    (hlt : ev.length < k) :
    ∃ c, examined s (some h) curr = some c ∧
      ((s.buf ev.length ≠ none ∧
          sweepIter s (some h) ev.length n curr = .error .spin) ∨
        ∃ s1 n1 c1 Bf1 Af1 ev1,
          sweepIter s (some h) ev.length n curr = .ok (s1, ev1.length, n1, c1) ∧
          SweepInv s0 s1 h Bf1 Af1 k n1 c1 (tr ++ [c]) ev1 ∧
          sweepMeasure Bf1 Af1 n1 < sweepMeasure Bf Af n) := by
  obtain ⟨B, c, Af1, n1, hex, hturn, hn1, hinv1, hm⟩ := sweep_turn hinv hlt
  obtain ⟨hch, hcB, hcA, hmem, hp, hev, -⟩ := sweep_cursor_facts hinv1
  have hpn : s.prev c ≠ none := by rw [hp]; exact lastOr_ne_none B h
  have hmd := sweepMeasure_drop B Af1 c n1
  refine ⟨c, hex, ?_⟩
  cases hacc : s.accessed c with
  | true =>
    right
    refine ⟨unmarkAccessed s c, n1, lastOr B (some h), B, c :: Af1, ev, ?_,
      sweep_accessed_inv hinv1 hacc, by omega⟩
    rw [sweepIter_accessed s (some h) ev.length n curr c hturn hex hacc, if_neg hpn, hp, hn1]
  | false =>
    by_cases hb : s.buf ev.length = none
    · right
      obtain ⟨hinv2, ht⟩ := sweep_evict_inv hinv1 hlt
      refine ⟨_, n1, lastOr B (some h), B, Af1, ev ++ [c], ?_, hinv2, by omega⟩
      rw [sweepIter_evict s (some h) ev.length n curr c hturn hex hacc hb hinv.locked ht,
        if_neg hpn, hp, hn1]
      simp
    · left
      exact ⟨hb, sweepIter_spin s (some h) ev.length n curr c hturn hex hacc hb⟩

/-- Whatever the sweep returns satisfies the invariant with `k` nodes
detached. -/
theorem sweep_safe (s0 : State) (h k : Nat) (fuel : Nat) :
    ∀ (s : State) (Bf Af : List Nat) (n : Nat) (curr : Option Nat) (tr ev : List Nat)
      (t : State) (cf : Option Nat) (nf : Nat) (tr2 : List Nat),
      SweepInv s0 s h Bf Af k n curr tr ev →
      sweepTrace fuel s (some h) k ev.length n curr = .ok (t, cf, nf, tr2) →
      ∃ Bf2 Af2 ev2, SweepInv s0 t h Bf2 Af2 k nf cf (tr ++ tr2) ev2 ∧ ev2.length = k := by
  induction fuel with
  | zero =>
    intro s Bf Af n curr tr ev t cf nf tr2 _ hrun
    simp [sweepTrace] at hrun
  | succ f ih =>
    intro s Bf Af n curr tr ev t cf nf tr2 hinv hrun
    rw [sweepTrace] at hrun
    by_cases hlt : ev.length < k
    · rw [if_pos hlt] at hrun
      obtain ⟨c, hex, hstep⟩ := sweep_step hinv hlt
      rcases hstep with ⟨_, hspin⟩ | ⟨s1, n1, c1, Bf1, Af1, ev1, hit, hinv1, _⟩
      · rw [hspin] at hrun
        cases hrun
      · rw [hit] at hrun
        simp only at hrun
        cases hrec : sweepTrace f s1 (some h) k ev1.length n1 c1 with
        | error e =>
          rw [hrec] at hrun
          cases hrun
        | ok r =>
          obtain ⟨t1, cf1, nf1, tr1⟩ := r
          rw [hrec] at hrun
          simp only [Except.ok.injEq, Prod.mk.injEq] at hrun
          obtain ⟨e1, e2, e3, e4⟩ := hrun
          subst e1 e2 e3
          obtain ⟨Bf2, Af2, ev2, hinv2, hk⟩ := ih s1 Bf1 Af1 n1 c1 (tr ++ [c]) ev1 t1 cf1 nf1 tr1
            hinv1 hrec
          refine ⟨Bf2, Af2, ev2, ?_, hk⟩
          rw [← e4, hex]
          simpa using hinv2
    · rw [if_neg hlt] at hrun
      simp only [Except.ok.injEq, Prod.mk.injEq] at hrun
      obtain ⟨e1, e2, e3, e4⟩ := hrun
      subst e1 e2 e3 e4
      refine ⟨Bf, Af, ev, by simpa using hinv, ?_⟩
      have := hinv.evk
      omega

/-- With every slot of the buffer empty at the start and enough fuel, the
sweep returns. -/
theorem sweep_total (s0 : State) (h k : Nat) (hb0 : ∀ i, s0.buf i = none) (fuel : Nat) :
    ∀ (s : State) (Bf Af : List Nat) (n : Nat) (curr : Option Nat) (tr ev : List Nat),
      SweepInv s0 s h Bf Af k n curr tr ev → sweepMeasure Bf Af n < fuel →
      ∃ r, sweepTrace fuel s (some h) k ev.length n curr = .ok r := by
  induction fuel with
  | zero =>
    intro s Bf Af n curr tr ev _ hm
    omega
  | succ f ih =>
    intro s Bf Af n curr tr ev hinv hm
    rw [sweepTrace]
    by_cases hlt : ev.length < k
    · rw [if_pos hlt]
      obtain ⟨c, hex, hstep⟩ := sweep_step hinv hlt
      rcases hstep with ⟨hb, _⟩ | ⟨s1, n1, c1, Bf1, Af1, ev1, hit, hinv1, hm1⟩
      · exfalso
        apply hb
        rw [hinv.bufEq, if_neg (Nat.lt_irrefl _)]
        exact hb0 _
      · rw [hit]
        obtain ⟨r, hr⟩ := ih s1 Bf1 Af1 n1 c1 (tr ++ [c]) ev1 hinv1 (by omega)
        obtain ⟨t1, cf1, nf1, tr1⟩ := r
        simp only [hr]
        exact ⟨_, rfl⟩
    · rw [if_neg hlt]
      exact ⟨_, rfl⟩

/-- The invariant holds when the sweep starts. -/
theorem sweepInv_start {s : State} {h : Nat} {Bf Af : List Nat} {k : Nat}
    (hr : Rep s (h :: (Bf ++ Af)))
    (hcur : s.curr = lastOr Bf (some h) ∨ (s.curr = none ∧ Bf = []))
    (hk : k ≤ Bf.length + Af.length) :
    SweepInv { s with locked := true } { s with locked := true } h Bf Af k 0 s.curr [] [] where
  rep := rep_lock hr true
  locked := rfl
  cur := hcur
  cnt := by simpa using hk
  evk := Nat.zero_le _
  nle := by omega
  phase1 := fun h1 => by omega
  phase2 := fun h2 => by omega
  once := fun x _ => by simp
  twice := fun x => by simp
  headNot := by simp
  flags := fun _ _ => rfl
  bufEq := fun i => by simp
  list := by
    have : forward ({ s with locked := true } : State) = forward s := rfl
    rw [this, rep_forward hr]
    simp
  evNodup := List.nodup_nil
  evMem := fun x hx => by cases hx
  size := rfl
  produced := rfl
  bufIdx := rfl
  nEvictionCandidates := rfl
  nCandidate := rfl

theorem sweep_init {s : State} (hwf : WellFormed s) {k : Nat} (hk : k < s.size) :
    ∃ h Bf Af, s.head = some h ∧ forward s = h :: (Bf ++ Af) ∧
      SweepInv { s with locked := true } { s with locked := true } h Bf Af k 0 s.curr [] [] := by
  have hr := rep_of_wellFormed hwf
  cases hf : forward s with
  | nil =>
    have := hr.size
    rw [hf] at this
    simp at this
    omega
  | cons h R =>
    rw [hf] at hr
    have hlen : k ≤ R.length := by
      have := hr.size
      simp at this
      omega
    have hhead : s.head = some h := hr.head
    cases hc : s.curr with
    | none =>
      refine ⟨h, [], R, hhead, rfl, ?_⟩
      have := @sweepInv_start s h [] R k hr (Or.inr ⟨hc, rfl⟩) (by simpa using hlen)
      rw [hc] at this
      exact this
    | some c =>
      have hcm := hwf.hand c hc
      rw [hf] at hcm
      rcases List.mem_cons.mp hcm with e | hcR
      · subst e
        refine ⟨c, [], R, hhead, rfl, ?_⟩
        have := @sweepInv_start s c [] R k hr (Or.inl hc) (by simpa using hlen)
        rw [hc] at this
        exact this
      · obtain ⟨R1, R2, rfl⟩ := List.append_of_mem hcR
        have hl : h :: (R1 ++ c :: R2) = h :: ((R1 ++ [c]) ++ R2) := by simp
        refine ⟨h, R1 ++ [c], R2, hhead, hl, ?_⟩
        rw [hl] at hr
        have := @sweepInv_start s h (R1 ++ [c]) R2 k hr
          (Or.inl (by rw [hc, lastOr_snoc])) (by simp at hlen ⊢; omega)
        rw [hc] at this
        exact this

/-- `prepareEvictionCandidates` on a quiescent list whose buffer is
exhausted is the sweep followed by the three stores. -/
theorem prepare_eq_trace (fuel : Nat) (s : State) (hq : s.locked = false)
    (hidx : s.nEvictionCandidates ≤ s.bufIdx) :
    prepareEvictionCandidates fuel s =
      match sweepTrace fuel { s with locked := true } s.head s.nCandidate 0 0 s.curr with
      | .error e => .error e
      | .ok (t0, cf, _, _) =>
        .ok (unlock { t0 with curr := cf, nEvictionCandidates := s.nCandidate, bufIdx := 0 }) := by
  have hn : ¬ (s.bufIdx < s.nEvictionCandidates) := by omega
  unfold prepareEvictionCandidates
  simp only [lock, hq, Bool.false_eq_true, if_false, hn]
  rw [sweepLoop_eq_trace]
  cases sweepTrace fuel { s with locked := true } s.head s.nCandidate 0 0 s.curr with
  | error e => rfl
  | ok r => rfl

theorem sweepMeasure_le (Bf Af : List Nat) (n : Nat) :
    sweepMeasure Bf Af n ≤ 3 * (Bf.length + Af.length) := by
  unfold sweepMeasure
  have : (2 - n) * (Bf.length + Af.length) ≤ 2 * (Bf.length + Af.length) :=
    Nat.mul_le_mul_right _ (by omega)
  omega

/-- The sweep of `prepareEvictionCandidates` on a well-formed quiescent list
with more nodes than the target fill and an empty, exhausted buffer
returns, and what it returns satisfies the invariant. -/
theorem prepare_total {s : State} (hwf : WellFormed s) (hq : s.locked = false)
    (hsize : s.nCandidate < s.size) (hbuf : ∀ i, s.buf i = none)
    (hidx : s.nEvictionCandidates ≤ s.bufIdx) {fuel : Nat} (hfuel : 3 * s.size ≤ fuel) :
    ∃ h t0 cf nf tr Bf Af ev, s.head = some h ∧
      sweepTrace fuel { s with locked := true } (some h) s.nCandidate 0 0 s.curr =
        .ok (t0, cf, nf, tr) ∧
      prepareEvictionCandidates fuel s =
        .ok (unlock { t0 with curr := cf, nEvictionCandidates := s.nCandidate, bufIdx := 0 }) ∧
      SweepInv { s with locked := true } t0 h Bf Af s.nCandidate nf cf tr ev ∧
      ev.length = s.nCandidate := by
  obtain ⟨h, Bf0, Af0, hh, hf, hinv0⟩ := sweep_init hwf hsize
  have hlen : s.size = (h :: (Bf0 ++ Af0)).length := by
    rw [← hf]; exact (rep_of_wellFormed hwf).size
  have hm : sweepMeasure Bf0 Af0 0 < fuel := by
    have := sweepMeasure_le Bf0 Af0 0
    simp at hlen
    omega
  obtain ⟨r, hr⟩ := sweep_total { s with locked := true } h s.nCandidate hbuf fuel
    { s with locked := true } Bf0 Af0 0 s.curr [] [] hinv0 hm
  obtain ⟨t0, cf, nf, tr⟩ := r
  obtain ⟨Bf, Af, ev, hinv, hk⟩ := sweep_safe { s with locked := true } h s.nCandidate fuel
    { s with locked := true } Bf0 Af0 0 s.curr [] [] t0 cf nf tr hinv0 hr
  refine ⟨h, t0, cf, nf, tr, Bf, Af, ev, hh, hr, ?_, by simpa using hinv, hk⟩
  have hr2 : sweepTrace fuel { s with locked := true } s.head s.nCandidate 0 0 s.curr =
      .ok (t0, cf, nf, tr) :=
    (congrArg (fun x => sweepTrace fuel { s with locked := true } x s.nCandidate 0 0 s.curr)
      hh).trans hr
  rw [prepare_eq_trace fuel s hq hidx, hr2]

/-- What the invariant says of the state `prepareEvictionCandidates` leaves
once the sweep has returned. -/
theorem sweepInv_final {s t0 : State} {h : Nat} {Bf Af : List Nat} {k nf : Nat}
    {cf : Option Nat} {tr ev : List Nat}
    (hinv : SweepInv { s with locked := true } t0 h Bf Af k nf cf tr ev)
    (hk : ev.length = k) (hh : s.head = some h) (t : State)
    (ht : t = unlock { t0 with curr := cf, nEvictionCandidates := k, bufIdx := 0 }) :
    nf ≤ 2 ∧ (∀ x, tr.count x ≤ 2) ∧ ev.Nodup ∧
    (∀ i, t.buf i = if i < k then ev[i]? else s.buf i) ∧
    (∀ x ∈ ev, x ∈ forward s ∧ t.prev x = none ∧ t.next x = none) ∧
    forward t = (forward s).filter (fun x => decide (x ∉ ev)) ∧
    t.size + k = s.size ∧ t.nEvictionCandidates = k ∧ t.bufIdx = 0 ∧ t.locked = false ∧
    WellFormed t ∧ t.head = s.head ∧ t.nCandidate = s.nCandidate ∧
    t.produced = s.produced + k ∧
    tr.count h = 0 ∧ t.accessed h = s.accessed h ∧ h ∉ ev ∧ h ∈ forward t := by
  subst ht
  have hrep : Rep (unlock { t0 with curr := cf, nEvictionCandidates := k, bufIdx := 0 })
      (h :: (Bf ++ Af)) :=
    ⟨hinv.rep.nodup, hinv.rep.head, hinv.rep.tail, hinv.rep.size, hinv.rep.seg⟩
  have hfw : forward ({ s with locked := true } : State) = forward s := rfl
  have hlist := hinv.list
  rw [hfw] at hlist
  have hhev : h ∉ ev := by
    have : h ∈ (forward s).filter (fun x => decide (x ∉ ev)) := by
      rw [← hlist]; exact List.mem_cons_self _ _
    simpa using (List.mem_filter.mp this).2
  refine ⟨hinv.nle, hinv.twice, hinv.evNodup, ?_, ?_, ?_, ?_, rfl, rfl, rfl, ?_, ?_, hinv.nCandidate,
    ?_, hinv.headNot, hinv.flags h hinv.headNot, hhev, ?_⟩
  · intro i
    have := hinv.bufEq i
    rw [hk] at this
    exact this
  · intro x hx
    exact hinv.evMem x hx
  · rw [rep_forward hrep, hlist]
  · have := hinv.size
    rw [hk] at this
    exact this
  · refine wellFormed_of_rep hrep ?_
    intro c hc
    have hc2 : cf = some c := hc
    rcases hinv.cur with e | e
    · rw [hc2] at e
      have := lastOr_mem Bf h c e.symm
      simp at this ⊢
      tauto
    · rw [hc2] at e
      cases e.1
  · show t0.head = s.head
    rw [hinv.rep.head, hh]
    rfl
  · have := hinv.produced
    rw [hk] at this
    exact this
  · rw [rep_forward hrep]
    exact List.mem_cons_self _ _

/-- C16: on a well-formed quiescent list with `size > k`, every buffer slot
absent, `buf_idx >= n_candidates` and any accessed flags,
`prepare_eviction_candidates` returns (given fuel for `3 * size` iterations):
neither abort is reached.  It turns around at most twice (`n_iters <= 2` at
the end), examines no node more than twice, detaches exactly `k` distinct
linked nodes, which fill the slots `0..k-1` in order and have both links
absent afterwards, leaves the other nodes linked in their order, decreases
`size` by exactly `k`, and finishes with `n_candidates = k` and
`buf_idx = 0`. -/
theorem sweep_termination_exact_fill (s : State) (fuel : Nat) (hwf : WellFormed s)
    (hq : s.locked = false) (_hk : 1 ≤ s.nCandidate) (hsize : s.nCandidate < s.size)
    (hbuf : ∀ i, s.buf i = none) (hidx : s.nEvictionCandidates ≤ s.bufIdx)
    (hfuel : 3 * s.size ≤ fuel) :
    ∃ (t t0 : State) (cf : Option Nat) (nIters : Nat) (tr ev : List Nat),
      prepareEvictionCandidates fuel s = .ok t ∧
      sweepTrace fuel { s with locked := true } s.head s.nCandidate 0 0 s.curr =
        .ok (t0, cf, nIters, tr) ∧
      t = unlock { t0 with curr := cf, nEvictionCandidates := s.nCandidate, bufIdx := 0 } ∧
      nIters ≤ 2 ∧ (∀ x, tr.count x ≤ 2) ∧
      ev.length = s.nCandidate ∧ ev.Nodup ∧ (∀ i, t.buf i = ev[i]?) ∧
      (∀ x ∈ ev, x ∈ forward s ∧ t.prev x = none ∧ t.next x = none) ∧
      forward t = (forward s).filter (fun x => decide (x ∉ ev)) ∧
      t.size + s.nCandidate = s.size ∧
      t.nEvictionCandidates = s.nCandidate ∧ t.bufIdx = 0 := by
  obtain ⟨h, t0, cf, nf, tr, Bf, Af, ev, hh, hrun, hprep, hinv, hlen⟩ :=
    prepare_total hwf hq hsize hbuf hidx hfuel
  obtain ⟨h1, h2, h3, h4, h5, h6, h7, h8, h9, -⟩ := sweepInv_final hinv hlen hh _ rfl
  refine ⟨_, t0, cf, nf, tr, ev, hprep, ?_, rfl, h1, h2, hlen, h3, ?_, h5, h6, h7, h8, h9⟩
  · exact (congrArg
      (fun x => sweepTrace fuel { s with locked := true } x s.nCandidate 0 0 s.curr) hh).trans hrun
  · intro i
    rw [h4 i]
    split
    · rfl
    · rename_i hi
      rw [hbuf i]
      exact (List.getElem?_eq_none (by omega)).symm

theorem wellFormed_markAccessed {s : State} (h : WellFormed s) (n : Nat) :
    WellFormed (markAccessed s n) :=
  ⟨h.inv, h.headPrev, h.hand⟩

theorem sweep_termination_exact_fill_witness :
    ∃ t, prepareEvictionCandidates 12
        (markAccessed (linkAtHead (linkAtHead (linkAtHead (linkAtHead (empty 2) 1) 2) 3) 4) 1)
          = .ok t ∧
      t.size + 2 = 4 ∧ t.nEvictionCandidates = 2 ∧ t.bufIdx = 0 ∧
      t.buf 0 = some 2 ∧ t.buf 1 = some 3 ∧ forward t = [4, 1] := by
  obtain ⟨t, t0, cf, n, tr, ev, h1, -, -, -, -, -, -, -, -, -, h2, h3, h4⟩ :=
    sweep_termination_exact_fill
      (markAccessed (linkAtHead (linkAtHead (linkAtHead (linkAtHead (empty 2) 1) 2) 3) 4) 1) 12
      (wellFormed_markAccessed (wellFormed_linkAtHead (wellFormed_linkAtHead
        (wellFormed_linkAtHead (wellFormed_linkAtHead (wellFormed_empty 2) (by decide))
          (by decide)) (by decide)) (by decide)) 1)
      rfl (by decide) (by decide) (fun _ => rfl) (by decide) (by decide)
  have e : prepareEvictionCandidates 12
      (markAccessed (linkAtHead (linkAtHead (linkAtHead (linkAtHead (empty 2) 1) 2) 3) 4) 1)
        = .ok _ := rfl
  rw [e] at h1
  cases h1
  exact ⟨_, rfl, h2, h3, h4, rfl, rfl, rfl⟩

/-- C18: on a well-formed quiescent list with `size > k >= 1`, whatever the
accessed flags and the hand, a `prepare_eviction_candidates` that returns
leaves the head where it was: the head is the same node, it is still
linked, no buffer slot holds it unless it already did, and its accessed
flag is unchanged.  With every buffer slot absent, the buffer exhausted and
fuel for `3 * size` iterations, the call does return. -/
theorem head_never_delinked (s : State) (fuel : Nat) (hwf : WellFormed s)
    (hq : s.locked = false) (_hk : 1 ≤ s.nCandidate) (hsize : s.nCandidate < s.size) :
    (∀ t, prepareEvictionCandidates fuel s = .ok t →
      t.head = s.head ∧ (∀ i, t.buf i = s.head → s.buf i = s.head) ∧
      ∀ h, s.head = some h → h ∈ forward t ∧ t.accessed h = s.accessed h) ∧
    ((∀ i, s.buf i = none) → s.nEvictionCandidates ≤ s.bufIdx → 3 * s.size ≤ fuel →
      ∃ t, prepareEvictionCandidates fuel s = .ok t) := by
  constructor
  · intro t hrun
    obtain ⟨h, Bf0, Af0, hh, hf, hinv0⟩ := sweep_init hwf hsize
    by_cases hidx : s.nEvictionCandidates ≤ s.bufIdx
    · rw [prepare_eq_trace fuel s hq hidx] at hrun
      cases hr : sweepTrace fuel { s with locked := true } s.head s.nCandidate 0 0 s.curr with
      | error e =>
        rw [hr] at hrun
        cases hrun
      | ok r =>
        obtain ⟨t0, cf, nf, tr⟩ := r
        rw [hr] at hrun
        simp only [Except.ok.injEq] at hrun
        have hr2 : sweepTrace fuel { s with locked := true } (some h) s.nCandidate 0 0 s.curr =
            .ok (t0, cf, nf, tr) :=
          (congrArg (fun x => sweepTrace fuel { s with locked := true } x s.nCandidate 0 0
            s.curr) hh).symm.trans hr
        obtain ⟨Bf, Af, ev, hinv, hk⟩ := sweep_safe { s with locked := true } h s.nCandidate
          fuel { s with locked := true } Bf0 Af0 0 s.curr [] [] t0 cf nf tr hinv0 hr2
        have hinv2 : SweepInv { s with locked := true } t0 h Bf Af s.nCandidate nf cf tr ev := by
          simpa using hinv
        obtain ⟨-, -, -, h4, -, -, -, -, -, -, -, h12, -, -, -, h16, h17, h18⟩ :=
          sweepInv_final hinv2 hk hh t hrun.symm
        refine ⟨h12, ?_, ?_⟩
        · intro i hi
          rw [h4 i] at hi
          split at hi
          · exfalso
            rw [hh] at hi
            exact h17 (List.getElem?_mem hi)
          · exact hi
        · intro h2 hh2
          rw [hh] at hh2
          cases hh2
          exact ⟨h18, h16⟩
    · have hlt : s.bufIdx < s.nEvictionCandidates := by omega
      unfold prepareEvictionCandidates at hrun
      simp only [lock, hq, Bool.false_eq_true, if_false, hlt, if_true] at hrun
      cases hrun
      refine ⟨rfl, fun i hi => hi, ?_⟩
      intro h2 hh2
      exact ⟨rep_head_mem (rep_of_wellFormed hwf) hh2, rfl⟩
  · intro hbuf hidx hfuel
    obtain ⟨h, t0, cf, nf, tr, Bf, Af, ev, -, -, hprep, -, -⟩ :=
      prepare_total hwf hq hsize hbuf hidx hfuel
    exact ⟨_, hprep⟩

theorem head_never_delinked_witness :
    ∃ t, prepareEvictionCandidates 12
        (markAccessed (linkAtHead (linkAtHead (linkAtHead (linkAtHead (empty 2) 1) 2) 3) 4) 1)
          = .ok t ∧ t.head = some 4 := by
  have hthm := head_never_delinked
    (markAccessed (linkAtHead (linkAtHead (linkAtHead (linkAtHead (empty 2) 1) 2) 3) 4) 1) 12
    (wellFormed_markAccessed (wellFormed_linkAtHead (wellFormed_linkAtHead
      (wellFormed_linkAtHead (wellFormed_linkAtHead (wellFormed_empty 2) (by decide))
        (by decide)) (by decide)) (by decide)) 1)
    rfl (by decide) (by decide)
  obtain ⟨t, ht⟩ := hthm.2 (fun _ => rfl) (by decide) (by decide)
  exact ⟨t, ht, (hthm.1 t ht).1⟩

/-- Whatever the buffer holds at the start, with enough fuel the sweep either
returns or waits at a slot that is not empty: it reaches no `abort()`. -/
theorem sweep_total_or_spin (s0 : State) (h k : Nat) (fuel : Nat) :
    ∀ (s : State) (Bf Af : List Nat) (n : Nat) (curr : Option Nat) (tr ev : List Nat),
      SweepInv s0 s h Bf Af k n curr tr ev → sweepMeasure Bf Af n < fuel →
      (∃ r, sweepTrace fuel s (some h) k ev.length n curr = .ok r) ∨
        sweepTrace fuel s (some h) k ev.length n curr = .error .spin := by
  induction fuel with
  | zero =>
    intro s Bf Af n curr tr ev _ hm
    omega
  | succ f ih =>
    intro s Bf Af n curr tr ev hinv hm
    rw [sweepTrace]
    by_cases hlt : ev.length < k
    · rw [if_pos hlt]
      obtain ⟨c, hex, hstep⟩ := sweep_step hinv hlt
      rcases hstep with ⟨_, hspin⟩ | ⟨s1, n1, c1, Bf1, Af1, ev1, hit, hinv1, hm1⟩
      · right
        rw [hspin]
      · rw [hit]
        rcases ih s1 Bf1 Af1 n1 c1 (tr ++ [c]) ev1 hinv1 (by omega) with ⟨r, hr⟩ | he
        · left
          obtain ⟨t1, cf1, nf1, tr1⟩ := r
          simp only [hr]
          exact ⟨_, rfl⟩
        · right
          simp only [he]
    · rw [if_neg hlt]
      exact Or.inl ⟨_, rfl⟩

/-- On a well-formed quiescent list with more nodes than the target fill,
whatever the buffer holds, `prepareEvictionCandidates` either returns or
waits at a slot that is not empty: it reaches no `abort()`. -/
theorem prepare_ok_or_spin {s : State} (hwf : WellFormed s) (hq : s.locked = false)
    (hsize : s.nCandidate < s.size) {fuel : Nat} (hfuel : 3 * s.size ≤ fuel) :
    (∃ u, prepareEvictionCandidates fuel s = .ok u) ∨
      prepareEvictionCandidates fuel s = .error .spin := by
  by_cases hidx : s.nEvictionCandidates ≤ s.bufIdx
  · obtain ⟨h, Bf0, Af0, hh, hf, hinv0⟩ := sweep_init hwf hsize
    have hlen : s.size = (h :: (Bf0 ++ Af0)).length := by
      rw [← hf]; exact (rep_of_wellFormed hwf).size
    have hm : sweepMeasure Bf0 Af0 0 < fuel := by
      have := sweepMeasure_le Bf0 Af0 0
      simp at hlen
      omega
    have hhd : ∀ r, sweepTrace fuel { s with locked := true } (some h) s.nCandidate 0 0 s.curr = r →
        sweepTrace fuel { s with locked := true } s.head s.nCandidate 0 0 s.curr = r :=
      fun r hr =>
        (congrArg (fun x => sweepTrace fuel { s with locked := true } x s.nCandidate 0 0 s.curr)
          hh).trans hr
    rw [prepare_eq_trace fuel s hq hidx]
    rcases sweep_total_or_spin { s with locked := true } h s.nCandidate fuel
      { s with locked := true } Bf0 Af0 0 s.curr [] [] hinv0 hm with ⟨r, hr⟩ | he
    · left
      obtain ⟨t0, cf, nf, tr⟩ := r
      rw [hhd _ hr]
      exact ⟨_, rfl⟩
    · right
      rw [hhd _ he]
  · left
    unfold prepareEvictionCandidates
    simp only [lock, hq, Bool.false_eq_true, if_false]
    rw [if_pos (by omega)]
    exact ⟨_, rfl⟩

/-- C14 (as the code has it): on a well-formed quiescent list, for a linked
node `N` under the hand.  If `N` has a link (it is not the only node),
`remove(N)` completes and the hand is the value `N.prev` had before the
call; the list is well formed again, and a subsequent
`prepare_eviction_candidates` on it, with more nodes left than the target
fill and whatever the buffer holds, reaches no `abort()`: it returns, or it
waits at a buffer slot that is not empty; when every slot is absent and the
buffer is exhausted, it returns.  If `N` has no link (it is the only node),
`remove(N)` is the fast path: nothing changes and the hand stays on `N`. -/
theorem remove_hand_target (s : State) (N fuel : Nat) (hwf : WellFormed s)
    (hq : s.locked = false) (hN : N ∈ forward s) (hhand : s.curr = some N) :
    (s.prev N = none → s.next N = none → remove s N = .ok s) ∧
    ((s.prev N ≠ none ∨ s.next N ≠ none) →
      ∃ t, remove s N = .ok t ∧ t.curr = s.prev N ∧ WellFormed t ∧ t.locked = false ∧
        (t.nCandidate < t.size → 3 * t.size ≤ fuel →
          ((∃ u, prepareEvictionCandidates fuel t = .ok u) ∨
            prepareEvictionCandidates fuel t = .error .spin) ∧
          ((∀ i, t.buf i = none) → t.nEvictionCandidates ≤ t.bufIdx →
            ∃ u, prepareEvictionCandidates fuel t = .ok u))) := by
  refine ⟨remove_noop s N, ?_⟩
  intro hlink
  have hr := rep_of_wellFormed hwf
  have hl : ¬ (s.prev N = none ∧ s.next N = none) := by
    rintro ⟨h1, h2⟩
    rcases hlink with h | h
    · exact h h1
    · exact h h2
  obtain ⟨he, hr2⟩ := rep_remove hr hq hN hl
  have hcur : (unlock (clearLinks (unlinked { s with locked := true } N) N)).curr = s.prev N := by
    show (if some N = s.curr then s.prev N else s.curr) = s.prev N
    rw [if_pos hhand.symm]
  have hwf2 : WellFormed (unlock (clearLinks (unlinked { s with locked := true } N) N)) := by
    refine wellFormed_of_rep hr2 ?_
    intro c hc
    rw [hcur] at hc
    exact rep_prev_mem_erase hr hN hc
  refine ⟨_, he, hcur, hwf2, rfl, ?_⟩
  intro hsize hfuel
  refine ⟨prepare_ok_or_spin hwf2 rfl hsize hfuel, ?_⟩
  intro hbuf hidx
  obtain ⟨h, t0, cf, nf, tr, Bf, Af, ev, -, -, hprep, -, -⟩ :=
    prepare_total hwf2 rfl hsize hbuf hidx hfuel
  exact ⟨_, hprep⟩

theorem remove_hand_target_witness :
    ∃ t, remove (linkAtHead (linkAtHead (linkAtHead (empty 1) 1) 2) 3) 1 = .ok t ∧
      t.curr = some 2 ∧ ∃ u, prepareEvictionCandidates 6 t = .ok u := by
  obtain ⟨t, h1, h2, -, -, h5⟩ :=
    (remove_hand_target (linkAtHead (linkAtHead (linkAtHead (empty 1) 1) 2) 3) 1 6
      (wellFormed_linkAtHead (wellFormed_linkAtHead (wellFormed_linkAtHead
        (wellFormed_empty 1) (by decide)) (by decide)) (by decide))
      rfl (by decide) rfl).2 (Or.inl (by decide))
  have e : remove (linkAtHead (linkAtHead (linkAtHead (empty 1) 1) 2) 3) 1 = .ok _ := rfl
  rw [e] at h1
  cases h1
  exact ⟨_, rfl, h2, (h5 (by decide) (by decide)).2 (fun _ => rfl) (by decide)⟩

/-- C14, as stated, fails: on the one-node list `[7]` the hand is on `7`,
and `remove(7)` returns through the fast path: afterwards the hand is still
`7`, not the value `7.prev` had, which is absent. -/
theorem remove_hand_sole_keeps_hand :
    WellFormed (linkAtHead (empty 1) 7) ∧
    7 ∈ forward (linkAtHead (empty 1) 7) ∧
    (linkAtHead (empty 1) 7).curr = some 7 ∧
    (linkAtHead (empty 1) 7).prev 7 = none ∧
    ∃ t, remove (linkAtHead (empty 1) 7) 7 = .ok t ∧ t.curr = some 7 :=
  ⟨wellFormed_linkAtHead (wellFormed_empty 1) (by decide), by decide, rfl, rfl, _, rfl, rfl⟩

theorem insertAll_cons (s : State) (a : Nat) (ns : List Nat) :
    insertAll s (a :: ns) = insertAll (linked s a) ns := by
  show List.foldl linkAtHead (linkAtHead s a) ns = _
  rw [linkAtHead_eq]
  rfl

theorem rep_insertAll (ns : List Nat) : ∀ {s : State} {l : List Nat}, Rep s l → ns.Nodup →
    (∀ x ∈ ns, x ∉ l) → Rep (insertAll s ns) (ns.reverse ++ l) := by
  induction ns with
  | nil => intro s l h _ _; simpa [insertAll] using h
  | cons a t ih =>
    intro s l h hnd hdis
    rw [insertAll_cons]
    have hnd2 := List.nodup_cons.mp hnd
    have h1 : Rep (linked s a) (a :: l) := rep_linked h (hdis a (List.mem_cons_self _ _))
    have h2 := ih h1 hnd2.2 (by
      intro x hx hm
      rcases List.mem_cons.mp hm with e | hm
      · subst e; exact hnd2.1 hx
      · exact hdis x (List.mem_cons_of_mem _ hx) hm)
    simpa using h2

/-- The fields `insertAll` leaves alone. -/
theorem insertAll_frame (ns : List Nat) : ∀ (s : State),
    (insertAll s ns).accessed = s.accessed ∧ (insertAll s ns).buf = s.buf ∧
    (insertAll s ns).bufIdx = s.bufIdx ∧
    (insertAll s ns).nEvictionCandidates = s.nEvictionCandidates ∧
    (insertAll s ns).nCandidate = s.nCandidate ∧ (insertAll s ns).locked = s.locked ∧
    (insertAll s ns).produced = s.produced := by
  induction ns with
  | nil => intro s; exact ⟨rfl, rfl, rfl, rfl, rfl, rfl, rfl⟩
  | cons a t ih =>
    intro s
    rw [insertAll_cons]
    exact ih (linked s a)

theorem insertAll_curr_of_head (ns : List Nat) : ∀ (s : State), s.head ≠ none →
    (insertAll s ns).curr = s.curr := by
  induction ns with
  | nil => intro s _; rfl
  | cons a t ih =>
    intro s hs
    rw [insertAll_cons, ih (linked s a) (by simp [linked])]
    show (if s.head = none ∧ s.curr = none then some a else s.curr) = s.curr
    rw [if_neg (fun h => hs h.1)]

theorem insertAll_empty_curr (k : Nat) (ns : List Nat) :
    (insertAll (empty k) ns).curr = ns.head? := by
  cases ns with
  | nil => rfl
  | cons a t =>
    rw [insertAll_cons, insertAll_curr_of_head t _ (by simp [linked])]
    rfl

theorem wellFormed_insertAll (k : Nat) (ns : List Nat) (hnd : ns.Nodup) :
    WellFormed (insertAll (empty k) ns) := by
  have hr := rep_insertAll ns (rep_empty k) hnd (fun _ _ h => by cases h)
  refine wellFormed_of_rep hr ?_
  intro c hc
  rw [insertAll_empty_curr] at hc
  have : c ∈ ns := List.mem_of_mem_head? hc
  simpa using this

/-- A run of unaccessed nodes at the tail end of the list, with the cursor on
the last of them, is detached one per iteration, tail first. -/
theorem sweep_fifo (s0 : State) (h k : Nat) (hb0 : ∀ i, s0.buf i = none) :
    ∀ (E : List Nat) (s : State) (B : List Nat) (n : Nat) (tr ev : List Nat) (f : Nat),
      SweepInv s0 s h (B ++ E.reverse) [] k n (lastOr (B ++ E.reverse) (some h)) tr ev →
      (∀ x ∈ E, s.accessed x = false) → ev.length + E.length = k →
      ∃ t, sweepTrace (E.length + 1 + f) s (some h) k ev.length n
            (lastOr (B ++ E.reverse) (some h)) = .ok (t, lastOr B (some h), n, E) ∧
        SweepInv s0 t h B [] k n (lastOr B (some h)) (tr ++ E) (ev ++ E) := by
  intro E
  induction E with
  | nil =>
    intro s B n tr ev f hinv _ hlen
    refine ⟨s, ?_, by simpa using hinv⟩
    have hn : ¬ (ev.length < k) := by simp at hlen; omega
    show sweepTrace (0 + 1 + f) s (some h) k ev.length n _ = _
    rw [show 0 + 1 + f = f + 1 by omega, sweepTrace, if_neg hn]
    simp
  | cons e E ih =>
    intro s B n tr ev f hinv hacc hlen
    have hl : B ++ (e :: E).reverse = (B ++ E.reverse) ++ [e] := by simp
    rw [hl] at hinv ⊢
    rw [lastOr_snoc] at hinv ⊢
    obtain ⟨hch, -, -, -, hp, -, -⟩ := sweep_cursor_facts hinv
    have hlt : ev.length < k := by simp at hlen; omega
    obtain ⟨hinv2, ht⟩ := sweep_evict_inv hinv hlt
    have hturn : ¬ ((some e = some h ∨ some e = (none : Option Nat)) ∧ n > 2) := by
      rintro ⟨h1 | h1, -⟩
      · exact hch (Option.some.inj h1)
      · cases h1
    have hno : ¬ (some e = some h ∨ some e = (none : Option Nat)) := by
      rintro (h1 | h1)
      · exact hch (Option.some.inj h1)
      · cases h1
    have hex : examined s (some h) (some e) = some e := by
      unfold examined
      rw [if_neg hno]
    have hae : s.accessed e = false := hacc e (List.mem_cons_self _ _)
    have hb : s.buf ev.length = none := by
      rw [hinv.bufEq, if_neg (by omega), hb0]
    have hpn : s.prev e ≠ none := by rw [hp]; exact lastOr_ne_none _ h
    have hit := sweepIter_evict s (some h) ev.length n (some e) e hturn hex hae hb hinv.locked ht
    rw [if_neg hpn, hp, if_neg hno] at hit
    have hacc2 : ∀ x ∈ E, (clearLinks (unlinked { s with
        buf := fun i => if i = ev.length then some e else s.buf i,
        produced := s.produced + 1 } e) e).accessed x = false :=
      fun x hx => hacc x (List.mem_cons_of_mem _ hx)
    have hlen2 : (ev ++ [e]).length + E.length = k := by simp at hlen ⊢; omega
    obtain ⟨t, hrun, hinv3⟩ := ih _ B n (tr ++ [e]) (ev ++ [e]) f hinv2 hacc2 hlen2
    refine ⟨t, ?_, by simpa using hinv3⟩
    rw [show (e :: E).length + 1 + f = (E.length + 1 + f) + 1 by simp; omega, sweepTrace,
      if_pos hlt, hit]
    simp only
    rw [List.length_append, List.length_singleton] at hrun
    rw [hrun, hex]
    rfl

/-- C19: `n` distinct nodes `ns` (oldest first) are inserted at the head into
an empty list with target fill `k`, `1 <= k < n`, and nothing is accessed.
Then the hand equals the tail (the oldest node), no flag is set, and one
`prepare_eviction_candidates` (given fuel for `k + 1` iterations) returns
with slot `i` holding the `i`-th oldest node for `i < k` (no other slot is
filled), and the list that remains is the `n - k` most recently inserted
nodes in their original order, the hand and the tail on the oldest of
them. -/
theorem sieve_fifo (k : Nat) (ns : List Nat) (fuel : Nat) (hnd : ns.Nodup) (hk : 1 ≤ k)
    (hlt : k < ns.length) (hfuel : k + 1 ≤ fuel) :
    (insertAll (empty k) ns).curr = ns.head? ∧ (insertAll (empty k) ns).tail = ns.head? ∧
    (∀ x, (insertAll (empty k) ns).accessed x = false) ∧
    forward (insertAll (empty k) ns) = ns.reverse ∧
    ∃ t, prepareEvictionCandidates fuel (insertAll (empty k) ns) = .ok t ∧
      (∀ i, t.buf i = (ns.take k)[i]?) ∧ forward t = (ns.drop k).reverse ∧
      t.curr = ns[k]? ∧ t.tail = ns[k]? ∧ t.size = ns.length - k := by
  have hr0 := rep_insertAll ns (rep_empty k) hnd (fun _ _ h => by cases h)
  rw [List.append_nil] at hr0
  obtain ⟨hfa, hfb, hfi, hfe, hfc, hfl, -⟩ := insertAll_frame ns (empty k)
  have hcurr := insertAll_empty_curr k ns
  generalize insertAll (empty k) ns = s at hr0 hfa hfb hfi hfe hfc hfl hcurr ⊢
  have hacc : ∀ x, s.accessed x = false := fun x => by rw [hfa]; rfl
  have hbuf : ∀ i, s.buf i = none := fun i => by rw [hfb]; rfl
  have hq : s.locked = false := hfl
  have hnc : s.nCandidate = k := hfc
  have hidx : s.nEvictionCandidates ≤ s.bufIdx := by rw [hfe, hfi]; exact Nat.le_refl _
  have htail : s.tail = ns.head? := by rw [hr0.tail, List.getLast?_reverse]
  refine ⟨hcurr, htail, hacc, rep_forward hr0, ?_⟩
  -- split the nodes into the `k` oldest and the others
  have hsplit : ns = ns.take k ++ ns.drop k := (List.take_append_drop k ns).symm
  have hElen : (ns.take k).length = k := by rw [List.length_take]; omega
  have hRlen : (ns.drop k).length = ns.length - k := List.length_drop k ns
  generalize hE : ns.take k = E at hsplit hElen
  generalize hR : ns.drop k = R at hsplit hRlen
  have hRne : R.reverse ≠ [] := by
    intro h0
    have : R.reverse.length = 0 := by rw [h0]; rfl
    rw [List.length_reverse] at this
    omega
  obtain ⟨h, B, hhB⟩ := List.exists_cons_of_ne_nil hRne
  have hrev : ns.reverse = h :: ((B ++ E.reverse) ++ []) := by
    rw [hsplit, List.reverse_append, hhB]; simp
  have hnk : ns[k]? = (h :: B).getLast? := by
    rw [← hhB, List.getLast?_reverse, ← hR, List.head?_drop]
  have hcurE : ns.head? = lastOr (B ++ E.reverse) (some h) := by
    cases E with
    | nil => simp at hElen; omega
    | cons e E2 =>
      rw [hsplit]
      have : B ++ (e :: E2).reverse = (B ++ E2.reverse) ++ [e] := by simp
      rw [this, lastOr_snoc]
      rfl
  rw [hrev] at hr0
  have hh : s.head = some h := hr0.head
  have hstart : ∀ c, s.curr = c →
      SweepInv { s with locked := true } { s with locked := true } h (B ++ E.reverse) [] k 0 c
        [] [] := by
    intro c hc
    subst hc
    exact sweepInv_start hr0 (Or.inl (hcurr.trans hcurE)) (by
      simp only [List.length_append, List.length_reverse, List.length_nil]; omega)
  have hinv0 := hstart _ (hcurr.trans hcurE)
  obtain ⟨t0, hrun, hinv⟩ := sweep_fifo { s with locked := true } h k hbuf E
    { s with locked := true } B 0 [] [] (fuel - (k + 1)) hinv0 (fun x _ => hacc x)
    (by simp [hElen])
  have hf : E.length + 1 + (fuel - (k + 1)) = fuel := by omega
  rw [hf] at hrun
  have hrun2 : ∀ hd nc c, hd = some h → nc = k → c = lastOr (B ++ E.reverse) (some h) →
      sweepTrace fuel { s with locked := true } hd nc 0 0 c =
        .ok (t0, lastOr B (some h), 0, E) := by
    intro hd nc c e1 e2 e3
    subst e1 e2 e3
    exact hrun
  have hprep := prepare_eq_trace fuel s hq hidx
  rw [hrun2 s.head s.nCandidate s.curr hh hnc (hcurr.trans hcurE)] at hprep
  refine ⟨_, hprep, ?_, ?_, ?_, ?_, ?_⟩
  · intro i
    show t0.buf i = E[i]?
    rw [hinv.bufEq i]
    simp only [List.nil_append]
    by_cases hi : i < E.length
    · rw [if_pos hi]
    · rw [if_neg hi, List.getElem?_eq_none (by omega)]
      exact hbuf i
  · refine Eq.trans (@rep_forward _ (h :: (B ++ [])) ⟨hinv.rep.nodup, hinv.rep.head,
      hinv.rep.tail, hinv.rep.size, hinv.rep.seg⟩) ?_
    rw [List.append_nil, hhB]
  · show lastOr B (some h) = _
    rw [hnk]
    exact lastOr_cons_ne B h none
  · show t0.tail = _
    rw [hinv.rep.tail, List.append_nil, hnk]
  · show t0.size = _
    rw [hinv.rep.size, List.append_nil, ← hhB, List.length_reverse, hRlen]

theorem sieve_fifo_witness :
    ∃ t, prepareEvictionCandidates 3 (insertAll (empty 2) [1, 2, 3, 4, 5]) = .ok t ∧
      t.buf 0 = some 1 ∧ t.buf 1 = some 2 ∧ t.buf 2 = none ∧ forward t = [5, 4, 3] ∧
      t.curr = some 3 ∧ t.tail = some 3 := by
  obtain ⟨-, -, -, -, t, h1, h2, h3, h4, h5, -⟩ :=
    sieve_fifo 2 [1, 2, 3, 4, 5] 3 (by decide) (by decide) (by decide) (by decide)
  exact ⟨t, h1, h2 0, h2 1, h2 2, h3, h4, h5⟩

theorem claimed_zero (t : State) (h : t.bufIdx = 0) : claimed t 0 = t := by
  obtain ⟨hd, tl, cu, sz, pv, nx, ac, lk, bf, bi, ne, nc, pr⟩ := t
  cases h
  rfl

theorem claimed_succ_buf (t : State) (j : Nat) :
    (fun i => if i = j then none else (claimed t j).buf i) = (claimed t (j + 1)).buf := by
  funext i
  show (if i = j then none else if i < j then none else t.buf i) =
    if i < j + 1 then none else t.buf i
  by_cases h1 : i = j
  · rw [if_pos h1, if_pos (by omega)]
  · rw [if_neg h1]
    by_cases h2 : i < j
    · rw [if_pos h2, if_pos (by omega)]
    · rw [if_neg h2, if_neg (by omega)]

/-- A call of `getEvictionCandidate` while the buffer is not exhausted
claims the next slot and touches nothing else. -/
theorem getEvictionCandidate_claimed (t : State) (j fuel : Nat)
    (hj : j < t.nEvictionCandidates) (hfuel : 1 ≤ fuel) :
    getEvictionCandidate fuel (claimed t j) = .ok (claimed t (j + 1), t.buf j) := by
  obtain ⟨f, rfl⟩ : ∃ f, fuel = f + 1 := ⟨fuel - 1, by omega⟩
  have hn : ¬ (j ≥ t.nEvictionCandidates) := by omega
  have hb := claimed_succ_buf t j
  have hv : (claimed t j).buf j = t.buf j := by
    show (if j < j then none else t.buf j) = t.buf j
    rw [if_neg (Nat.lt_irrefl j)]
  show claimLoop (f + 1) { claimed t j with bufIdx := j + 1 } j = _
  rw [claimLoop]
  show (if j ≥ t.nEvictionCandidates then _ else _) = _
  rw [if_neg hn]
  show Except.ok (({ claimed t j with
      bufIdx := j + 1, buf := fun i => if i = j then none else (claimed t j).buf i } : State),
      (claimed t j).buf j) = _
  rw [hb, hv]
  rfl

/-- A call of `getEvictionCandidate` while the buffer is exhausted and the
list is not empty is the sweep loop followed by the claim. -/
theorem getEvictionCandidate_sweeps (s : State) (fuel : Nat) (hq : s.locked = false)
    (hidx : s.nEvictionCandidates ≤ s.bufIdx) (hsz : s.size ≠ 0) :
    getEvictionCandidate (fuel + 1) s =
      match sweepLoop (fuel + 1) { s with bufIdx := s.bufIdx + 1, locked := true } s.head
          s.nCandidate 0 0 s.curr with
      | .error e => .error e
      | .ok (s1, c) =>
        claimLoop fuel
          { unlock { s1 with curr := c, nEvictionCandidates := s.nCandidate, bufIdx := 0 } with
            bufIdx := 1 } 0 := by
  have h1 : s.bufIdx ≥ s.nEvictionCandidates := hidx
  have h2 : ¬ (s.bufIdx + 1 < s.nEvictionCandidates) := by omega
  show claimLoop (fuel + 1) { s with bufIdx := s.bufIdx + 1 } s.bufIdx = _
  rw [claimLoop]
  show (if s.bufIdx ≥ s.nEvictionCandidates then
    (if s.size = 0 then _ else _) else _) = _
  rw [if_pos h1, if_neg hsz]
  unfold prepareEvictionCandidates
  simp only [lock, hq, Bool.false_eq_true, if_false, h2]
  cases sweepLoop (fuel + 1) { s with bufIdx := s.bufIdx + 1, locked := true } s.head
      s.nCandidate 0 0 s.curr with
  | error e => rfl
  | ok r => rfl

/-- The first call of `getEvictionCandidate` on an exhausted, empty buffer:
one sweep, then the claim of slot 0. -/
theorem first_call {s : State} (hwf : WellFormed s) (hq : s.locked = false)
    (hk : 1 ≤ s.nCandidate) (hsize : s.nCandidate < s.size) (hbuf : ∀ i, s.buf i = none)
    (hidx : s.nEvictionCandidates ≤ s.bufIdx) {fuel : Nat} (hfuel : 3 * s.size ≤ fuel) :
    ∃ (t : State) (ev : List Nat),
      prepareEvictionCandidates fuel { s with bufIdx := s.bufIdx + 1 } = .ok t ∧
      getEvictionCandidate fuel s = .ok (claimed t 1, ev[0]?) ∧
      ev.length = s.nCandidate ∧ ev.Nodup ∧ (∀ x ∈ ev, x ∈ forward s) ∧
      (∀ i, t.buf i = ev[i]?) ∧ t.produced = s.produced + s.nCandidate ∧
      t.size + s.nCandidate = s.size ∧ t.nEvictionCandidates = s.nCandidate ∧
      t.bufIdx = 0 ∧ t.locked = false ∧ WellFormed t ∧ t.nCandidate = s.nCandidate ∧
      forward t = (forward s).filter (fun x => decide (x ∉ ev)) := by
  have hwf1 : WellFormed ({ s with bufIdx := s.bufIdx + 1 } : State) :=
    ⟨hwf.inv, hwf.headPrev, hwf.hand⟩
  have hidx1 : ({ s with bufIdx := s.bufIdx + 1 } : State).nEvictionCandidates ≤
      ({ s with bufIdx := s.bufIdx + 1 } : State).bufIdx := Nat.le_succ_of_le hidx
  obtain ⟨h, t0, cf, nf, tr, Bf, Af, ev, hh, -, hprep, hinv, hlen⟩ :=
    @prepare_total { s with bufIdx := s.bufIdx + 1 } hwf1 hq hsize hbuf hidx1 fuel hfuel
  obtain ⟨-, -, hnd, hb, hmem, hfw, hsz, hne, hbi, hlk, hwft, -, hnc, hpr, -, -, -, -⟩ :=
    sweepInv_final hinv hlen hh _ rfl
  have hbt : ∀ i,
      (unlock { t0 with curr := cf, nEvictionCandidates := s.nCandidate, bufIdx := 0 }).buf i =
        ev[i]? := by
    intro i
    rw [hb i]
    by_cases hi : i < s.nCandidate
    · exact if_pos hi
    · have hlen2 : ev.length = s.nCandidate := hlen
      have : ev[i]? = none := List.getElem?_eq_none (by rw [hlen2]; exact Nat.le_of_not_lt hi)
      rw [this]
      exact (if_neg hi).trans (hbuf i)
  refine ⟨_, ev, hprep, ?_, hlen, hnd, fun x hx => (hmem x hx).1, hbt, hpr, hsz, hne, hbi, hlk,
    hwft, hnc, hfw⟩
  obtain ⟨f, rfl⟩ : ∃ f, fuel = f + 1 := ⟨fuel - 1, by omega⟩
  have h1 : s.bufIdx ≥ s.nEvictionCandidates := hidx
  have hsz0 : s.size ≠ 0 := by omega
  show claimLoop (f + 1) { s with bufIdx := s.bufIdx + 1 } s.bufIdx = _
  rw [claimLoop]
  show (if s.bufIdx ≥ s.nEvictionCandidates then
    (if s.size = 0 then _ else _) else _) = _
  rw [if_pos h1, if_neg hsz0, hprep]
  show getEvictionCandidate f
    (unlock { t0 with curr := cf, nEvictionCandidates := s.nCandidate, bufIdx := 0 }) = _
  have hc := getEvictionCandidate_claimed
    (unlock { t0 with curr := cf, nEvictionCandidates := s.nCandidate, bufIdx := 0 }) 0 f hk
    (by omega)
  rw [claimed_zero _ rfl, hbt 0] at hc
  exact hc

/-- C11: on a well-formed quiescent list with more than `k` linked nodes,
target fill `k >= 1`, every buffer slot absent and the buffer exhausted
(`buf_idx >= n_candidates`), given fuel for `3 * size` iterations.  The
first `get_eviction_candidate()` is one `prepare_eviction_candidates` (one
sweep: `k` stores, which put `k` distinct linked nodes `ev` in the slots
`0..k-1`) followed by the claim of slot 0, which it returns.  Each of the
next `k - 1` calls returns the next slot and changes only `buf_idx` and the
slot it claims (the state goes from `claimed t j` to `claimed t (j + 1)`):
no sweep runs, and head, tail, hand, size and the links stay.  The
`(k + 1)`-th call is the sweep loop again, followed by the claim; when more
than `k` nodes are left it returns the first node of that new sweep.  The
sweep of the first call decreases `size` by `k`. -/
theorem bulk_refill (s : State) (fuel : Nat) (hwf : WellFormed s) (hq : s.locked = false)
    (hk : 1 ≤ s.nCandidate) (hsize : s.nCandidate < s.size) (hbuf : ∀ i, s.buf i = none)
    (hidx : s.nEvictionCandidates ≤ s.bufIdx) (hfuel : 3 * s.size ≤ fuel) :
    ∃ (t : State) (ev : List Nat),
      prepareEvictionCandidates fuel { s with bufIdx := s.bufIdx + 1 } = .ok t ∧
      ev.length = s.nCandidate ∧ ev.Nodup ∧ (∀ x ∈ ev, x ∈ forward s) ∧
      (∀ i, t.buf i = ev[i]?) ∧ t.produced = s.produced + s.nCandidate ∧
      t.size + s.nCandidate = s.size ∧
      getEvictionCandidate fuel s = .ok (claimed t 1, ev[0]?) ∧
      (∀ j, 1 ≤ j → j < s.nCandidate →
        getEvictionCandidate fuel (claimed t j) = .ok (claimed t (j + 1), ev[j]?)) ∧
      getEvictionCandidate fuel (claimed t s.nCandidate) =
        (match sweepLoop fuel
            { claimed t s.nCandidate with
              bufIdx := (claimed t s.nCandidate).bufIdx + 1, locked := true }
            (claimed t s.nCandidate).head (claimed t s.nCandidate).nCandidate 0 0
            (claimed t s.nCandidate).curr with
        | .error e => .error e
        | .ok (s1, c) =>
          claimLoop (fuel - 1)
            { unlock { s1 with
                curr := c, nEvictionCandidates := (claimed t s.nCandidate).nCandidate,
                bufIdx := 0 } with
              bufIdx := 1 } 0) ∧
      (s.nCandidate < t.size →
        ∃ (t2 : State) (ev2 : List Nat),
          getEvictionCandidate fuel (claimed t s.nCandidate) = .ok (claimed t2 1, ev2[0]?) ∧
          ev2.length = s.nCandidate ∧ (∀ x ∈ ev2, x ∈ forward t) ∧
          t2.produced = t.produced + s.nCandidate) := by
  obtain ⟨t, ev, hprep, hcall, hlen, hnd, hmem, hbt, hpr, hsz, hne, hbi, hlk, hwft, hnc, -⟩ :=
    first_call hwf hq hk hsize hbuf hidx hfuel
  have hf1 : 1 ≤ fuel := by omega
  have hidxu : (claimed t s.nCandidate).nEvictionCandidates ≤
      (claimed t s.nCandidate).bufIdx := by
    show t.nEvictionCandidates ≤ s.nCandidate
    rw [hne]
  refine ⟨t, ev, hprep, hlen, hnd, hmem, hbt, hpr, hsz, hcall, ?_, ?_, ?_⟩
  · intro j _ hj
    rw [getEvictionCandidate_claimed t j fuel (by rw [hne]; exact hj) hf1, hbt j]
  · obtain ⟨f, rfl⟩ : ∃ f, fuel = f + 1 := ⟨fuel - 1, by omega⟩
    have hsu : (claimed t s.nCandidate).size ≠ 0 := by
      show t.size ≠ 0
      omega
    exact getEvictionCandidate_sweeps (claimed t s.nCandidate) f hlk hidxu hsu
  · intro hmore
    have hwfu : WellFormed (claimed t s.nCandidate) := ⟨hwft.inv, hwft.headPrev, hwft.hand⟩
    have hku : 1 ≤ (claimed t s.nCandidate).nCandidate := by
      show 1 ≤ t.nCandidate
      rw [hnc]; exact hk
    have hsizeu : (claimed t s.nCandidate).nCandidate < (claimed t s.nCandidate).size := by
      show t.nCandidate < t.size
      rw [hnc]; exact hmore
    have hbufu : ∀ i, (claimed t s.nCandidate).buf i = none := by
      intro i
      show (if i < s.nCandidate then none else t.buf i) = none
      by_cases hi : i < s.nCandidate
      · rw [if_pos hi]
      · rw [if_neg hi, hbt i]
        exact List.getElem?_eq_none (by omega)
    have hfuelu : 3 * (claimed t s.nCandidate).size ≤ fuel := by
      show 3 * t.size ≤ fuel
      omega
    obtain ⟨t2, ev2, -, hcall2, hlen2, -, hmem2, -, hpr2, -⟩ :=
      first_call hwfu hlk hku hsizeu hbufu hidxu hfuelu
    refine ⟨t2, ev2, hcall2, hlen2.trans hnc, hmem2, ?_⟩
    rw [hpr2]
    show t.produced + t.nCandidate = _
    rw [hnc]

theorem bulk_refill_witness :
    ∃ (t : State) (ev : List Nat),
      getEvictionCandidate 300 (insertAll (empty 16) (List.range' 1 100)) =
        .ok (claimed t 1, ev[0]?) ∧
      ev.length = 16 ∧
      (∀ j, 1 ≤ j → j < 16 →
        getEvictionCandidate 300 (claimed t j) = .ok (claimed t (j + 1), ev[j]?)) ∧
      ∃ (t2 : State) (ev2 : List Nat),
        getEvictionCandidate 300 (claimed t 16) = .ok (claimed t2 1, ev2[0]?) ∧
        ev2.length = 16 := by
  have hr := rep_insertAll (List.range' 1 100) (rep_empty 16) (List.nodup_range' 1 100)
    (fun _ _ h => by cases h)
  obtain ⟨-, hfb, hfi, hfe, hfc, hfl, -⟩ := insertAll_frame (List.range' 1 100) (empty 16)
  have hsz : (insertAll (empty 16) (List.range' 1 100)).size = 100 := by
    rw [hr.size]; simp
  have hnc : (insertAll (empty 16) (List.range' 1 100)).nCandidate = 16 := hfc
  obtain ⟨t, ev, -, h2, -, -, -, -, h6, h7, h8, -, h10⟩ :=
    bulk_refill (insertAll (empty 16) (List.range' 1 100)) 300
      (wellFormed_insertAll 16 _ (List.nodup_range' 1 100)) hfl
      (by rw [hnc]; decide) (by rw [hnc, hsz]; decide) (fun i => by rw [hfb]; rfl)
      (by rw [hfe, hfi]; exact Nat.le_refl _) (by rw [hsz])
  rw [hnc] at h2 h8 h10
  rw [hnc, hsz] at h6
  obtain ⟨t2, ev2, h11, h12, -⟩ := h10 (by omega)
  exact ⟨t, ev, h7, h2, h8, t2, ev2, h11, h12⟩

end SieveListBuffered
